import Mathlib

/-!
Verification development for the kalendar on-call scheduling engine
(source: src/unnamed/part_004 and its date/constants helpers).

The engine is a pure function from a monthly schedule request to a schedule
result.  We embed it shallowly: JavaScript numbers used integrally become
`Int` (or `Nat` for day indices and worker ids), JavaScript objects with
numeric keys become sorted association lists (presence of a key is
observable), records that are only ever read through a default become total
functions, and the xorshift random stream becomes an explicit stream of
rationals indexed by a draw counter.  `Math.random()` (used when no seed is
given) is modelled as an external entropy stream passed as an argument.
-/

namespace Kalendar

/-! ## Calendar model (src/src/utils/date.ts, JavaScript Date semantics)

JavaScript `Date` uses the proleptic Gregorian calendar.  The constructor
`new Date(year, monthIndex, day)` maps a year argument in 0..99 to
1900+year, and normalizes out-of-range month indices and days.  We model a
date by its count of days since 1970-01-01 (Howard Hinnant's civil-date
algorithm) and recover `getDay`, `getDate`, `getFullYear`, `getMonth`. -/

/-- Days since 1970-01-01 of the civil date (y, m, d), m in 1..12. -/
def daysFromCivil (y m d : Int) : Int :=
  let y2 : Int := if m ≤ 2 then y - 1 else y
  let era : Int := Int.ediv (if y2 ≥ 0 then y2 else y2 - 399) 400
  let yoe : Int := y2 - era * 400
  let mp : Int := Int.emod (m + 9) 12
  let doy : Int := Int.ediv (153 * mp + 2) 5 + d - 1
  let doe : Int := yoe * 365 + Int.ediv yoe 4 - Int.ediv yoe 100 + doy
  era * 146097 + doe - 719468

/-- Inverse of `daysFromCivil`: the civil date (year, month, day) of a
days-since-epoch count. -/
def civilFromDays (z0 : Int) : Int × Int × Int :=
  let z : Int := z0 + 719468
  let era : Int := Int.ediv (if z ≥ 0 then z else z - 146096) 146097
  let doe : Int := z - era * 146097
  let yoe : Int :=
    Int.ediv (doe - Int.ediv doe 1460 + Int.ediv doe 36524 - Int.ediv doe 146096) 365
  let y : Int := yoe + era * 400
  let doy : Int := doe - (365 * yoe + Int.ediv yoe 4 - Int.ediv yoe 100)
  let mp : Int := Int.ediv (5 * doy + 2) 153
  let d : Int := doy - Int.ediv (153 * mp + 2) 5 + 1
  let m : Int := mp + (if mp < 10 then 3 else -9)
  (if m ≤ 2 then y + 1 else y, m, d)

/-- The JavaScript Date constructor quirk: a year argument 0..99 means
1900+year. -/
def jsYear (y : Int) : Int :=
  if 0 ≤ y ∧ y ≤ 99 then y + 1900 else y

/-- Days since epoch of `new Date(y, m0, d)` (m0 is the 0-based month index;
out-of-range m0 and d are normalized as JavaScript does). -/
def jsDateAbs (y m0 d : Int) : Int :=
  let ya : Int := jsYear y
  let yy : Int := ya + Int.ediv m0 12
  let mm : Int := Int.emod m0 12 + 1
  daysFromCivil yy mm 1 + (d - 1)

/-- `weekday` from date.ts: `new Date(year, month - 1, day).getDay()`,
0 = Sunday .. 6 = Saturday. -/
def weekday (year month day : Int) : Int :=
  Int.emod (jsDateAbs year (month - 1) day + 4) 7

/-- `daysInMonth` from date.ts: `new Date(year, month, 0).getDate()`. -/
def daysInMonth (year month : Int) : Nat :=
  (civilFromDays (jsDateAbs year month 0)).2.2.toNat

/-- `isWeekendServiceDay` from date.ts: Friday, Saturday or Sunday. -/
def isWeekendServiceDay (year month day : Int) : Bool :=
  let d := weekday year month day
  d = 5 ∨ d = 6 ∨ d = 0

/-- `isFriday` from date.ts. -/
def isFriday (year month day : Int) : Bool :=
  weekday year month day = 5

/-- `isTuesdayOrThursday` from the engine (weekday 2 or 4). -/
def isTuesdayOrThursday (year month day : Int) : Bool :=
  let wd := weekday year month day
  wd = 2 ∨ wd = 4

/-- `weekendBlockKey`: for a Friday/Saturday/Sunday, the civil date of the
Friday anchoring its weekend block, else `none`.  The source formats the
date as a string "YYYY-MM-DD"; distinct civil dates give distinct strings,
so the (year, month, day) triple is a faithful model of the key. -/
def weekendBlockKey (year month day : Int) : Option (Int × Int × Int) :=
  let abs := jsDateAbs year (month - 1) day
  let wd := Int.emod (abs + 4) 7
  if wd = 5 ∨ wd = 6 ∨ wd = 0 then
    let shiftToFriday : Int := if wd = 5 then 0 else if wd = 6 then -1 else -2
    some (civilFromDays (abs + shiftToFriday))
  else
    none

/-! ## Data model (src/unnamed types and constants) -/

inductive Role where
  | primar
  | zastupce
  | regular
deriving DecidableEq, Repr

structure Doctor where
  id : Nat
  order : Int
  name : String
  role : Role
deriving DecidableEq, Repr

/-- `AMBULANCE_WEEKDAYS_BY_DOCTOR_ID` from constants.ts (with the source's
`?? []` default for ids outside the table). -/
def ambulanceWeekdays (id : Nat) : List Int :=
  match id with
  | 1 => [4]
  | 2 => [2]
  | 3 => [1]
  | 4 => [4]
  | 5 => [5]
  | 6 => [3]
  | 7 => [2]
  | 8 => []
  | 9 => [5]
  | 10 => [3]
  | _ => []

/-- The schedule request.  Sparse JavaScript records that are only read
through a `?? default` are total functions; records where presence matters
(`locks`, per-doctor max/target entries, the seed) are `Option`-valued. -/
structure ScheduleInput where
  year : Int
  month : Int
  doctors : List Doctor
  maxShiftsByDoctor : Nat → Option Int
  targetShiftsByDoctor : Nat → Option Int
  preferences : Nat → Nat → Nat
  locks : Nat → Option Nat
  prevPenultimateDoctorId : Option Nat
  prevLastDoctorId : Option Nat
  seed : Option String

def isLeadershipDoctor (d : Doctor) : Bool :=
  d.role = Role.primar ∨ d.role = Role.zastupce

def isCertifiedDoctor (d : Doctor) : Bool :=
  d.order ≤ 5

/-- Build a per-id record by iterating the doctor list (later entries with
the same id overwrite earlier ones, as JavaScript assignment does). -/
def buildByDoctor (doctors : List Doctor) (f : Doctor → Int) : Nat → Int :=
  doctors.foldl (fun m d => fun i => if i = d.id then f d else m i) (fun _ => 0)

/-- `initialCaps`: 1 for primar, 2 for zastupce, else the configured max
floored and clamped to ≥ 0 (default 5 when absent / non-finite). -/
def initialCaps (input : ScheduleInput) : Nat → Int :=
  buildByDoctor input.doctors fun d =>
    match d.role with
    | Role.primar => 1
    | Role.zastupce => 2
    | Role.regular => max 0 ((input.maxShiftsByDoctor d.id).getD 5)

/-- `sanitizeTargets`: the requested target floored and clamped to ≥ 0
(default 0 when absent / non-finite). -/
def sanitizeTargets (input : ScheduleInput) : Nat → Int :=
  buildByDoctor input.doctors fun d =>
    max 0 ((input.targetShiftsByDoctor d.id).getD 0)

def hasCrossMonthRestBlock (doctorId : Nat) (lastDoctorId : Option Nat) : Bool :=
  lastDoctorId = some doctorId

/-- `preferenceAt` (the `?? 0` default is already folded into the total
function field). -/
def preferenceAt (input : ScheduleInput) (doctorId : Nat) (day : Nat) : Nat :=
  input.preferences doctorId day

/-- Stable insertion sort by an integer comparator (negative means the
first argument sorts earlier); ties keep the original order, as
JavaScript's stable `Array.prototype.sort` does for consistent
comparators. -/
def insertCmp (cmp : α → α → Int) (x : α) : List α → List α
  | [] => [x]
  | y :: ys => if cmp x y ≤ 0 then x :: y :: ys else y :: insertCmp cmp x ys

def sortCmp (cmp : α → α → Int) : List α → List α
  | [] => []
  | x :: xs => insertCmp cmp x (sortCmp cmp xs)

/-- `computeWantedDoctorsByDay`: for each day of the month, the ids of the
doctors with want (3) preference, sorted by ascending order; `[]` outside
1..days (the source's `?? []`). -/
def computeWantedDoctorsByDay (input : ScheduleInput) : Nat → List Nat :=
  fun day =>
    if 1 ≤ day ∧ day ≤ daysInMonth input.year input.month then
      ((sortCmp (fun a b => a.order - b.order)
        (input.doctors.filter fun d => preferenceAt input d.id day = 3)).map
          fun d => d.id)
    else []

/-- `forcedWantDoctorForDay`: the first wanted doctor whose running count
is still below their target. -/
def forcedWantDoctorForDay (day : Nat) (wanted : Nat → List Nat)
    (counts : Nat → Int) (targets : Nat → Int) : Option Nat :=
  (wanted day).find? fun id => counts id < targets id

def lockedDoctor (input : ScheduleInput) (day : Nat) : Option Nat :=
  input.locks day

/-! ## Assignment maps

`state.assignments` is a JavaScript object with numeric day keys: presence
of a key is observable (`Object.keys(...).length`, the truthiness test
`if (state.assignments[day])`), and enumeration order is ascending numeric.
We model it as an association list sorted strictly by day. -/

abbrev AssignMap := List (Nat × Nat)

def aget : AssignMap → Nat → Option Nat
  | [], _ => none
  | p :: ps, d => if p.1 = d then some p.2 else aget ps d

/-- Insert / overwrite a binding, keeping keys sorted ascending. -/
def aset (d v : Nat) : AssignMap → AssignMap
  | [] => [(d, v)]
  | p :: ps =>
    if d < p.1 then (d, v) :: p :: ps
    else if d = p.1 then (d, v) :: ps
    else p :: aset d v ps

/-- `delete m[d]`. -/
def adel (d : Nat) (m : AssignMap) : AssignMap :=
  m.filter fun p => ¬ p.1 = d

/-- The JavaScript truthiness test `if (state.assignments[day])`: present
and nonzero. -/
def truthyAt (m : AssignMap) (d : Nat) : Bool :=
  match aget m d with
  | some v => ¬ v = 0
  | none => false

/-- Number of days in `m` currently mapped to `id`. -/
def countVal (m : AssignMap) (id : Nat) : Nat :=
  (m.filter fun p => p.2 = id).length

/-! ## Solver working state -/

abbrev BlockKey := Int × Int × Int

/-- The solver's mutable working state.  `counts` and `weekendBlockTotals`
are only ever read through `?? 0` (or at ids the code initialized), so they
are total functions; per-block counts are naturals because the code never
drives them below zero (increment, guarded decrement, delete). -/
structure SolveState where
  assignments : AssignMap
  counts : Nat → Int
  weekendBlocksByDoctor : Nat → BlockKey → Nat
  weekendBlockTotals : Nat → Int

def createInitialState (_doctors : List Doctor) : SolveState :=
  { assignments := []
    counts := fun _ => 0
    weekendBlocksByDoctor := fun _ _ => 0
    weekendBlockTotals := fun _ => 0 }

/-- `applyAssignment`. -/
def applyAssignment (s : SolveState) (year month : Int) (day : Nat)
    (doctorId : Nat) : SolveState :=
  let s1 : SolveState :=
    { s with
      assignments := aset day doctorId s.assignments
      counts := fun i => if i = doctorId then s.counts doctorId + 1 else s.counts i }
  match weekendBlockKey year month (day : Int) with
  | none => s1
  | some k =>
    let prevCount := s.weekendBlocksByDoctor doctorId k
    { s1 with
      weekendBlocksByDoctor := fun i k2 =>
        if i = doctorId ∧ k2 = k then prevCount + 1
        else s1.weekendBlocksByDoctor i k2
      weekendBlockTotals := fun i =>
        if i = doctorId ∧ prevCount = 0 then s.weekendBlockTotals doctorId + 1
        else s1.weekendBlockTotals i }

/-- The solver's inline undo of an assignment (solveWithCaps lines
495-506): delete the day, decrement the count, and reverse the
weekend-block bookkeeping. -/
def undoAssignment (s : SolveState) (year month : Int) (day : Nat)
    (doctorId : Nat) : SolveState :=
  let s1 : SolveState :=
    { s with
      assignments := adel day s.assignments
      counts := fun i => if i = doctorId then s.counts doctorId - 1 else s.counts i }
  match weekendBlockKey year month (day : Int) with
  | none => s1
  | some k =>
    let prevCount := s.weekendBlocksByDoctor doctorId k
    if prevCount ≤ 1 then
      { s1 with
        weekendBlocksByDoctor := fun i k2 =>
          if i = doctorId ∧ k2 = k then 0 else s1.weekendBlocksByDoctor i k2
        weekendBlockTotals := fun i =>
          if i = doctorId then s.weekendBlockTotals doctorId - 1
          else s1.weekendBlockTotals i }
    else
      { s1 with
        weekendBlocksByDoctor := fun i k2 =>
          if i = doctorId ∧ k2 = k then prevCount - 1
          else s1.weekendBlocksByDoctor i k2 }

/-! ## Hard feasibility predicates -/

/-- Context shared by the solver passes: the request plus the derived caps,
targets and per-day want lists, and the strictness flag. -/
structure SolveCtx where
  input : ScheduleInput
  caps : Nat → Int
  targets : Nat → Int
  wanted : Nat → List Nat
  strictTargets : Bool

def SolveCtx.days (ctx : SolveCtx) : Nat :=
  daysInMonth ctx.input.year ctx.input.month

/-- `isHardAllowed`, check for check in source order. -/
def isHardAllowed (ctx : SolveCtx) (day : Nat) (doctor : Doctor)
    (s : SolveState) : Bool :=
  match forcedWantDoctorForDay day ctx.wanted s.counts ctx.targets with
  | some fid =>
    if ¬ fid = doctor.id then false else
      isHardAllowedRest ctx day doctor s
  | none => isHardAllowedRest ctx day doctor s
where
  isHardAllowedRest (ctx : SolveCtx) (day : Nat) (doctor : Doctor)
      (s : SolveState) : Bool :=
    let input := ctx.input
    match lockedDoctor input day with
    | some forced =>
      if ¬ forced = doctor.id then false else
        isHardAllowedTail ctx day doctor s
    | none => isHardAllowedTail ctx day doctor s
  isHardAllowedTail (ctx : SolveCtx) (day : Nat) (doctor : Doctor)
      (s : SolveState) : Bool :=
    let input := ctx.input
    if preferenceAt input doctor.id day = 1 then false
    else if day = 1 ∧ hasCrossMonthRestBlock doctor.id input.prevLastDoctorId then false
    else if isLeadershipDoctor doctor ∧
        isWeekendServiceDay input.year input.month (day : Int) then false
    else if isTuesdayOrThursday input.year input.month (day : Int) ∧
        ¬ isCertifiedDoctor doctor then false
    else
      let nextCount := s.counts doctor.id + 1
      if nextCount > ctx.caps doctor.id then false
      else if ctx.strictTargets ∧ nextCount > ctx.targets doctor.id then false
      else if aget s.assignments (day - 1) = some doctor.id then false
      else if aget s.assignments (day + 1) = some doctor.id then false
      else
        match weekendBlockKey input.year input.month (day : Int) with
        | some k =>
          let hasThisBlock := s.weekendBlocksByDoctor doctor.id k > 0
          if ¬ hasThisBlock ∧ s.weekendBlockTotals doctor.id ≥ 2 then false
          else true
        | none => true

/-- `isBaseHardAllowedForDiscussion`: the relaxed variant used by the
proposal builder (drops the forced-want, cap and target checks). -/
def isBaseHardAllowedForDiscussion (input : ScheduleInput) (day : Nat)
    (doctor : Doctor) (s : SolveState) : Bool :=
  match lockedDoctor input day with
  | some forced =>
    if ¬ forced = doctor.id then false else
      isBaseTail input day doctor s
  | none => isBaseTail input day doctor s
where
  isBaseTail (input : ScheduleInput) (day : Nat) (doctor : Doctor)
      (s : SolveState) : Bool :=
    if preferenceAt input doctor.id day = 1 then false
    else if day = 1 ∧ hasCrossMonthRestBlock doctor.id input.prevLastDoctorId then false
    else if isLeadershipDoctor doctor ∧
        isWeekendServiceDay input.year input.month (day : Int) then false
    else if isTuesdayOrThursday input.year input.month (day : Int) ∧
        ¬ isCertifiedDoctor doctor then false
    else if aget s.assignments (day - 1) = some doctor.id then false
    else if aget s.assignments (day + 1) = some doctor.id then false
    else
      match weekendBlockKey input.year input.month (day : Int) with
      | some k =>
        let hasThisBlock := s.weekendBlocksByDoctor doctor.id k > 0
        if ¬ hasThisBlock ∧ s.weekendBlockTotals doctor.id ≥ 2 then false
        else true
      | none => true

/-- `scoreCandidate` (an integer; the jitter is added at comparison time). -/
def scoreCandidate (day : Nat) (doctor : Doctor) (s : SolveState)
    (input : ScheduleInput) (targets : Nat → Int) : Int :=
  let pref := preferenceAt input doctor.id day
  let score0 : Int := 0
  let score1 := if pref = 3 then score0 - 250 else score0
  let score2 := if pref = 2 then score1 + 50 else score1
  let score3 := if aget s.assignments (day - 2) = some doctor.id then score2 + 10 else score2
  let score4 := if aget s.assignments (day + 2) = some doctor.id then score3 + 10 else score3
  let nextCount := s.counts doctor.id + 1
  let score5 := score4 + (nextCount - targets doctor.id).natAbs * 12
  let nextWeekday := Int.emod (weekday input.year input.month (day : Int) + 1) 7
  if (ambulanceWeekdays doctor.id).contains nextWeekday then score5 + 18 else score5

/-! ## Exact fractions

The jittered comparison values `score + rng() * 0.001` are JavaScript
floats; we idealize them as exact fractions (numerator over positive
denominator, compared by cross-multiplication), keeping every operation
kernel-computable. -/

structure Frac where
  num : Int
  den : Nat

def Frac.ofInt (n : Int) : Frac := ⟨n, 1⟩

/-- `u * 0.001`. -/
def Frac.perMille (u : Frac) : Frac := ⟨u.num, u.den * 1000⟩

def Frac.add (a b : Frac) : Frac :=
  ⟨a.num * b.den + b.num * a.den, a.den * b.den⟩

def Frac.sub (a b : Frac) : Frac :=
  ⟨a.num * b.den - b.num * a.den, a.den * b.den⟩

/-- Value equality (cross-multiplied). -/
def Frac.eqb (a b : Frac) : Bool :=
  a.num * b.den = b.num * a.den

/-- Whether the value is ≤ 0 (denominators are positive by construction). -/
def Frac.nonposb (a : Frac) : Bool :=
  a.num ≤ 0

/-! ## Random stream (makeRng)

`makeRng(seed)` returns `Math.random` when the seed is absent or empty,
else a xorshift32 generator seeded by an FNV-1a hash of the seed.  We model
the generator as a stream of fractions indexed by a draw counter; the
unseeded case reads an external entropy stream supplied to
`generateSchedule` as an extra argument. -/

def u32 (n : Nat) : Nat := n % 4294967296

def fnvStep (h : Nat) (c : Nat) : Nat :=
  u32 ((h ^^^ c) * 16777619)

/-- The FNV-1a hash loop of `makeRng` (`h ^= charCode; h = imul(h, prime)`);
32-bit xor and multiplication commute with the signed/unsigned view, so
arithmetic mod 2^32 is faithful. -/
def seedHash (s : String) : Nat :=
  s.data.foldl (fun h c => fnvStep h c.toNat) 2166136261

/-- One xorshift32 step (`s ^= s << 13; s ^= s >>> 17; s ^= s << 5`). -/
def xorshiftStep (s : Nat) : Nat :=
  let s1 := u32 (s ^^^ u32 (s <<< 13))
  let s2 := u32 (s1 ^^^ (s1 >>> 17))
  u32 (s2 ^^^ u32 (s2 <<< 5))

def xorshiftNth (s0 : Nat) : Nat → Nat
  | 0 => xorshiftStep s0
  | n + 1 => xorshiftStep (xorshiftNth s0 n)

/-- The n-th draw of the seeded generator (`(s >>> 0) / 4294967296`). -/
def seededStream (seed : String) (n : Nat) : Frac :=
  ⟨(xorshiftNth (seedHash seed) n : Int), 4294967296⟩

/-- Whether `makeRng` falls back to `Math.random` (`if (!seed)`): seed
absent or the empty string (which is falsy). -/
def seedMissing (input : ScheduleInput) : Bool :=
  match input.seed with
  | none => true
  | some s => s = ""

/-- The stream of rng draws used by a run: the seeded xorshift stream, or
the external `Math.random` entropy `ext` when no (nonempty) seed is given. -/
def effStream (input : ScheduleInput) (ext : Nat → Frac) : Nat → Frac :=
  match input.seed with
  | none => ext
  | some s => if s = "" then ext else seededStream s

/-! ## Lock validator -/

/-- Czech message builders, matching the template literals in
`validateLocks` character for character. -/
def msgLockMissing (day : Nat) : String :=
  "Den " ++ toString day ++ ": zamčený lékař neexistuje."

def msgWantConflict (day : Nat) (lockedName wantName : String) : String :=
  "Den " ++ toString day ++ ": zamčení (" ++ lockedName ++
    ") je v konfliktu s prioritním \"Chce\" (" ++ wantName ++ ")."

def msgCannotConflict (day : Nat) (name : String) : String :=
  "Den " ++ toString day ++ ": zamčení je v konfliktu s \"Nemůže\" (" ++ name ++ ")."

def msgLeadershipWeekend (day : Nat) (name : String) : String :=
  "Den " ++ toString day ++ ": " ++ name ++ " nemůže sloužit Pá/So/Ne."

def msgNotCertified (day : Nat) (name : String) : String :=
  "Den " ++ toString day ++ ": " ++ name ++
    " není atestovaný, úterky a čtvrtky musí krýt atestovaní (#1–#5)."

def msgCrossMonth (name : String) : String :=
  "Den 1: " ++ name ++ " má odpočinek po službě z minulého měsíce."

def msgConsecutive (day : Nat) (name : String) : String :=
  "Dny " ++ toString (day - 1) ++ " a " ++ toString day ++ ": " ++ name ++
    " nemůže sloužit dva dny po sobě."

def msgCapExceeded (name : String) (cap : Int) : String :=
  name ++ ": počet zamčených služeb překračuje limit " ++ toString cap ++ "."

def msgWeekendBlocks (name : String) : String :=
  name ++ ": zamčené služby překračují limit 2 víkendových bloků (Pá–Ne)."

/-- The per-day walk of `validateLocks`: issues for one locked day, in
source push order, plus the updated running lock counts. -/
def validateLockDay (input : ScheduleInput) (targets : Nat → Int)
    (wanted : Nat → List Nat) (countsBefore : Nat → Int) (day : Nat) :
    List String × (Nat → Int) :=
  match lockedDoctor input day with
  | none => ([], countsBefore)
  | some docId =>
    match input.doctors.find? fun d => d.id = docId with
    | none => ([msgLockMissing day], countsBefore)
    | some doctor =>
      let i1 : List String :=
        match forcedWantDoctorForDay day wanted countsBefore targets with
        | some fid =>
          if ¬ fid = docId then
            let wantName :=
              match input.doctors.find? fun d => d.id = fid with
              | some fd => fd.name
              | none => "neznámý lékař"
            [msgWantConflict day doctor.name wantName]
          else []
        | none => []
      let i2 := if preferenceAt input docId day = 1 then
          [msgCannotConflict day doctor.name] else []
      let i3 := if isLeadershipDoctor doctor ∧
          isWeekendServiceDay input.year input.month (day : Int) then
          [msgLeadershipWeekend day doctor.name] else []
      let i4 := if isTuesdayOrThursday input.year input.month (day : Int) ∧
          ¬ isCertifiedDoctor doctor then
          [msgNotCertified day doctor.name] else []
      let i5 := if day = 1 ∧ hasCrossMonthRestBlock docId input.prevLastDoctorId then
          [msgCrossMonth doctor.name] else []
      let i6 := if day > 1 ∧ lockedDoctor input (day - 1) = some docId then
          [msgConsecutive day doctor.name] else []
      (i1 ++ i2 ++ i3 ++ i4 ++ i5 ++ i6,
        fun i => if i = docId then countsBefore docId + 1 else countsBefore i)

def validateLocksWalk (input : ScheduleInput) (targets : Nat → Int)
    (wanted : Nat → List Nat) : Nat → (List String × (Nat → Int))
  | 0 => ([], fun _ => 0)
  | d + 1 =>
    let prev := validateLocksWalk input targets wanted d
    let step := validateLockDay input targets wanted prev.2 (d + 1)
    (prev.1 ++ step.1, step.2)

/-- Total number of locked days (over days 1..upTo) for a doctor id. -/
def lockCountUpTo (input : ScheduleInput) (docId : Nat) (upTo : Nat) : Nat :=
  ((List.range upTo).filter fun i => lockedDoctor input (i + 1) = some docId).length

/-- The distinct weekend-block keys among the locked days (1..upTo) of a
doctor id — the key set of `lockedWeekendBlocksByDoctor[docId]`. -/
def lockedBlocksUpTo (input : ScheduleInput) (docId : Nat) (upTo : Nat) :
    List BlockKey :=
  (((List.range upTo).filter fun i => lockedDoctor input (i + 1) = some docId).filterMap
    fun i => weekendBlockKey input.year input.month ((i + 1 : Nat) : Int)).dedup

/-- `validateLocks`: the day walk followed by the per-doctor cap and
weekend-block checks, accumulating every issue. -/
def validateLocks (input : ScheduleInput) (caps targets : Nat → Int)
    (wanted : Nat → List Nat) : List String :=
  let days := daysInMonth input.year input.month
  let dayIssues := (validateLocksWalk input targets wanted days).1
  let perDoctor := input.doctors.flatMap fun doctor =>
    let count := lockCountUpTo input doctor.id days
    let c1 := if (count : Int) > caps doctor.id then
        [msgCapExceeded doctor.name (caps doctor.id)] else []
    let c2 := if (lockedBlocksUpTo input doctor.id days).length > 2 then
        [msgWeekendBlocks doctor.name] else []
    c1 ++ c2
  dayIssues ++ perDoctor

/-! ## Backtracking solver -/

/-- `strictTargetFeasible`: fails if any count exceeds its target, else
checks that the total remaining need fits in the remaining days. -/
def strictTargetFeasibleGo (targets : Nat → Int) (counts : Nat → Int) :
    List Doctor → Int → Option Int
  | [], acc => some acc
  | d :: ds, acc =>
    if counts d.id > targets d.id then none
    else strictTargetFeasibleGo targets counts ds (acc + (targets d.id - counts d.id))

def strictTargetFeasible (doctors : List Doctor) (s : SolveState)
    (targets : Nat → Int) (totalDays : Nat) : Bool :=
  let assigned := s.assignments.length
  let remainingDays : Int := (totalDays : Int) - assigned
  match strictTargetFeasibleGo targets s.counts doctors 0 with
  | none => false
  | some needTotal => needTotal ≤ remainingDays

/-- The most-constrained-day scan of the backtracking step: walk days 1..n
skipping truthy-assigned ones; abort (`none`) as soon as a day has no
hard-eligible candidate, else return the first day with the fewest
candidates (if any day is unassigned). -/
def scanDays (ctx : SolveCtx) (s : SolveState) :
    Nat → Option (Option (Nat × List Doctor))
  | 0 => some none
  | n + 1 =>
    match scanDays ctx s n with
    | none => none
    | some acc =>
      let day := n + 1
      if truthyAt s.assignments day then some acc
      else
        let candidates := ctx.input.doctors.filter fun d => isHardAllowed ctx day d s
        if candidates.length = 0 then none
        else
          match acc with
          | none => some (some (day, candidates))
          | some (td, tc) =>
            if candidates.length < tc.length then some (some (day, candidates))
            else some (some (td, tc))

/-- The candidate comparator of `solveWithCaps` (want-priority first, then
jittered score, then order), threading the rng draw counter. -/
def solveCmpRng (ctx : SolveCtx) (stream : Nat → Frac) (td : Nat) (s : SolveState)
    (a b : Doctor) (rc : Nat) : Frac × Nat :=
  let aPref := preferenceAt ctx.input a.id td
  let bPref := preferenceAt ctx.input b.id td
  if aPref = 3 ∧ bPref = 3 then (Frac.ofInt (a.order - b.order), rc)
  else if aPref = 3 ∨ bPref = 3 then (Frac.ofInt ((bPref : Int) - (aPref : Int)), rc)
  else
    let sa := Frac.add (Frac.ofInt (scoreCandidate td a s ctx.input ctx.targets))
      (Frac.perMille (stream rc))
    let sb := Frac.add (Frac.ofInt (scoreCandidate td b s ctx.input ctx.targets))
      (Frac.perMille (stream (rc + 1)))
    if ¬ Frac.eqb sa sb then (Frac.sub sa sb, rc + 2)
    else (Frac.ofInt (a.order - b.order), rc + 2)

/-- Stable insertion sort threading a draw counter through an impure
comparator.  JavaScript leaves the comparison sequence of
`Array.prototype.sort` engine-defined when the comparator draws fresh
jitter per call; we fix insertion sort as the deterministic model. -/
def insertRng (cmp : α → α → Nat → Frac × Nat) (x : α) :
    List α → Nat → List α × Nat
  | [], rc => ([x], rc)
  | y :: ys, rc =>
    let c := cmp x y rc
    if (c.1).nonposb then (x :: y :: ys, c.2)
    else
      let r := insertRng cmp x ys c.2
      (y :: r.1, r.2)

def sortRng (cmp : α → α → Nat → Frac × Nat) :
    List α → Nat → List α × Nat
  | [], rc => ([], rc)
  | x :: xs, rc =>
    let r := sortRng cmp xs rc
    insertRng cmp x r.1 r.2

/-- One candidate loop of the backtracking step: apply, forward-check,
recurse through `bt`, undo on failure. -/
def tryCands (ctx : SolveCtx)
    (bt : SolveState → Nat → Bool × SolveState × Nat) (td : Nat) :
    List Doctor → SolveState → Nat → Bool × SolveState × Nat
  | [], s, rc => (false, s, rc)
  | doctor :: rest, s, rc =>
    let s1 := applyAssignment s ctx.input.year ctx.input.month td doctor.id
    let forwardOk := (List.range ctx.days).all fun i =>
      truthyAt s1.assignments (i + 1) ||
        ctx.input.doctors.any fun d => isHardAllowed ctx (i + 1) d s1
    let feasOk := !ctx.strictTargets ||
      strictTargetFeasible ctx.input.doctors s1 ctx.targets ctx.days
    if forwardOk && feasOk then
      match bt s1 rc with
      | (true, s2, rc2) => (true, s2, rc2)
      | (false, s2, rc2) =>
        tryCands ctx bt td rest
          (undoAssignment s2 ctx.input.year ctx.input.month td doctor.id) rc2
    else
      tryCands ctx bt td rest
        (undoAssignment s1 ctx.input.year ctx.input.month td doctor.id) rc

/-- The recursive `backtrack` closure of `solveWithCaps`, with explicit fuel
(each recursive call follows a cap-guarded assignment, so any fuel above
the total cap mass is never exhausted). -/
def backtrack (ctx : SolveCtx) (stream : Nat → Frac) :
    Nat → SolveState → Nat → Bool × SolveState × Nat
  | 0, s, rc => (false, s, rc)
  | fuel + 1, s, rc =>
    if s.assignments.length = ctx.days then
      if !ctx.strictTargets then (true, s, rc)
      else if ctx.input.doctors.all fun d => s.counts d.id = ctx.targets d.id then
        (true, s, rc)
      else (false, s, rc)
    else
      match scanDays ctx s ctx.days with
      | none => (false, s, rc)
      | some none => (false, s, rc)
      | some (some (td, candidates)) =>
        let r := sortRng (solveCmpRng ctx stream td s) candidates rc
        tryCands ctx (backtrack ctx stream fuel) td r.1 s r.2

/-- Fuel for the backtracking recursion: strictly more than the total cap
mass, which bounds the recursion depth (every recursive call follows an
apply guarded by `nextCount ≤ cap`). -/
def solveFuel (input : ScheduleInput) (caps : Nat → Int) : Nat :=
  2 + (input.doctors.map fun d => (caps d.id).toNat).sum

inductive SolveRes where
  | ok (assignments : AssignMap)
  | err (reason : String)
deriving DecidableEq

def msgTargetSum : String :=
  "Součet požadovaných služeb není roven počtu dní v měsíci."

def msgBacktrackFail : String :=
  "Backtracking nenašel řešení při aktuálních limitech."

/-- `solveWithCaps`: the strict-mode sum pre-check, then the backtracking
search from the fresh initial state.  Returns the result and the advanced
rng draw counter (the single mutable generator is shared across passes). -/
def solveWithCaps (input : ScheduleInput) (caps targets : Nat → Int)
    (wanted : Nat → List Nat) (stream : Nat → Frac) (strictTargets : Bool)
    (rc : Nat) : SolveRes × Nat :=
  let days := daysInMonth input.year input.month
  if strictTargets ∧
      ¬ (input.doctors.map fun d => targets d.id).sum = (days : Int) then
    (SolveRes.err msgTargetSum, rc)
  else
    let ctx : SolveCtx :=
      { input := input, caps := caps, targets := targets, wanted := wanted
        strictTargets := strictTargets }
    let r :=
      backtrack ctx stream (solveFuel input caps) (createInitialState input.doctors) rc
    if r.1 then (SolveRes.ok r.2.1.assignments, r.2.2)
    else (SolveRes.err msgBacktrackFail, r.2.2)

/-! ## Partial proposal builder (buildPartialProposal) -/

/-- The comparator used by the proposal builder (jittered score, then
order). -/
def draftCmpRng (input : ScheduleInput) (targets : Nat → Int)
    (stream : Nat → Frac) (day : Nat) (s : SolveState) (a b : Doctor)
    (rc : Nat) : Frac × Nat :=
  let sa := Frac.add (Frac.ofInt (scoreCandidate day a s input targets))
    (Frac.perMille (stream rc))
  let sb := Frac.add (Frac.ofInt (scoreCandidate day b s input targets))
    (Frac.perMille (stream (rc + 1)))
  if ¬ Frac.eqb sa sb then (Frac.sub sa sb, rc + 2)
  else (Frac.ofInt (a.order - b.order), rc + 2)

/-- The draft proposal: the day → (worker or null) record (sorted by day,
nulls present), and the recorded days needing arbitration with their
discussion-safe candidate lists, in build order. -/
structure DraftProposal where
  assignments : List (Nat × Option Nat)
  unassignedDays : List (Nat × List Nat)
deriving DecidableEq

/-- The state of the single forward pass of the proposal builder. -/
structure DraftState where
  state : SolveState
  assignments : List (Nat × Option Nat)
  unassignedDays : List (Nat × List Nat)

/-- One day of the proposal builder's forward pass. -/
def draftDay (ctx : SolveCtx) (stream : Nat → Frac) (d : DraftState)
    (day : Nat) (rc : Nat) : DraftState × Nat :=
  let input := ctx.input
  let candidates := input.doctors.filter fun doc => isHardAllowed ctx day doc d.state
  if candidates.length = 0 then
    let discussion := (sortCmp (fun a b => a.order - b.order)
      (input.doctors.filter fun doc =>
        isBaseHardAllowedForDiscussion input day doc d.state)).map fun doc => doc.id
    match discussion with
    | selected :: _ =>
      ({ state := applyAssignment d.state input.year input.month day selected
         assignments := d.assignments ++ [(day, some selected)]
         unassignedDays := d.unassignedDays ++ [(day, discussion)] }, rc)
    | [] =>
      ({ d with
         assignments := d.assignments ++ [(day, none)]
         unassignedDays := d.unassignedDays ++ [(day, discussion)] }, rc)
  else
    let r := sortRng (draftCmpRng input ctx.targets stream day d.state)
      candidates rc
    match r.1 with
    | chosen :: _ =>
      ({ state := applyAssignment d.state input.year input.month day chosen.id
         assignments := d.assignments ++ [(day, some chosen.id)]
         unassignedDays := d.unassignedDays }, r.2)
    | [] => (d, r.2)

def draftLoop (ctx : SolveCtx) (stream : Nat → Frac) :
    Nat → DraftState × Nat → DraftState × Nat
  | 0, acc => acc
  | n + 1, acc =>
    let r := draftLoop ctx stream n acc
    draftDay ctx stream r.1 (n + 1) r.2

/-- The empty draft state the builder starts from. -/
def draftInit (doctors : List Doctor) : DraftState :=
  { state := createInitialState doctors, assignments := []
    unassignedDays := [] }

/-- `buildPartialProposal`: a single non-backtracking forward pass using the
relaxed (non-strict) hard predicate, falling back to the discussion-safe
predicate (prefilling its top-ranked candidate) when no candidate exists. -/
def buildDraftProposal (input : ScheduleInput) (caps targets : Nat → Int)
    (wanted : Nat → List Nat) (stream : Nat → Frac) (rc : Nat) :
    DraftProposal × Nat :=
  let ctx : SolveCtx :=
    { input := input, caps := caps, targets := targets, wanted := wanted
      strictTargets := false }
  let r := draftLoop ctx stream (daysInMonth input.year input.month)
    (draftInit input.doctors, rc)
  ({ assignments := r.1.assignments, unassignedDays := r.1.unassignedDays }, r.2)

/-! ## Stats aggregator and schedule result -/

structure ScheduleStats where
  totalByDoctor : List (Nat × Int)
  weekendByDoctor : List (Nat × Int)
  friSunPairings : Nat
deriving DecidableEq

/-- `buildStats`.  The two per-doctor records are materialized over the
deduplicated doctor ids in ascending order (JavaScript objects with numeric
keys enumerate ascending). -/
def buildStats (assignments : AssignMap) (doctors : List Doctor)
    (year month : Int) : ScheduleStats :=
  let ids : List Nat :=
    sortCmp (fun a b => (a : Int) - (b : Int)) ((doctors.map fun d => d.id).dedup)
  let total : Nat → Int := fun id => (countVal assignments id : Int)
  let weekend : Nat → Int := fun id =>
    ((assignments.filter fun p =>
      p.2 = id ∧ isWeekendServiceDay year month (p.1 : Int)).length : Int)
  let days := daysInMonth year month
  let pairings := ((List.range (days - 2)).filter fun i =>
    let day : Nat := i + 1
    isFriday year month (day : Int) &&
      (match aget assignments day, aget assignments (day + 1),
          aget assignments (day + 2) with
        | some fri, some sat, some sun =>
          decide (¬ fri = 0 ∧ ¬ sun = 0 ∧ fri = sun ∧ ¬ sat = 0 ∧ ¬ sat = fri)
        | _, _, _ => false)).length
  { totalByDoctor := ids.map fun id => (id, total id)
    weekendByDoctor := ids.map fun id => (id, weekend id)
    friSunPairings := pairings }

/-- RelaxationInfo is never constructed by the engine
(`emptyRelaxationSummary` returns `[]`); the type is kept for the result
shape. -/
structure RelaxationInfo where
  doctorId : Nat
  doctorName : String
  baseCap : Int
  finalCap : Int
  exceededBy : Int
deriving DecidableEq

/-- The discriminated schedule result.  A lock-validation failure carries
no draft (`none`); the final failure carries the draft proposal. -/
inductive ScheduleResult where
  | success (assignments : AssignMap) (stats : ScheduleStats)
      (relaxations : List RelaxationInfo) (seedUsed : Option String)
  | failure (conflicts : List String)
      (relaxationsAttempted : List RelaxationInfo)
      (draft : Option DraftProposal)
deriving DecidableEq

/-- `input.seed || undefined`: the empty string is falsy. -/
def seedUsedOf (input : ScheduleInput) : Option String :=
  match input.seed with
  | none => none
  | some s => if s = "" then none else some s

/-- Drop the null entries of a draft assignment record (the cast on the
all-days-filled success path). -/
def draftToAssignMap (l : List (Nat × Option Nat)) : AssignMap :=
  l.filterMap fun p => p.2.map fun v => (p.1, v)

/-- `generateSchedule`, the orchestrator.  `ext` is the external
`Math.random` entropy stream, consulted only when no (nonempty) seed is
given; the draw counter threads the single shared generator through the
strict pass, the relaxed pass and the proposal builder in order. -/
def generateScheduleCore (input : ScheduleInput) (stream : Nat → Frac) :
    ScheduleResult :=
  let caps := initialCaps input
  let targets := sanitizeTargets input
  let wanted := computeWantedDoctorsByDay input
  let lockIssues := validateLocks input caps targets wanted
  if ¬ lockIssues = [] then
    ScheduleResult.failure lockIssues [] none
  else
    match solveWithCaps input caps targets wanted stream true 0 with
    | (SolveRes.ok a, _) =>
      ScheduleResult.success a (buildStats a input.doctors input.year input.month)
        [] (seedUsedOf input)
    | (SolveRes.err strictReason, rc1) =>
      match solveWithCaps input caps targets wanted stream false rc1 with
      | (SolveRes.ok a, _) =>
        ScheduleResult.success a (buildStats a input.doctors input.year input.month)
          [] (seedUsedOf input)
      | (SolveRes.err fallbackReason, rc2) =>
        let draft := (buildDraftProposal input caps targets wanted stream rc2).1
        if draft.assignments.all fun p => ¬ p.2 = none then
          let a := draftToAssignMap draft.assignments
          ScheduleResult.success a
            (buildStats a input.doctors input.year input.month) []
            (seedUsedOf input)
        else
          ScheduleResult.failure [strictReason, fallbackReason] [] (some draft)

/-- `generateSchedule`: build the one shared rng stream from the optional
seed (falling back to the external `Math.random` entropy `ext`), then run
the orchestrator pipeline on it. -/
def generateSchedule (input : ScheduleInput) (ext : Nat → Frac) : ScheduleResult :=
  generateScheduleCore input (effStream input ext)

/-! ## Result projections (used to state the claims) -/

def resultOk : ScheduleResult → Bool
  | ScheduleResult.success _ _ _ _ => true
  | ScheduleResult.failure _ _ _ => false

def resultAssignments : ScheduleResult → AssignMap
  | ScheduleResult.success a _ _ _ => a
  | ScheduleResult.failure _ _ _ => []

def resultConflicts : ScheduleResult → List String
  | ScheduleResult.success _ _ _ _ => []
  | ScheduleResult.failure c _ _ => c

/-! ## Specification-side predicates

These state the claimed properties of results.  Worker identity: the
spec's data model gives every worker a distinct identity, so the
well-formedness predicate below asks that worker ids are distinct and
nonzero (zero is not a usable JavaScript id here, since the engine's
truthiness tests would treat a day assigned to id 0 as unassigned). -/

def wfInput (input : ScheduleInput) : Prop :=
  (input.doctors.map fun d => d.id).Nodup ∧ ∀ d ∈ input.doctors, ¬ d.id = 0

/-- Keys strictly increasing (the canonical form of a JavaScript object
with numeric keys). -/
def KeysSorted (m : AssignMap) : Prop :=
  List.Pairwise (fun p q : Nat × Nat => p.1 < q.1) m

/-- No duplicate day keys. -/
def NodupKeys (m : AssignMap) : Prop :=
  (m.map Prod.fst).Nodup

/-- The assignment map assigns each day 1..N exactly once: its key list is
exactly [1, ..., N]. -/
def assignsEachDayOnce (input : ScheduleInput) (a : AssignMap) : Prop :=
  a.map Prod.fst = List.range' 1 (daysInMonth input.year input.month)

/-- No worker's total count in the result exceeds their cap. -/
def respectsCaps (input : ScheduleInput) (a : AssignMap) : Prop :=
  ∀ doc ∈ input.doctors, (countVal a doc.id : Int) ≤ initialCaps input doc.id

/-- No worker serves two consecutive days. -/
def noConsecutive (a : AssignMap) : Prop :=
  ∀ d v, aget a d = some v → ¬ aget a (d + 1) = some v

/-- Lead-primary / lead-deputy never serve Friday, Saturday or Sunday. -/
def leadershipOffWeekends (input : ScheduleInput) (a : AssignMap) : Prop :=
  ∀ doc ∈ input.doctors, isLeadershipDoctor doc = true →
    ∀ d, aget a d = some doc.id →
      isWeekendServiceDay input.year input.month (d : Int) = false

/-- Non-certified workers never serve Tuesday or Thursday. -/
def certifiedTueThu (input : ScheduleInput) (a : AssignMap) : Prop :=
  ∀ doc ∈ input.doctors, isCertifiedDoctor doc = false →
    ∀ d, aget a d = some doc.id →
      isTuesdayOrThursday input.year input.month (d : Int) = false

/-- The previous-month boundary worker never serves day 1. -/
def boundaryRest (input : ScheduleInput) (a : AssignMap) : Prop :=
  ∀ v, aget a 1 = some v → ¬ input.prevLastDoctorId = some v

/-- The distinct weekend-block keys touched by a worker's assignments. -/
def blocksOf (input : ScheduleInput) (a : AssignMap) (id : Nat) : List BlockKey :=
  ((a.filter fun p => p.2 = id).filterMap fun p =>
    weekendBlockKey input.year input.month (p.1 : Int)).dedup

/-- The number of a worker's assigned days lying in a given weekend block. -/
def blockCountOf (input : ScheduleInput) (a : AssignMap) (id : Nat)
    (k : BlockKey) : Nat :=
  ((a.filter fun p => p.2 = id).filter fun p =>
    weekendBlockKey input.year input.month (p.1 : Int) = some k).length

/-- No worker touches more than 2 distinct weekend blocks. -/
def blocksAtMost2 (input : ScheduleInput) (a : AssignMap) : Prop :=
  ∀ id, (blocksOf input a id).length ≤ 2

/-- Every hard per-binding fact about one assignment, witnessed by a doctor
object carrying the role/rank data. -/
def BindOK (input : ScheduleInput) (d v : Nat) : Prop :=
  ∃ doc ∈ input.doctors, doc.id = v ∧
    (∀ L, input.locks d = some L → v = L) ∧
    ¬ preferenceAt input v d = 1 ∧
    (d = 1 → ¬ hasCrossMonthRestBlock v input.prevLastDoctorId) ∧
    (isLeadershipDoctor doc = true →
      isWeekendServiceDay input.year input.month (d : Int) = false) ∧
    (isCertifiedDoctor doc = false →
      isTuesdayOrThursday input.year input.month (d : Int) = false)

/-- The base state invariant of the search and of the proposal builder:
canonical sorted map over days of the month, every binding legal, rest rule
respected, tracked bookkeeping equal to the map-derived quantities, and the
weekend-block limit. -/
structure InvB (input : ScheduleInput) (s : SolveState) : Prop where
  sorted : KeysSorted s.assignments
  keyRange : ∀ p ∈ s.assignments,
    1 ≤ p.1 ∧ p.1 ≤ daysInMonth input.year input.month
  binds : ∀ p ∈ s.assignments, BindOK input p.1 p.2
  adj : noConsecutive s.assignments
  counts_eq : ∀ id, s.counts id = (countVal s.assignments id : Int)
  blocks_eq : ∀ id k,
    s.weekendBlocksByDoctor id k = blockCountOf input s.assignments id k
  totals_eq : ∀ id,
    s.weekendBlockTotals id = ((blocksOf input s.assignments id).length : Int)
  blocks_le2 : ∀ id, (blocksOf input s.assignments id).length ≤ 2

/-- The solver invariant: the base invariant plus the cap bound on the
tracked counts. -/
structure Inv (input : ScheduleInput) (caps : Nat → Int) (s : SolveState)
    extends InvB input s : Prop where
  counts_le : ∀ id, s.counts id ≤ caps id

/-! ### Reachability by apply / undo steps (claims C9 and C10) -/

/-- States reachable from the initial solver state by arbitrary
apply-assignment steps and solver-undo steps (the claim's literal "any
sequence"). -/
inductive ReachAny (input : ScheduleInput) : SolveState → Prop where
  | init : ReachAny input (createInitialState input.doctors)
  | apply (s : SolveState) (day id : Nat) : ReachAny input s →
      ReachAny input (applyAssignment s input.year input.month day id)
  | undo (s : SolveState) (day id : Nat) : ReachAny input s →
      ReachAny input (undoAssignment s input.year input.month day id)

/-- States reachable by the solver's discipline: an apply only targets a
day not yet in the assignment map, and an undo only targets a day currently
mapped to that worker. -/
inductive ReachD (input : ScheduleInput) : SolveState → Prop where
  | init : ReachD input (createInitialState input.doctors)
  | apply (s : SolveState) (day id : Nat) : ReachD input s →
      aget s.assignments day = none →
      ReachD input (applyAssignment s input.year input.month day id)
  | undo (s : SolveState) (day id : Nat) : ReachD input s →
      aget s.assignments day = some id →
      ReachD input (undoAssignment s input.year input.month day id)

/-! ### Claim-side score formula (C8)

The claim states the score as a sum of five terms, the third being "+10 if
the candidate also serves on day−2 or day+2" — a single +10 gated on the
disjunction. -/

def specScoreClaim (day : Nat) (doctor : Doctor) (s : SolveState)
    (input : ScheduleInput) (targets : Nat → Int) : Int :=
  (if preferenceAt input doctor.id day = 3 then (-250 : Int) else 0) +
  (if preferenceAt input doctor.id day = 2 then (50 : Int) else 0) +
  (if aget s.assignments (day - 2) = some doctor.id ∨
      aget s.assignments (day + 2) = some doctor.id then (10 : Int) else 0) +
  ((s.counts doctor.id + 1) - targets doctor.id).natAbs * 12 +
  (if (ambulanceWeekdays doctor.id).contains
      (Int.emod (weekday input.year input.month (day : Int) + 1) 7)
    then (18 : Int) else 0)

/-! ### The orchestrator tail starting at the relaxed pass (C5)

"the orchestrator then attempts the relaxed pass": the continuation of
`generateSchedule` after a strict failure with the sum-of-targets reason
(the strict pre-check consumes no rng draws, so the relaxed pass starts at
draw counter 0). -/

def generateScheduleFromRelaxedCore (input : ScheduleInput)
    (stream : Nat → Frac) : ScheduleResult :=
  let caps := initialCaps input
  let targets := sanitizeTargets input
  let wanted := computeWantedDoctorsByDay input
  match solveWithCaps input caps targets wanted stream false 0 with
  | (SolveRes.ok a, _) =>
    ScheduleResult.success a (buildStats a input.doctors input.year input.month)
      [] (seedUsedOf input)
  | (SolveRes.err fallbackReason, rc2) =>
    let draft := (buildDraftProposal input caps targets wanted stream rc2).1
    if draft.assignments.all fun p => ¬ p.2 = none then
      let a := draftToAssignMap draft.assignments
      ScheduleResult.success a
        (buildStats a input.doctors input.year input.month) []
        (seedUsedOf input)
    else
      ScheduleResult.failure [msgTargetSum, fallbackReason] [] (some draft)

def generateScheduleFromRelaxed (input : ScheduleInput) (ext : Nat → Frac) :
    ScheduleResult :=
  generateScheduleFromRelaxedCore input (effStream input ext)

/-! ## Concrete inputs used by witnesses and counterexamples -/

/-- The constant-zero external entropy stream. -/
def extZero : Nat → Frac := fun _ => ⟨0, 1⟩

/-- An external entropy stream whose first draw is one half. -/
def extHalf : Nat → Frac := fun n => if n = 0 then ⟨1, 2⟩ else ⟨0, 1⟩

def mkRegular (i : Nat) (o : Int) (nm : String) : Doctor :=
  { id := i, order := o, name := nm, role := Role.regular }

/-- Two regular doctors, February 2026, both banned on day 28, no seed:
the strict pass fails on the target sum, the relaxed pass dies on day 28,
and the draft pass breaks its day-1 tie with `Math.random` jitter. -/
def inputNoSeed : ScheduleInput :=
  { year := 2026, month := 2
    doctors := [mkRegular 8 1 "A", mkRegular 11 2 "B"]
    maxShiftsByDoctor := fun _ => none
    targetShiftsByDoctor := fun _ => none
    preferences := fun _ day => if day = 28 then 1 else 0
    locks := fun _ => none
    prevPenultimateDoctorId := none, prevLastDoctorId := none
    seed := none }

/-- The same request with a seed. -/
def inputSeeded : ScheduleInput := { inputNoSeed with seed := some "x" }

/-- Five zero-cap regular doctors, February 2026: both solver passes fail,
and the discussion-safe prefill fills every day, so the draft path returns
success with every cap exceeded. -/
def inputZeroCaps : ScheduleInput :=
  { year := 2026, month := 2
    doctors := [mkRegular 21 1 "C", mkRegular 22 2 "D", mkRegular 23 3 "E",
      mkRegular 24 4 "F", mkRegular 25 5 "G"]
    maxShiftsByDoctor := fun _ => some 0
    targetShiftsByDoctor := fun _ => none
    preferences := fun _ _ => 0
    locks := fun _ => none
    prevPenultimateDoctorId := none, prevLastDoctorId := none
    seed := none }

/-- A fully-locked, rule-consistent roster for February 2027 (which starts
on a Monday): odd days to worker 31, even days to 32, except the second and
fourth weekend blocks, covered by 33 and 34. -/
def lockPattern (day : Nat) : Option Nat :=
  if day = 0 ∨ day > 28 then none
  else if day = 12 ∨ day = 14 ∨ day = 26 ∨ day = 28 then some 33
  else if day = 13 ∨ day = 27 then some 34
  else if day % 2 = 1 then some 31
  else some 32

def inputLocked : ScheduleInput :=
  { year := 2027, month := 2
    doctors := [mkRegular 31 1 "P", mkRegular 32 2 "Q", mkRegular 33 3 "R",
      mkRegular 34 4 "S"]
    maxShiftsByDoctor := fun i =>
      if i = 31 then some 12 else if i = 32 then some 10
      else if i = 33 then some 4 else if i = 34 then some 2 else none
    targetShiftsByDoctor := fun i =>
      if i = 31 then some 12 else if i = 32 then some 10
      else if i = 33 then some 4 else if i = 34 then some 2 else none
    preferences := fun _ _ => 0
    locks := lockPattern
    prevPenultimateDoctorId := none, prevLastDoctorId := none
    seed := none }

/-- One regular doctor, February 2026, locked on day 1 where their
preference is cannot; targets sum to 0 ≠ 28. -/
def inputLockCannot : ScheduleInput :=
  { year := 2026, month := 2
    doctors := [mkRegular 8 1 "A"]
    maxShiftsByDoctor := fun _ => none
    targetShiftsByDoctor := fun _ => none
    preferences := fun id day => if id = 8 ∧ day = 1 then 1 else 0
    locks := fun day => if day = 1 then some 8 else none
    prevPenultimateDoctorId := none, prevLastDoctorId := none
    seed := none }

/-- A state whose day 3 is already assigned (to worker 8): applying another
worker to day 3 and undoing deletes the original binding. -/
def stateDay3 : SolveState :=
  { assignments := [(3, 8)]
    counts := fun _ => 0
    weekendBlocksByDoctor := fun _ _ => 0
    weekendBlockTotals := fun _ => 0 }

/-- The state reached from the initial state by applying worker 8 and then
worker 11 to the same day 3 (a sequence of apply steps the literal claim
C10 admits): worker 8's tracked count is 1 but worker 8 holds no day. -/
def c10state : SolveState :=
  applyAssignment
    (applyAssignment (createInitialState inputNoSeed.doctors)
      inputNoSeed.year inputNoSeed.month 3 8)
    inputNoSeed.year inputNoSeed.month 3 11

/-- A disciplined one-step state: worker 8 applied to the unassigned day 5. -/
def c10wstate : SolveState :=
  applyAssignment (createInitialState inputNoSeed.doctors)
    inputNoSeed.year inputNoSeed.month 5 8

/-- A state with worker 8 on days 1 and 5 (both two days away from day 3),
counts matching; used against the claim-side score formula. -/
def stateBothNeighbors : SolveState :=
  { assignments := [(1, 8), (5, 8)]
    counts := fun id => if id = 8 then 2 else 0
    weekendBlocksByDoctor := fun _ _ => 0
    weekendBlockTotals := fun _ => 0 }

/-! ## Further claim-side definitions -/

/-- The score formula as the code computes it, written as the claim's flat
sum but with the neighbor term split per side: day−2 and day+2 each
contribute +10 (so both firing give +20, where the claim's single
disjunction-gated +10 gives 10). -/
def specScoreAmended (day : Nat) (doctor : Doctor) (s : SolveState)
    (input : ScheduleInput) (targets : Nat → Int) : Int :=
  (if preferenceAt input doctor.id day = 3 then (-250 : Int) else 0) +
  (if preferenceAt input doctor.id day = 2 then (50 : Int) else 0) +
  (if aget s.assignments (day - 2) = some doctor.id then (10 : Int) else 0) +
  (if aget s.assignments (day + 2) = some doctor.id then (10 : Int) else 0) +
  ((s.counts doctor.id + 1) - targets doctor.id).natAbs * 12 +
  (if (ambulanceWeekdays doctor.id).contains
      (Int.emod (weekday input.year input.month (day : Int) + 1) 7)
    then (18 : Int) else 0)

/-- The locked prefix of the month as an assignment map: the bindings
`day ↦ locks day` over days 1..n, in ascending day order, skipping unlocked
days. -/
def lockListUpTo (input : ScheduleInput) : Nat → AssignMap
  | 0 => []
  | n + 1 =>
    match input.locks (n + 1) with
    | some L => lockListUpTo input n ++ [(n + 1, L)]
    | none => lockListUpTo input n

/-- Two regular doctors who both want day 5 (preference 3), February 2026. -/
def inputWant : ScheduleInput :=
  { year := 2026, month := 2
    doctors := [mkRegular 8 1 "A", mkRegular 11 2 "B"]
    maxShiftsByDoctor := fun _ => none
    targetShiftsByDoctor := fun _ => none
    preferences := fun id day => if day = 5 ∧ (id = 8 ∨ id = 11) then 3 else 0
    locks := fun _ => none
    prevPenultimateDoctorId := none, prevLastDoctorId := none
    seed := none }

/-- A solver context over `inputWant` with everyone's target 1: both
wanters are below target, so the forced want worker for day 5 is the
first-ranked wanter, id 8. -/
def ctxWant : SolveCtx :=
  { input := inputWant, caps := fun _ => 5, targets := fun _ => 1
    wanted := computeWantedDoctorsByDay inputWant, strictTargets := false }

/-! ## Lemmas: assignment maps -/

theorem aset_cons (d v : Nat) (p : Nat × Nat) (ps : AssignMap) :
    aset d v (p :: ps) = if d < p.1 then (d, v) :: p :: ps
      else if d = p.1 then (d, v) :: ps else p :: aset d v ps := rfl

theorem aget_cons (p : Nat × Nat) (ps : AssignMap) (d : Nat) :
    aget (p :: ps) d = if p.1 = d then some p.2 else aget ps d := rfl

theorem aget_aset_self (m : AssignMap) (d v : Nat) :
    aget (aset d v m) d = some v := by
  induction m with
  | nil => simp [aset, aget]
  | cons p ps ih =>
    rw [aset_cons]
    split
    · simp [aget_cons]
    · split
      · simp [aget_cons]
      · rename_i h1 h2
        rw [aget_cons, if_neg, ih]
        intro h3
        exact h2 h3.symm

theorem aget_aset_ne (m : AssignMap) (d v e : Nat) (h : ¬ e = d) :
    aget (aset d v m) e = aget m e := by
  have hd : ¬ d = e := fun hh => h hh.symm
  induction m with
  | nil => simp [aset, aget, hd]
  | cons p ps ih =>
    rw [aset_cons]
    split
    · rw [aget_cons, if_neg hd, aget_cons]
    · split
      · rename_i h1 h2
        rw [aget_cons, if_neg hd, aget_cons, if_neg]
        rw [← h2]
        exact hd
      · rw [aget_cons, aget_cons, ih]

theorem aget_none_of_cons (p : Nat × Nat) (ps : AssignMap) (d : Nat)
    (h : aget (p :: ps) d = none) : ¬ p.1 = d ∧ aget ps d = none := by
  by_cases h1 : p.1 = d
  · rw [aget_cons, if_pos h1] at h
    exact absurd h (by simp)
  · rw [aget_cons, if_neg h1] at h
    exact ⟨h1, h⟩

theorem adel_cons (d : Nat) (p : Nat × Nat) (ps : AssignMap) :
    adel d (p :: ps) = if p.1 = d then adel d ps else p :: adel d ps := by
  by_cases h1 : p.1 = d <;>
    simp [adel, List.filter_cons, h1]

theorem adel_of_aget_none (m : AssignMap) (d : Nat)
    (h : aget m d = none) : adel d m = m := by
  induction m with
  | nil => rfl
  | cons p ps ih =>
    obtain ⟨h1, h2⟩ := aget_none_of_cons p ps d h
    rw [adel_cons, if_neg h1, ih h2]

theorem adel_aset_of_aget_none (m : AssignMap) (d v : Nat)
    (h : aget m d = none) : adel d (aset d v m) = m := by
  induction m with
  | nil =>
    show adel d [(d, v)] = []
    rw [adel_cons, if_pos rfl]
    rfl
  | cons p ps ih =>
    obtain ⟨h1, h2⟩ := aget_none_of_cons p ps d h
    rw [aset_cons]
    split
    · rw [adel_cons, if_pos rfl, adel_of_aget_none _ _ h]
    · split
      · rename_i h3 h4
        exact absurd h4.symm h1
      · rw [adel_cons, if_neg h1, ih h2]

/-! ## Lemmas: apply / undo (claim C9) -/

theorem SolveState.eq_of (s1 s2 : SolveState)
    (h1 : s1.assignments = s2.assignments) (h2 : s1.counts = s2.counts)
    (h3 : s1.weekendBlocksByDoctor = s2.weekendBlocksByDoctor)
    (h4 : s1.weekendBlockTotals = s2.weekendBlockTotals) : s1 = s2 := by
  obtain ⟨a1, c1, w1, t1⟩ := s1
  obtain ⟨a2, c2, w2, t2⟩ := s2
  simp only at h1 h2 h3 h4
  rw [h1, h2, h3, h4]

theorem apply_assignments (s : SolveState) (y m : Int) (d v : Nat) :
    (applyAssignment s y m d v).assignments = aset d v s.assignments := by
  unfold applyAssignment
  cases weekendBlockKey y m (d : Int) <;> rfl

theorem apply_counts (s : SolveState) (y m : Int) (d v : Nat) :
    (applyAssignment s y m d v).counts =
      fun i => if i = v then s.counts v + 1 else s.counts i := by
  unfold applyAssignment
  cases weekendBlockKey y m (d : Int) <;> rfl

theorem apply_blocks_none (s : SolveState) (y m : Int) (d v : Nat)
    (hk : weekendBlockKey y m (d : Int) = none) :
    (applyAssignment s y m d v).weekendBlocksByDoctor =
      s.weekendBlocksByDoctor := by
  unfold applyAssignment
  rw [hk]

theorem apply_blocks_some (s : SolveState) (y m : Int) (d v : Nat)
    (k : BlockKey) (hk : weekendBlockKey y m (d : Int) = some k) :
    (applyAssignment s y m d v).weekendBlocksByDoctor =
      fun i k2 => if i = v ∧ k2 = k then s.weekendBlocksByDoctor v k + 1
        else s.weekendBlocksByDoctor i k2 := by
  unfold applyAssignment
  rw [hk]

theorem apply_totals_none (s : SolveState) (y m : Int) (d v : Nat)
    (hk : weekendBlockKey y m (d : Int) = none) :
    (applyAssignment s y m d v).weekendBlockTotals = s.weekendBlockTotals := by
  unfold applyAssignment
  rw [hk]

theorem apply_totals_some (s : SolveState) (y m : Int) (d v : Nat)
    (k : BlockKey) (hk : weekendBlockKey y m (d : Int) = some k) :
    (applyAssignment s y m d v).weekendBlockTotals =
      fun i => if i = v ∧ s.weekendBlocksByDoctor v k = 0
        then s.weekendBlockTotals v + 1 else s.weekendBlockTotals i := by
  unfold applyAssignment
  rw [hk]

theorem undo_assignments (s : SolveState) (y m : Int) (d v : Nat) :
    (undoAssignment s y m d v).assignments = adel d s.assignments := by
  unfold undoAssignment
  cases weekendBlockKey y m (d : Int)
  · rfl
  · simp only []
    split <;> rfl

theorem undo_counts (s : SolveState) (y m : Int) (d v : Nat) :
    (undoAssignment s y m d v).counts =
      fun i => if i = v then s.counts v - 1 else s.counts i := by
  unfold undoAssignment
  cases weekendBlockKey y m (d : Int)
  · rfl
  · simp only []
    split <;> rfl

theorem undo_blocks_none (s : SolveState) (y m : Int) (d v : Nat)
    (hk : weekendBlockKey y m (d : Int) = none) :
    (undoAssignment s y m d v).weekendBlocksByDoctor =
      s.weekendBlocksByDoctor := by
  unfold undoAssignment
  rw [hk]

theorem undo_totals_none (s : SolveState) (y m : Int) (d v : Nat)
    (hk : weekendBlockKey y m (d : Int) = none) :
    (undoAssignment s y m d v).weekendBlockTotals = s.weekendBlockTotals := by
  unfold undoAssignment
  rw [hk]

theorem undo_blocks_some_le (s : SolveState) (y m : Int) (d v : Nat)
    (k : BlockKey) (hk : weekendBlockKey y m (d : Int) = some k)
    (hle : s.weekendBlocksByDoctor v k ≤ 1) :
    (undoAssignment s y m d v).weekendBlocksByDoctor =
      fun i k2 => if i = v ∧ k2 = k then 0
        else s.weekendBlocksByDoctor i k2 := by
  unfold undoAssignment
  rw [hk]
  simp only [if_pos hle]

theorem undo_totals_some_le (s : SolveState) (y m : Int) (d v : Nat)
    (k : BlockKey) (hk : weekendBlockKey y m (d : Int) = some k)
    (hle : s.weekendBlocksByDoctor v k ≤ 1) :
    (undoAssignment s y m d v).weekendBlockTotals =
      fun i => if i = v then s.weekendBlockTotals v - 1
        else s.weekendBlockTotals i := by
  unfold undoAssignment
  rw [hk]
  simp only [if_pos hle]

theorem undo_blocks_some_gt (s : SolveState) (y m : Int) (d v : Nat)
    (k : BlockKey) (hk : weekendBlockKey y m (d : Int) = some k)
    (hgt : ¬ s.weekendBlocksByDoctor v k ≤ 1) :
    (undoAssignment s y m d v).weekendBlocksByDoctor =
      fun i k2 => if i = v ∧ k2 = k then s.weekendBlocksByDoctor v k - 1
        else s.weekendBlocksByDoctor i k2 := by
  unfold undoAssignment
  rw [hk]
  simp only [if_neg hgt]

theorem undo_totals_some_gt (s : SolveState) (y m : Int) (d v : Nat)
    (k : BlockKey) (hk : weekendBlockKey y m (d : Int) = some k)
    (hgt : ¬ s.weekendBlocksByDoctor v k ≤ 1) :
    (undoAssignment s y m d v).weekendBlockTotals = s.weekendBlockTotals := by
  unfold undoAssignment
  rw [hk]
  simp only [if_neg hgt]

theorem applyAssignment_undoAssignment (s : SolveState) (year month : Int)
    (day id : Nat) (h : aget s.assignments day = none) :
    undoAssignment (applyAssignment s year month day id) year month day id = s := by
  cases hk : weekendBlockKey year month (day : Int) with
  | none =>
    refine SolveState.eq_of _ _ ?_ ?_ ?_ ?_
    · rw [undo_assignments, apply_assignments, adel_aset_of_aget_none _ _ _ h]
    · rw [undo_counts, apply_counts]
      funext i
      by_cases hi : i = id <;> simp [hi]
    · rw [undo_blocks_none _ _ _ _ _ hk, apply_blocks_none _ _ _ _ _ hk]
    · rw [undo_totals_none _ _ _ _ _ hk, apply_totals_none _ _ _ _ _ hk]
  | some k =>
    have hab := apply_blocks_some s year month day id k hk
    have hprev : (applyAssignment s year month day id).weekendBlocksByDoctor id k =
        s.weekendBlocksByDoctor id k + 1 := by
      rw [hab]
      simp
    refine SolveState.eq_of _ _ ?_ ?_ ?_ ?_
    · rw [undo_assignments, apply_assignments, adel_aset_of_aget_none _ _ _ h]
    · rw [undo_counts, apply_counts]
      funext i
      by_cases hi : i = id <;> simp [hi]
    · by_cases hp : s.weekendBlocksByDoctor id k = 0
      · rw [undo_blocks_some_le _ _ _ _ _ _ hk (by rw [hprev]; omega), hab]
        funext i k2
        by_cases hi : i = id ∧ k2 = k
        · obtain ⟨hi1, hi2⟩ := hi
          simp [hi1, hi2, hp]
        · simp [hi]
      · rw [undo_blocks_some_gt _ _ _ _ _ _ hk (by rw [hprev]; omega), hab]
        funext i k2
        by_cases hi : i = id ∧ k2 = k
        · obtain ⟨hi1, hi2⟩ := hi
          simp [hi1, hi2]
        · simp [hi]
    · by_cases hp : s.weekendBlocksByDoctor id k = 0
      · rw [undo_totals_some_le _ _ _ _ _ _ hk (by rw [hprev]; omega),
          apply_totals_some _ _ _ _ _ _ hk]
        funext i
        by_cases hi : i = id <;> simp [hi, hp]
      · rw [undo_totals_some_gt _ _ _ _ _ _ hk (by rw [hprev]; omega),
          apply_totals_some _ _ _ _ _ _ hk]
        funext i
        by_cases hi : i = id <;> simp [hi, hp]

/-- C9: the claim quantifies over every working state; when the day is
already present in the assignment map, apply overwrites the old binding
and the solver's undo then deletes the day outright, so the original
binding is lost.  At `stateDay3` (day 3 held by worker 8), applying
worker 11 to day 3 and undoing it yields a state without day 3. -/
theorem C9_counterexample :
    ¬ undoAssignment (applyAssignment stateDay3 2026 2 3 11) 2026 2 3 11 =
      stateDay3 := fun h =>
  absurd (congrArg SolveState.assignments h) (by decide)

/-- C9 (amended): provided the day is not already present in the assignment
map — which is how the solver always uses it — applying an assignment
(count increment and weekend-block bookkeeping, including the
first-time-touching-this-block transition) and then performing the solver's
undo of that same assignment restores the entire working state exactly. -/
theorem C9_apply_undo_exact (s : SolveState) (year month : Int) (day id : Nat)
    (h : aget s.assignments day = none) :
    undoAssignment (applyAssignment s year month day id) year month day id = s :=
  applyAssignment_undoAssignment s year month day id h

theorem C9_apply_undo_exact_witness :
    undoAssignment (applyAssignment (createInitialState []) 2026 2 7 8) 2026 2 7 8 =
      createInitialState [] :=
  C9_apply_undo_exact (createInitialState []) 2026 2 7 8 (by decide)

/-! ## Lemmas: counting in assignment maps -/

theorem aget_eq_none_of_not_mem_keys (m : AssignMap) (d : Nat)
    (h : ¬ d ∈ m.map Prod.fst) : aget m d = none := by
  induction m with
  | nil => rfl
  | cons p ps ih =>
    simp only [List.map_cons, List.mem_cons] at h
    push_neg at h
    rw [aget_cons, if_neg (fun he => h.1 he.symm), ih h.2]

theorem mem_of_aget (m : AssignMap) (d v : Nat) (h : aget m d = some v) :
    (d, v) ∈ m := by
  induction m with
  | nil => exact absurd h (by simp [aget])
  | cons p ps ih =>
    obtain ⟨a, b⟩ := p
    rw [aget_cons] at h
    by_cases h1 : a = d
    · simp only [if_pos h1] at h
      injection h with hv
      rw [← h1, ← hv]
      exact List.mem_cons_self _ _
    · simp only [if_neg h1] at h
      exact List.mem_cons_of_mem _ (ih h)

theorem mem_aset (m : AssignMap) (d v : Nat) (q : Nat × Nat)
    (h : q ∈ aset d v m) : q = (d, v) ∨ q ∈ m := by
  induction m with
  | nil =>
    simp [aset] at h
    exact Or.inl h
  | cons p ps ih =>
    rw [aset_cons] at h
    by_cases h1 : d < p.1
    · rw [if_pos h1] at h
      rcases List.mem_cons.1 h with h2 | h2
      · exact Or.inl h2
      · exact Or.inr h2
    · rw [if_neg h1] at h
      by_cases h2 : d = p.1
      · rw [if_pos h2] at h
        rcases List.mem_cons.1 h with h3 | h3
        · exact Or.inl h3
        · exact Or.inr (List.mem_cons_of_mem _ h3)
      · rw [if_neg h2] at h
        rcases List.mem_cons.1 h with h3 | h3
        · exact Or.inr (h3 ▸ List.mem_cons_self _ _)
        · rcases ih h3 with h4 | h4
          · exact Or.inl h4
          · exact Or.inr (List.mem_cons_of_mem _ h4)

theorem aset_sorted (m : AssignMap) (d v : Nat) (hs : KeysSorted m) :
    KeysSorted (aset d v m) := by
  induction m with
  | nil => simp [aset, KeysSorted]
  | cons p ps ih =>
    have hs2 := List.pairwise_cons.1 hs
    rw [aset_cons]
    by_cases h1 : d < p.1
    · rw [if_pos h1]
      refine List.pairwise_cons.2 ⟨?_, hs⟩
      intro q hq
      show d < q.1
      rcases List.mem_cons.1 hq with h2 | h2
      · rw [h2]
        exact h1
      · exact Nat.lt_trans h1 (hs2.1 q h2)
    · rw [if_neg h1]
      by_cases h2 : d = p.1
      · rw [if_pos h2]
        refine List.pairwise_cons.2 ⟨?_, hs2.2⟩
        intro q hq
        show d < q.1
        rw [h2]
        exact hs2.1 q hq
      · rw [if_neg h2]
        refine List.pairwise_cons.2 ⟨?_, ih hs2.2⟩
        intro q hq
        rcases mem_aset ps d v q hq with h3 | h3
        · rw [h3]
          show p.1 < d
          omega
        · exact hs2.1 q h3

theorem adel_sorted (m : AssignMap) (d : Nat) (hs : KeysSorted m) :
    KeysSorted (adel d m) :=
  List.Pairwise.sublist (List.filter_sublist m) hs

theorem sorted_nodupKeys (m : AssignMap) (hs : KeysSorted m) : NodupKeys m := by
  rw [NodupKeys, List.Nodup, List.pairwise_map]
  exact hs.imp fun h => Nat.ne_of_lt h

theorem aset_perm (m : AssignMap) (d v : Nat) (h : aget m d = none) :
    List.Perm (aset d v m) ((d, v) :: m) := by
  induction m with
  | nil => exact List.Perm.refl _
  | cons p ps ih =>
    obtain ⟨h1, h2⟩ := aget_none_of_cons p ps d h
    rw [aset_cons]
    split
    · exact List.Perm.refl _
    · split
      · rename_i h3 h4
        exact absurd h4.symm h1
      · exact ((ih h2).cons p).trans (List.Perm.swap (d, v) p ps)

theorem adel_perm (m : AssignMap) (d v : Nat) (hn : NodupKeys m)
    (h : aget m d = some v) : List.Perm ((d, v) :: adel d m) m := by
  induction m with
  | nil => exact absurd h (by simp [aget])
  | cons p ps ih =>
    obtain ⟨a, b⟩ := p
    rw [NodupKeys, List.map_cons, List.nodup_cons] at hn
    rw [aget_cons] at h
    by_cases h1 : a = d
    · simp only [if_pos h1] at h
      injection h with hv
      rw [adel_cons, if_pos h1, adel_of_aget_none ps d
        (aget_eq_none_of_not_mem_keys ps d (h1 ▸ hn.1)), ← h1, ← hv]
    · simp only [if_neg h1] at h
      rw [adel_cons, if_neg h1]
      exact (List.Perm.swap (a, b) (d, v) (adel d ps)).trans ((ih hn.2 h).cons (a, b))

theorem countVal_perm (m1 m2 : AssignMap) (id : Nat) (h : List.Perm m1 m2) :
    countVal m1 id = countVal m2 id :=
  List.Perm.length_eq (h.filter _)

theorem countVal_cons (d v id : Nat) (m : AssignMap) :
    countVal ((d, v) :: m) id = (if v = id then 1 else 0) + countVal m id := by
  by_cases hv : v = id <;>
    simp [countVal, List.filter_cons, hv, Nat.add_comm]

theorem blockCountOf_perm (input : ScheduleInput) (m1 m2 : AssignMap)
    (id : Nat) (k : BlockKey) (h : List.Perm m1 m2) :
    blockCountOf input m1 id k = blockCountOf input m2 id k :=
  List.Perm.length_eq ((h.filter _).filter _)

theorem blockCountOf_cons (input : ScheduleInput) (d v id : Nat) (k : BlockKey)
    (m : AssignMap) :
    blockCountOf input ((d, v) :: m) id k =
      (if v = id ∧ weekendBlockKey input.year input.month (d : Int) = some k
        then 1 else 0) + blockCountOf input m id k := by
  by_cases hv : v = id
  · by_cases hk : weekendBlockKey input.year input.month (d : Int) = some k <;>
      simp [blockCountOf, List.filter_cons, hv, hk, Nat.add_comm]
  · simp [blockCountOf, List.filter_cons, hv]

theorem blocksOf_perm (input : ScheduleInput) (m1 m2 : AssignMap) (id : Nat)
    (h : List.Perm m1 m2) :
    List.Perm (blocksOf input m1 id) (blocksOf input m2 id) :=
  ((h.filter _).filterMap _).dedup

theorem nodup_blocksOf (input : ScheduleInput) (m : AssignMap) (id : Nat) :
    (blocksOf input m id).Nodup :=
  List.nodup_dedup _

theorem mem_blocksOf_iff (input : ScheduleInput) (m : AssignMap) (id : Nat)
    (k : BlockKey) :
    k ∈ blocksOf input m id ↔ ¬ blockCountOf input m id k = 0 := by
  rw [blocksOf, List.mem_dedup, List.mem_filterMap]
  constructor
  · rintro ⟨p, hp, hpk⟩ h0
    have hmem : p ∈ (m.filter fun p => p.2 = id).filter
        (fun p => weekendBlockKey input.year input.month (p.1 : Int) = some k) := by
      rw [List.mem_filter]
      exact ⟨hp, by simp [hpk]⟩
    rw [blockCountOf, List.length_eq_zero] at h0
    rw [h0] at hmem
    exact absurd hmem (List.not_mem_nil p)
  · intro h0
    have hpos : 0 < ((m.filter fun p => p.2 = id).filter
        (fun p => weekendBlockKey input.year input.month (p.1 : Int) = some k)).length :=
      Nat.pos_of_ne_zero h0
    rw [List.length_pos_iff_exists_mem] at hpos
    obtain ⟨p, hp⟩ := hpos
    rw [List.mem_filter] at hp
    refine ⟨p, hp.1, ?_⟩
    have := hp.2
    simpa using this

theorem blocksOf_cons_ne (input : ScheduleInput) (d v id : Nat) (m : AssignMap)
    (hv : ¬ v = id) :
    blocksOf input ((d, v) :: m) id = blocksOf input m id := by
  simp [blocksOf, List.filter_cons, hv]

theorem blocksOf_cons_none (input : ScheduleInput) (d v id : Nat) (m : AssignMap)
    (hk : weekendBlockKey input.year input.month (d : Int) = none) :
    blocksOf input ((d, v) :: m) id = blocksOf input m id := by
  by_cases hv : v = id
  · simp [blocksOf, List.filter_cons, hv, List.filterMap_cons, hk]
  · simp [blocksOf, List.filter_cons, hv]

theorem blocksOf_cons_some (input : ScheduleInput) (d v id : Nat)
    (m : AssignMap) (k : BlockKey) (hv : v = id)
    (hk : weekendBlockKey input.year input.month (d : Int) = some k) :
    blocksOf input ((d, v) :: m) id =
      if k ∈ blocksOf input m id then blocksOf input m id
      else k :: blocksOf input m id := by
  have h1 : (((d, v) :: m).filter fun p => p.2 = id) =
      (d, v) :: (m.filter fun p => p.2 = id) := by
    simp [List.filter_cons, hv]
  rw [blocksOf, h1, List.filterMap_cons, hk]
  by_cases hm : k ∈ ((m.filter fun p => p.2 = id).filterMap fun p =>
      weekendBlockKey input.year input.month (p.1 : Int))
  · rw [List.dedup_cons_of_mem hm, if_pos]
    · rfl
    · rw [blocksOf, List.mem_dedup]
      exact hm
  · rw [List.dedup_cons_of_not_mem hm, if_neg]
    · rfl
    · rw [blocksOf, List.mem_dedup]
      exact hm

/-! ## Lemmas: the tracked bookkeeping stays equal to the map-derived
quantities across a disciplined apply / undo step -/

theorem countVal_aset_eq (m : AssignMap) (d v id : Nat)
    (h : aget m d = none) :
    countVal (aset d v m) id = (if v = id then 1 else 0) + countVal m id := by
  rw [countVal_perm _ _ _ (aset_perm m d v h), countVal_cons]

theorem blockCountOf_aset_eq (input : ScheduleInput) (m : AssignMap)
    (d v id : Nat) (k : BlockKey) (h : aget m d = none) :
    blockCountOf input (aset d v m) id k =
      (if v = id ∧ weekendBlockKey input.year input.month (d : Int) = some k
        then 1 else 0) + blockCountOf input m id k := by
  rw [blockCountOf_perm _ _ _ _ _ (aset_perm m d v h), blockCountOf_cons]

theorem trackEq_apply (input : ScheduleInput) (s : SolveState) (day v : Nat)
    (hget : aget s.assignments day = none)
    (hsorted : KeysSorted s.assignments)
    (hc : ∀ id, s.counts id = (countVal s.assignments id : Int))
    (hb : ∀ id k, s.weekendBlocksByDoctor id k =
      blockCountOf input s.assignments id k)
    (ht : ∀ id, s.weekendBlockTotals id =
      ((blocksOf input s.assignments id).length : Int)) :
    KeysSorted (applyAssignment s input.year input.month day v).assignments ∧
    (∀ id, (applyAssignment s input.year input.month day v).counts id =
      (countVal (applyAssignment s input.year input.month day v).assignments id : Int)) ∧
    (∀ id k, (applyAssignment s input.year input.month day v).weekendBlocksByDoctor id k =
      blockCountOf input (applyAssignment s input.year input.month day v).assignments id k) ∧
    (∀ id, (applyAssignment s input.year input.month day v).weekendBlockTotals id =
      ((blocksOf input (applyAssignment s input.year input.month day v).assignments id).length : Int)) := by
  have hperm := aset_perm s.assignments day v hget
  refine ⟨?_, ?_, ?_, ?_⟩
  · rw [apply_assignments]
    exact aset_sorted _ _ _ hsorted
  · intro id
    rw [apply_counts, apply_assignments, countVal_aset_eq _ _ _ _ hget]
    simp only []
    by_cases hi : id = v
    · subst hi
      rw [if_pos rfl, if_pos rfl, hc id]
      push_cast
      omega
    · rw [if_neg hi, if_neg (fun hh => hi hh.symm), hc id]
      push_cast
      omega
  · intro id k
    rw [apply_assignments]
    cases hk : weekendBlockKey input.year input.month (day : Int) with
    | none =>
      rw [apply_blocks_none _ _ _ _ _ hk, blockCountOf_aset_eq _ _ _ _ _ _ hget, hk]
      rw [if_neg (fun hcon => Option.noConfusion hcon.2), hb id k]
      omega
    | some k0 =>
      rw [apply_blocks_some _ _ _ _ _ _ hk, blockCountOf_aset_eq _ _ _ _ _ _ hget, hk]
      simp only []
      by_cases hi1 : id = v
      · by_cases hi2 : k = k0
        · subst hi1
          subst hi2
          rw [if_pos ⟨rfl, rfl⟩, if_pos ⟨rfl, rfl⟩, hb id k]
          omega
        · rw [if_neg (fun hcon => hi2 hcon.2), if_neg, hb id k]
          · omega
          · intro hcon
            injection hcon.2 with h2
            exact hi2 h2.symm
      · rw [if_neg (fun hcon => hi1 hcon.1), if_neg (fun hcon => hi1 hcon.1.symm),
          hb id k]
        omega
  · intro id
    rw [apply_assignments]
    have hlen := (blocksOf_perm input _ _ id hperm).length_eq
    cases hk : weekendBlockKey input.year input.month (day : Int) with
    | none =>
      rw [apply_totals_none _ _ _ _ _ hk, ht id, hlen,
        blocksOf_cons_none _ _ _ _ _ hk]
    | some k0 =>
      rw [apply_totals_some _ _ _ _ _ _ hk, hlen]
      simp only []
      by_cases hi : id = v
      · subst hi
        rw [blocksOf_cons_some _ _ _ _ _ _ rfl hk]
        by_cases hmem : k0 ∈ blocksOf input s.assignments id
        · have h0 : ¬ blockCountOf input s.assignments id k0 = 0 :=
            (mem_blocksOf_iff _ _ _ _).1 hmem
          rw [if_pos hmem, if_neg, ht id]
          intro hcon
          rw [hb id k0] at hcon
          exact h0 hcon.2
        · have h0 : blockCountOf input s.assignments id k0 = 0 := by
            by_contra hne
            exact hmem ((mem_blocksOf_iff _ _ _ _).2 hne)
          rw [if_neg hmem, if_pos ⟨rfl, by rw [hb id k0, h0]⟩, ht id,
            List.length_cons]
          push_cast
          omega
      · rw [blocksOf_cons_ne _ _ _ _ _ (fun hh => hi hh.symm), ht id,
          if_neg (fun hcon => hi hcon.1)]

theorem trackEq_undo (input : ScheduleInput) (s : SolveState) (day v : Nat)
    (hget : aget s.assignments day = some v)
    (hsorted : KeysSorted s.assignments)
    (hc : ∀ id, s.counts id = (countVal s.assignments id : Int))
    (hb : ∀ id k, s.weekendBlocksByDoctor id k =
      blockCountOf input s.assignments id k)
    (ht : ∀ id, s.weekendBlockTotals id =
      ((blocksOf input s.assignments id).length : Int)) :
    KeysSorted (undoAssignment s input.year input.month day v).assignments ∧
    (∀ id, (undoAssignment s input.year input.month day v).counts id =
      (countVal (undoAssignment s input.year input.month day v).assignments id : Int)) ∧
    (∀ id k, (undoAssignment s input.year input.month day v).weekendBlocksByDoctor id k =
      blockCountOf input (undoAssignment s input.year input.month day v).assignments id k) ∧
    (∀ id, (undoAssignment s input.year input.month day v).weekendBlockTotals id =
      ((blocksOf input (undoAssignment s input.year input.month day v).assignments id).length : Int)) := by
  have hperm := adel_perm s.assignments day v (sorted_nodupKeys _ hsorted) hget
  have hcv : ∀ i, countVal s.assignments i =
      (if v = i then 1 else 0) + countVal (adel day s.assignments) i := by
    intro i
    rw [← countVal_perm _ _ _ hperm, countVal_cons]
  have hbc : ∀ i k2, blockCountOf input s.assignments i k2 =
      (if v = i ∧ weekendBlockKey input.year input.month (day : Int) = some k2
        then 1 else 0) + blockCountOf input (adel day s.assignments) i k2 := by
    intro i k2
    rw [← blockCountOf_perm _ _ _ _ _ hperm, blockCountOf_cons]
  refine ⟨?_, ?_, ?_, ?_⟩
  · rw [undo_assignments]
    exact adel_sorted _ _ hsorted
  · intro id
    rw [undo_counts, undo_assignments]
    simp only []
    by_cases hi : id = v
    · subst hi
      rw [if_pos rfl, hc id, hcv id, if_pos rfl]
      push_cast
      omega
    · rw [if_neg hi, hc id, hcv id, if_neg (fun hh => hi hh.symm)]
      push_cast
      omega
  · intro id k
    rw [undo_assignments]
    cases hk : weekendBlockKey input.year input.month (day : Int) with
    | none =>
      rw [undo_blocks_none _ _ _ _ _ hk, hb id k, hbc id k, hk]
      rw [if_neg (fun hcon => Option.noConfusion hcon.2)]
      omega
    | some k0 =>
      have hstate : s.weekendBlocksByDoctor v k0 =
          1 + blockCountOf input (adel day s.assignments) v k0 := by
        rw [hb v k0, hbc v k0, hk, if_pos ⟨rfl, rfl⟩]
      by_cases hle : s.weekendBlocksByDoctor v k0 ≤ 1
      · rw [undo_blocks_some_le _ _ _ _ _ _ hk hle]
        simp only []
        by_cases hi : id = v ∧ k = k0
        · obtain ⟨hi1, hi2⟩ := hi
          subst hi1
          subst hi2
          rw [if_pos ⟨rfl, rfl⟩]
          omega
        · rw [if_neg hi, hb id k, hbc id k, hk, if_neg]
          · omega
          · intro hcon
            obtain ⟨hc1, hc2⟩ := hcon
            injection hc2 with hc2
            exact hi ⟨hc1.symm, hc2.symm⟩
      · rw [undo_blocks_some_gt _ _ _ _ _ _ hk hle]
        simp only []
        by_cases hi : id = v ∧ k = k0
        · obtain ⟨hi1, hi2⟩ := hi
          subst hi1
          subst hi2
          rw [if_pos ⟨rfl, rfl⟩]
          omega
        · rw [if_neg hi, hb id k, hbc id k, hk, if_neg]
          · omega
          · intro hcon
            obtain ⟨hc1, hc2⟩ := hcon
            injection hc2 with hc2
            exact hi ⟨hc1.symm, hc2.symm⟩
  · intro id
    rw [undo_assignments]
    have hlen := (blocksOf_perm input _ _ id hperm).length_eq
    cases hk : weekendBlockKey input.year input.month (day : Int) with
    | none =>
      rw [undo_totals_none _ _ _ _ _ hk, ht id, ← hlen,
        blocksOf_cons_none _ _ _ _ _ hk]
    | some k0 =>
      have hstate : s.weekendBlocksByDoctor v k0 =
          1 + blockCountOf input (adel day s.assignments) v k0 := by
        rw [hb v k0, hbc v k0, hk, if_pos ⟨rfl, rfl⟩]
      by_cases hi : id = v
      · subst hi
        have hcons := blocksOf_cons_some input day id id
          (adel day s.assignments) k0 rfl hk
        by_cases hle : s.weekendBlocksByDoctor id k0 ≤ 1
        · have h0 : blockCountOf input (adel day s.assignments) id k0 = 0 := by
            omega
          have hnm : ¬ k0 ∈ blocksOf input (adel day s.assignments) id := by
            intro hmem
            exact (mem_blocksOf_iff _ _ _ _).1 hmem h0
          rw [undo_totals_some_le _ _ _ _ _ _ hk hle]
          simp only []
          rw [ht id, ← hlen, hcons, if_neg hnm, List.length_cons]
          push_cast
          omega
        · have h0 : ¬ blockCountOf input (adel day s.assignments) id k0 = 0 := by
            omega
          have hm : k0 ∈ blocksOf input (adel day s.assignments) id :=
            (mem_blocksOf_iff _ _ _ _).2 h0
          rw [undo_totals_some_gt _ _ _ _ _ _ hk hle, ht id, ← hlen, hcons,
            if_pos hm]
      · have hne : ¬ v = id := fun hh => hi hh.symm
        have hcons := blocksOf_cons_ne input day v id (adel day s.assignments) hne
        by_cases hle : s.weekendBlocksByDoctor v k0 ≤ 1
        · rw [undo_totals_some_le _ _ _ _ _ _ hk hle]
          simp only []
          rw [if_neg hi, ht id, ← hlen, hcons]
        · rw [undo_totals_some_gt _ _ _ _ _ _ hk hle, ht id, ← hlen, hcons]

/-! ## Claim C10: tracked bookkeeping on reachable states -/

/-- C10: the claim admits any sequence of apply and undo steps, but two
apply steps aimed at the same day break the tracked counts: after applying
worker 8 and then worker 11 to day 3, worker 8's tracked count is 1 while
worker 8 holds no day of the assignment map. -/
theorem C10_counterexample :
    ReachAny inputNoSeed c10state ∧
      ¬ c10state.counts 8 = (countVal c10state.assignments 8 : Int) := by
  constructor
  · exact ReachAny.apply _ 3 11 (ReachAny.apply _ 3 8 ReachAny.init)
  · decide

/-- C10 (amended): in every state reachable by the solver's discipline —
each apply targets a day absent from the assignment map, each undo targets
a day currently mapped to that worker — every worker's tracked count equals
the number of days mapped to them, the tracked per-block count equals the
number of their assigned days in that block, and the tracked distinct-block
total equals the number of weekend-block keys with strictly positive count
in their block map (the length of the duplicate-free list `blocksOf`, whose
members are exactly those keys). -/
theorem C10_tracked_bookkeeping (input : ScheduleInput) (s : SolveState)
    (h : ReachD input s) :
    ∀ id, s.counts id = (countVal s.assignments id : Int) ∧
      (∀ k, s.weekendBlocksByDoctor id k = blockCountOf input s.assignments id k) ∧
      (∀ k, k ∈ blocksOf input s.assignments id ↔
        ¬ s.weekendBlocksByDoctor id k = 0) ∧
      s.weekendBlockTotals id = ((blocksOf input s.assignments id).length : Int) := by
  have main : KeysSorted s.assignments ∧
      (∀ id, s.counts id = (countVal s.assignments id : Int)) ∧
      (∀ id k, s.weekendBlocksByDoctor id k =
        blockCountOf input s.assignments id k) ∧
      (∀ id, s.weekendBlockTotals id =
        ((blocksOf input s.assignments id).length : Int)) := by
    induction h with
    | init =>
      refine ⟨List.Pairwise.nil, ?_, ?_, ?_⟩
      · intro id
        rfl
      · intro id k
        rfl
      · intro id
        rfl
    | apply s day id0 hr hget ih =>
      obtain ⟨ihs, ihc, ihb, iht⟩ := ih
      exact trackEq_apply input s day id0 hget ihs ihc ihb iht
    | undo s day id0 hr hget ih =>
      obtain ⟨ihs, ihc, ihb, iht⟩ := ih
      exact trackEq_undo input s day id0 hget ihs ihc ihb iht
  obtain ⟨hs, hc, hb, ht⟩ := main
  intro id
  refine ⟨hc id, hb id, ?_, ht id⟩
  intro k
  rw [hb id k]
  exact mem_blocksOf_iff input s.assignments id k

theorem C10_tracked_bookkeeping_witness :
    c10wstate.counts 8 = (countVal c10wstate.assignments 8 : Int) :=
  (C10_tracked_bookkeeping inputNoSeed c10wstate
    (ReachD.apply _ 5 8 ReachD.init rfl) 8).1

/-! ## Lemmas: extracting the facts guaranteed by the hard predicates -/

theorem isHardAllowedTail_parts (ctx : SolveCtx) (day : Nat) (doc : Doctor)
    (s : SolveState)
    (h : isHardAllowed.isHardAllowedTail ctx day doc s = true) :
    ¬ preferenceAt ctx.input doc.id day = 1 ∧
    (day = 1 → ¬ hasCrossMonthRestBlock doc.id ctx.input.prevLastDoctorId = true) ∧
    (isLeadershipDoctor doc = true →
      isWeekendServiceDay ctx.input.year ctx.input.month (day : Int) = false) ∧
    (isCertifiedDoctor doc = false →
      isTuesdayOrThursday ctx.input.year ctx.input.month (day : Int) = false) ∧
    s.counts doc.id + 1 ≤ ctx.caps doc.id ∧
    ¬ aget s.assignments (day - 1) = some doc.id ∧
    ¬ aget s.assignments (day + 1) = some doc.id ∧
    (∀ k, weekendBlockKey ctx.input.year ctx.input.month (day : Int) = some k →
      s.weekendBlocksByDoctor doc.id k = 0 → s.weekendBlockTotals doc.id < 2) := by
  unfold isHardAllowed.isHardAllowedTail at h
  simp only [] at h
  split_ifs at h with h1 h2 h3 h4 h5 h6 h7 h8
  refine ⟨h1, fun hd hcr => h2 ⟨hd, hcr⟩,
    fun hl => Bool.eq_false_iff.mpr (fun hw => h3 ⟨hl, hw⟩),
    fun hcert => Bool.eq_false_iff.mpr (fun htt => h4 ⟨htt,
      Bool.eq_false_iff.mp hcert⟩),
    by omega, h7, h8, ?_⟩
  intro k hk h0
  by_contra hge
  rw [hk] at h
  simp only [] at h
  rw [if_pos ⟨by omega, by omega⟩] at h
  exact Bool.noConfusion h

theorem isHardAllowed_parts (ctx : SolveCtx) (day : Nat) (doc : Doctor)
    (s : SolveState) (h : isHardAllowed ctx day doc s = true) :
    (∀ L, ctx.input.locks day = some L → doc.id = L) ∧
    isHardAllowed.isHardAllowedTail ctx day doc s = true := by
  have hrest : isHardAllowed.isHardAllowedRest ctx day doc s = true := by
    unfold isHardAllowed at h
    split at h
    · rename_i fid hf
      by_cases hne : fid = doc.id
      · rw [if_neg (fun hc => hc hne)] at h
        exact h
      · rw [if_pos hne] at h
        exact Bool.noConfusion h
    · exact h
  unfold isHardAllowed.isHardAllowedRest at hrest
  simp only [] at hrest
  split at hrest
  · rename_i forced hf
    by_cases hne : forced = doc.id
    · rw [if_neg (fun hc => hc hne)] at hrest
      refine ⟨?_, hrest⟩
      intro L hL
      rw [lockedDoctor, hL] at hf
      injection hf with hf2
      rw [hf2, hne]
    · rw [if_pos hne] at hrest
      exact Bool.noConfusion hrest
  · rename_i hf
    refine ⟨?_, hrest⟩
    intro L hL
    rw [lockedDoctor, hL] at hf
    exact Option.noConfusion hf

theorem isBaseTail_parts (input : ScheduleInput) (day : Nat) (doc : Doctor)
    (s : SolveState)
    (h : isBaseHardAllowedForDiscussion.isBaseTail input day doc s = true) :
    ¬ preferenceAt input doc.id day = 1 ∧
    (day = 1 → ¬ hasCrossMonthRestBlock doc.id input.prevLastDoctorId = true) ∧
    (isLeadershipDoctor doc = true →
      isWeekendServiceDay input.year input.month (day : Int) = false) ∧
    (isCertifiedDoctor doc = false →
      isTuesdayOrThursday input.year input.month (day : Int) = false) ∧
    ¬ aget s.assignments (day - 1) = some doc.id ∧
    ¬ aget s.assignments (day + 1) = some doc.id ∧
    (∀ k, weekendBlockKey input.year input.month (day : Int) = some k →
      s.weekendBlocksByDoctor doc.id k = 0 → s.weekendBlockTotals doc.id < 2) := by
  unfold isBaseHardAllowedForDiscussion.isBaseTail at h
  simp only [] at h
  split_ifs at h with h1 h2 h3 h4 h5 h6
  refine ⟨h1, fun hd hcr => h2 ⟨hd, hcr⟩,
    fun hl => Bool.eq_false_iff.mpr (fun hw => h3 ⟨hl, hw⟩),
    fun hcert => Bool.eq_false_iff.mpr (fun htt => h4 ⟨htt,
      Bool.eq_false_iff.mp hcert⟩),
    h5, h6, ?_⟩
  intro k hk h0
  by_contra hge
  rw [hk] at h
  simp only [] at h
  rw [if_pos ⟨by omega, by omega⟩] at h
  exact Bool.noConfusion h

theorem isBaseHardAllowed_parts (input : ScheduleInput) (day : Nat)
    (doc : Doctor) (s : SolveState)
    (h : isBaseHardAllowedForDiscussion input day doc s = true) :
    (∀ L, input.locks day = some L → doc.id = L) ∧
    isBaseHardAllowedForDiscussion.isBaseTail input day doc s = true := by
  unfold isBaseHardAllowedForDiscussion at h
  split at h
  · rename_i forced hf
    by_cases hne : forced = doc.id
    · rw [if_neg (fun hc => hc hne)] at h
      refine ⟨?_, h⟩
      intro L hL
      rw [lockedDoctor, hL] at hf
      injection hf with hf2
      rw [hf2, hne]
    · rw [if_pos hne] at h
      exact Bool.noConfusion h
  · rename_i hf
    refine ⟨?_, h⟩
    intro L hL
    rw [lockedDoctor, hL] at hf
    exact Option.noConfusion hf

/-! ## Lemmas: the invariant is preserved by a guarded apply -/

theorem values_nonzero (input : ScheduleInput) (m : AssignMap)
    (hwf : wfInput input) (hbinds : ∀ p ∈ m, BindOK input p.1 p.2) :
    ∀ p ∈ m, ¬ p.2 = 0 := by
  intro p hp h0
  obtain ⟨doc, hdoc, hid, _⟩ := hbinds p hp
  exact hwf.2 doc hdoc (by rw [hid, h0])

theorem aget_none_of_truthy_false (m : AssignMap) (d : Nat)
    (hv : ∀ p ∈ m, ¬ p.2 = 0) (h : truthyAt m d = false) :
    aget m d = none := by
  unfold truthyAt at h
  cases hg : aget m d with
  | none => rfl
  | some v =>
    rw [hg] at h
    simp at h
    exact absurd h (hv (d, v) (mem_of_aget _ _ _ hg))

theorem InvB_apply (input : ScheduleInput) (s : SolveState) (day : Nat)
    (doc : Doctor) (hwf : wfInput input) (hdoc : doc ∈ input.doctors)
    (hInv : InvB input s)
    (hday1 : 1 ≤ day) (hday2 : day ≤ daysInMonth input.year input.month)
    (hget : aget s.assignments day = none)
    (hlock : ∀ L, input.locks day = some L → doc.id = L)
    (hpref : ¬ preferenceAt input doc.id day = 1)
    (hcross : day = 1 → ¬ hasCrossMonthRestBlock doc.id input.prevLastDoctorId = true)
    (hlead : isLeadershipDoctor doc = true →
      isWeekendServiceDay input.year input.month (day : Int) = false)
    (hcert : isCertifiedDoctor doc = false →
      isTuesdayOrThursday input.year input.month (day : Int) = false)
    (hprev : ¬ aget s.assignments (day - 1) = some doc.id)
    (hnext : ¬ aget s.assignments (day + 1) = some doc.id)
    (hblock : ∀ k, weekendBlockKey input.year input.month (day : Int) = some k →
      s.weekendBlocksByDoctor doc.id k = 0 → s.weekendBlockTotals doc.id < 2) :
    InvB input (applyAssignment s input.year input.month day doc.id) := by
  obtain ⟨hsort, hrange, hbinds, hadj, hc, hb, ht, hle2⟩ := hInv
  obtain ⟨hs2, hc2, hb2, ht2⟩ := trackEq_apply input s day doc.id hget hsort hc hb ht
  refine ⟨hs2, ?_, ?_, ?_, hc2, hb2, ht2, ?_⟩
  · intro p hp
    rw [apply_assignments] at hp
    rcases mem_aset _ _ _ _ hp with h2 | h2
    · rw [h2]
      exact ⟨hday1, hday2⟩
    · exact hrange p h2
  · intro p hp
    rw [apply_assignments] at hp
    rcases mem_aset _ _ _ _ hp with h2 | h2
    · rw [h2]
      exact ⟨doc, hdoc, rfl, hlock, hpref, hcross, hlead, hcert⟩
    · exact hbinds p h2
  · intro d2 v2 hg1 hg2
    rw [apply_assignments] at hg1 hg2
    by_cases e1 : d2 = day
    · subst e1
      rw [aget_aset_self] at hg1
      injection hg1 with hv
      rw [aget_aset_ne _ _ _ _ (by omega)] at hg2
      exact hnext (hv ▸ hg2)
    · by_cases e2 : d2 + 1 = day
      · rw [aget_aset_ne _ _ _ _ e1] at hg1
        rw [e2, aget_aset_self] at hg2
        injection hg2 with hv
        apply hprev
        have he : day - 1 = d2 := by omega
        rw [he, hg1, hv]
      · rw [aget_aset_ne _ _ _ _ e1] at hg1
        rw [aget_aset_ne _ _ _ _ e2] at hg2
        exact hadj d2 v2 hg1 hg2
  · intro id
    have hlen := (blocksOf_perm input _ _ id
      (aset_perm s.assignments day doc.id hget)).length_eq
    rw [apply_assignments, hlen]
    by_cases hi : doc.id = id
    · subst hi
      cases hk : weekendBlockKey input.year input.month (day : Int) with
      | none =>
        rw [blocksOf_cons_none _ _ _ _ _ hk]
        exact hle2 _
      | some k =>
        rw [blocksOf_cons_some _ _ _ _ _ _ rfl hk]
        by_cases hm : k ∈ blocksOf input s.assignments doc.id
        · rw [if_pos hm]
          exact hle2 _
        · rw [if_neg hm, List.length_cons]
          have h0 : blockCountOf input s.assignments doc.id k = 0 := by
            by_contra hne
            exact hm ((mem_blocksOf_iff _ _ _ _).2 hne)
          have hlt := hblock k hk (by rw [hb doc.id k]; exact h0)
          rw [ht doc.id] at hlt
          omega
    · rw [blocksOf_cons_ne _ _ _ _ _ hi]
      exact hle2 _

theorem Inv_apply (input : ScheduleInput) (caps : Nat → Int) (s : SolveState)
    (day : Nat) (doc : Doctor) (hwf : wfInput input) (hdoc : doc ∈ input.doctors)
    (hInv : Inv input caps s)
    (hday1 : 1 ≤ day) (hday2 : day ≤ daysInMonth input.year input.month)
    (hget : aget s.assignments day = none)
    (hlock : ∀ L, input.locks day = some L → doc.id = L)
    (hpref : ¬ preferenceAt input doc.id day = 1)
    (hcross : day = 1 → ¬ hasCrossMonthRestBlock doc.id input.prevLastDoctorId = true)
    (hlead : isLeadershipDoctor doc = true →
      isWeekendServiceDay input.year input.month (day : Int) = false)
    (hcert : isCertifiedDoctor doc = false →
      isTuesdayOrThursday input.year input.month (day : Int) = false)
    (hprev : ¬ aget s.assignments (day - 1) = some doc.id)
    (hnext : ¬ aget s.assignments (day + 1) = some doc.id)
    (hblock : ∀ k, weekendBlockKey input.year input.month (day : Int) = some k →
      s.weekendBlocksByDoctor doc.id k = 0 → s.weekendBlockTotals doc.id < 2)
    (hcap : s.counts doc.id + 1 ≤ caps doc.id) :
    Inv input caps (applyAssignment s input.year input.month day doc.id) := by
  refine ⟨InvB_apply input s day doc hwf hdoc hInv.toInvB hday1 hday2 hget hlock
    hpref hcross hlead hcert hprev hnext hblock, ?_⟩
  intro id
  rw [apply_counts]
  simp only []
  by_cases hi : id = doc.id
  · subst hi
    rw [if_pos rfl]
    exact hcap
  · rw [if_neg hi]
    exact hInv.counts_le id

/-! ## Lemmas: sorting and the most-constrained-day scan -/

theorem insertRng_mem (cmp : α → α → Nat → Frac × Nat) (x : α) :
    ∀ (l : List α) (rc : Nat) (y : α),
      y ∈ (insertRng cmp x l rc).1 → y = x ∨ y ∈ l := by
  intro l
  induction l with
  | nil =>
    intro rc y hy
    simp [insertRng] at hy
    exact Or.inl hy
  | cons z zs ih =>
    intro rc y hy
    rw [insertRng] at hy
    simp only [] at hy
    split at hy
    · rcases List.mem_cons.1 hy with h2 | h2
      · exact Or.inl h2
      · exact Or.inr h2
    · rcases List.mem_cons.1 hy with h2 | h2
      · exact Or.inr (h2 ▸ List.mem_cons_self _ _)
      · rcases ih _ _ h2 with h3 | h3
        · exact Or.inl h3
        · exact Or.inr (List.mem_cons_of_mem _ h3)

theorem insertRng_length (cmp : α → α → Nat → Frac × Nat) (x : α) :
    ∀ (l : List α) (rc : Nat),
      (insertRng cmp x l rc).1.length = l.length + 1 := by
  intro l
  induction l with
  | nil =>
    intro rc
    rfl
  | cons z zs ih =>
    intro rc
    rw [insertRng]
    split
    · rfl
    · simp only [List.length_cons, ih]

theorem sortRng_mem (cmp : α → α → Nat → Frac × Nat) :
    ∀ (l : List α) (rc : Nat) (y : α),
      y ∈ (sortRng cmp l rc).1 → y ∈ l := by
  intro l
  induction l with
  | nil =>
    intro rc y hy
    simp [sortRng] at hy
  | cons x xs ih =>
    intro rc y hy
    rw [sortRng] at hy
    rcases insertRng_mem cmp x _ _ y hy with h2 | h2
    · exact h2 ▸ List.mem_cons_self _ _
    · exact List.mem_cons_of_mem _ (ih _ _ h2)

theorem sortRng_length (cmp : α → α → Nat → Frac × Nat) :
    ∀ (l : List α) (rc : Nat), (sortRng cmp l rc).1.length = l.length := by
  intro l
  induction l with
  | nil =>
    intro rc
    rfl
  | cons x xs ih =>
    intro rc
    rw [sortRng]
    rw [insertRng_length, ih]
    rfl

theorem insertCmp_perm (cmp : α → α → Int) (x : α) :
    ∀ (l : List α), List.Perm (insertCmp cmp x l) (x :: l) := by
  intro l
  induction l with
  | nil => exact List.Perm.refl _
  | cons y ys ih =>
    rw [insertCmp]
    split
    · exact List.Perm.refl _
    · exact (ih.cons y).trans (List.Perm.swap x y ys)

theorem sortCmp_perm (cmp : α → α → Int) :
    ∀ (l : List α), List.Perm (sortCmp cmp l) l := by
  intro l
  induction l with
  | nil => exact List.Perm.refl _
  | cons x xs ih =>
    rw [sortCmp]
    exact (insertCmp_perm cmp x (sortCmp cmp xs)).trans (ih.cons x)

theorem scanDays_picked (ctx : SolveCtx) (s : SolveState) :
    ∀ (n td : Nat) (cands : List Doctor),
      scanDays ctx s n = some (some (td, cands)) →
      1 ≤ td ∧ td ≤ n ∧ truthyAt s.assignments td = false ∧
        cands = ctx.input.doctors.filter fun d => isHardAllowed ctx td d s := by
  intro n
  induction n with
  | zero =>
    intro td cands h
    rw [scanDays] at h
    injection h with h2
    exact Option.noConfusion h2
  | succ n ih =>
    intro td cands h
    rw [scanDays] at h
    cases hs : scanDays ctx s n with
    | none =>
      rw [hs] at h
      exact Option.noConfusion h
    | some acc =>
      rw [hs] at h
      simp only [] at h
      by_cases htr : truthyAt s.assignments (n + 1)
      · rw [if_pos htr] at h
        injection h with h2
        obtain ⟨g1, g2, g3, g4⟩ := ih td cands (by rw [hs, h2])
        exact ⟨g1, Nat.le_succ_of_le g2, g3, g4⟩
      · rw [if_neg htr] at h
        by_cases hlen :
            (ctx.input.doctors.filter fun d => isHardAllowed ctx (n + 1) d s).length = 0
        · rw [if_pos hlen] at h
          exact Option.noConfusion h
        · rw [if_neg hlen] at h
          have hpick : ∀ (hp : some (some ((n + 1 : Nat),
              ctx.input.doctors.filter fun d => isHardAllowed ctx (n + 1) d s)) =
                some (some (td, cands))),
              1 ≤ td ∧ td ≤ n + 1 ∧ truthyAt s.assignments td = false ∧
                cands = ctx.input.doctors.filter fun d => isHardAllowed ctx td d s := by
            intro hp
            have h3 := Option.some.inj (Option.some.inj hp)
            have h4 : n + 1 = td := congrArg Prod.fst h3
            have h5 := congrArg Prod.snd h3
            simp only [] at h4 h5
            subst h4
            subst h5
            exact ⟨by omega, by omega, Bool.eq_false_iff.mpr htr, rfl⟩
          cases acc with
          | none => exact hpick h
          | some tp =>
            obtain ⟨td0, tc0⟩ := tp
            simp only [] at h
            split at h
            · exact hpick h
            · injection h with h2
              obtain ⟨g1, g2, g3, g4⟩ := ih td cands (by rw [hs, h2])
              exact ⟨g1, Nat.le_succ_of_le g2, g3, g4⟩

theorem Inv_initial (input : ScheduleInput) (caps : Nat → Int)
    (hcaps : ∀ id, 0 ≤ caps id) :
    Inv input caps (createInitialState input.doctors) := by
  refine ⟨⟨List.Pairwise.nil, ?_, ?_, ?_, ?_, ?_, ?_, ?_⟩, ?_⟩
  · intro p hp
    exact absurd hp (List.not_mem_nil p)
  · intro p hp
    exact absurd hp (List.not_mem_nil p)
  · intro d v hg
    exact absurd hg (fun hh => Option.noConfusion hh)
  · intro id
    rfl
  · intro id k
    rfl
  · intro id
    rfl
  · intro id
    simp [blocksOf, createInitialState]
  · intro id
    exact hcaps id

/-! ## Lemmas: the backtracking search preserves the invariant and
restores the state exactly on failure -/

theorem tryCands_spec (ctx : SolveCtx) (hwf : wfInput ctx.input)
    (bt : SolveState → Nat → Bool × SolveState × Nat)
    (hbt : ∀ s rc, Inv ctx.input ctx.caps s →
      ((bt s rc).1 = true → Inv ctx.input ctx.caps (bt s rc).2.1 ∧
        (bt s rc).2.1.assignments.length = ctx.days) ∧
      ((bt s rc).1 = false → (bt s rc).2.1 = s))
    (td : Nat) (htd1 : 1 ≤ td) (htd2 : td ≤ ctx.days) :
    ∀ (cands : List Doctor) (s : SolveState) (rc : Nat),
      Inv ctx.input ctx.caps s →
      aget s.assignments td = none →
      (∀ c ∈ cands, c ∈ ctx.input.doctors ∧ isHardAllowed ctx td c s = true) →
      ((tryCands ctx bt td cands s rc).1 = true →
        Inv ctx.input ctx.caps (tryCands ctx bt td cands s rc).2.1 ∧
        (tryCands ctx bt td cands s rc).2.1.assignments.length = ctx.days) ∧
      ((tryCands ctx bt td cands s rc).1 = false →
        (tryCands ctx bt td cands s rc).2.1 = s) := by
  intro cands
  induction cands with
  | nil =>
    intro s rc hInv hget hc
    rw [tryCands]
    exact ⟨fun h => Bool.noConfusion h, fun _ => rfl⟩
  | cons doctor rest ih =>
    intro s rc hInv hget hc
    have hdoc := (hc doctor (List.mem_cons_self _ _)).1
    have hha := (hc doctor (List.mem_cons_self _ _)).2
    obtain ⟨hlockT, htail⟩ := isHardAllowed_parts ctx td doctor s hha
    obtain ⟨hpref, hcross, hlead, hcert, hcap, hprev, hnext, hblock⟩ :=
      isHardAllowedTail_parts ctx td doctor s htail
    have hInv1 : Inv ctx.input ctx.caps
        (applyAssignment s ctx.input.year ctx.input.month td doctor.id) :=
      Inv_apply ctx.input ctx.caps s td doctor hwf hdoc hInv htd1 htd2 hget
        hlockT hpref hcross hlead hcert hprev hnext hblock hcap
    have hundo : undoAssignment (applyAssignment s ctx.input.year ctx.input.month
        td doctor.id) ctx.input.year ctx.input.month td doctor.id = s :=
      applyAssignment_undoAssignment s ctx.input.year ctx.input.month td doctor.id hget
    have hcrest : ∀ c ∈ rest, c ∈ ctx.input.doctors ∧
        isHardAllowed ctx td c s = true :=
      fun c hcm => hc c (List.mem_cons_of_mem _ hcm)
    rw [tryCands]
    split
    · rcases hbtr : bt (applyAssignment s ctx.input.year ctx.input.month td
        doctor.id) rc with ⟨b, s2, rc2⟩
      have hspec := hbt (applyAssignment s ctx.input.year ctx.input.month td
        doctor.id) rc hInv1
      rw [hbtr] at hspec
      simp only [] at hspec
      cases b with
      | true =>
        simp only []
        refine ⟨fun _ => hspec.1 rfl, fun hfalse => Bool.noConfusion hfalse⟩
      | false =>
        simp only []
        have hs2 : s2 = applyAssignment s ctx.input.year ctx.input.month td
            doctor.id := hspec.2 rfl
        have hback : undoAssignment s2 ctx.input.year ctx.input.month td
            doctor.id = s := by
          rw [hs2, hundo]
        rw [hback]
        exact ih s rc2 hInv hget hcrest
    · rw [hundo]
      exact ih s rc hInv hget hcrest

set_option maxHeartbeats 1600000 in
theorem backtrack_spec (ctx : SolveCtx) (hwf : wfInput ctx.input)
    (stream : Nat → Frac) :
    ∀ (fuel : Nat) (s : SolveState) (rc : Nat), Inv ctx.input ctx.caps s →
      ((backtrack ctx stream fuel s rc).1 = true →
        Inv ctx.input ctx.caps (backtrack ctx stream fuel s rc).2.1 ∧
        (backtrack ctx stream fuel s rc).2.1.assignments.length = ctx.days) ∧
      ((backtrack ctx stream fuel s rc).1 = false →
        (backtrack ctx stream fuel s rc).2.1 = s) := by
  intro fuel
  induction fuel with
  | zero =>
    intro s rc hInv
    rw [backtrack]
    exact ⟨fun h => Bool.noConfusion h, fun _ => rfl⟩
  | succ fuel ih =>
    intro s rc hInv
    rw [backtrack]
    simp only []
    by_cases hdone : s.assignments.length = ctx.days
    · rw [if_pos hdone]
      by_cases hstr : !ctx.strictTargets
      · rw [if_pos hstr]
        exact ⟨fun _ => ⟨hInv, hdone⟩, fun hfalse => Bool.noConfusion hfalse⟩
      · rw [if_neg hstr]
        by_cases hall : ctx.input.doctors.all fun d => s.counts d.id = ctx.targets d.id
        · rw [if_pos hall]
          exact ⟨fun _ => ⟨hInv, hdone⟩, fun hfalse => Bool.noConfusion hfalse⟩
        · rw [if_neg hall]
          exact ⟨fun h => Bool.noConfusion h, fun _ => rfl⟩
    · rw [if_neg hdone]
      cases hscan : scanDays ctx s ctx.days with
      | none =>
        exact ⟨fun h => Bool.noConfusion h, fun _ => rfl⟩
      | some acc =>
        cases acc with
        | none =>
          exact ⟨fun h => Bool.noConfusion h, fun _ => rfl⟩
        | some tp =>
          obtain ⟨td, candidates⟩ := tp
          simp only []
          obtain ⟨h1, h2, h3, h4⟩ := scanDays_picked ctx s ctx.days td candidates hscan
          have hget : aget s.assignments td = none :=
            aget_none_of_truthy_false _ _
              (values_nonzero ctx.input _ hwf hInv.toInvB.binds) h3
          have hcands : ∀ c ∈ (sortRng (solveCmpRng ctx stream td s)
              candidates rc).1,
              c ∈ ctx.input.doctors ∧ isHardAllowed ctx td c s = true := by
            intro c hcmem
            have hmem := sortRng_mem _ _ _ _ hcmem
            rw [h4] at hmem
            refine ⟨(List.mem_filter.1 hmem).1, ?_⟩
            have := (List.mem_filter.1 hmem).2
            simpa using this
          exact tryCands_spec ctx hwf (backtrack ctx stream fuel)
            (fun s2 rc2 hI => ih s2 rc2 hI) td h1 h2 _ s _ hInv hget hcands

/-! ## Lemmas: a sorted full map covers the days exactly -/

theorem length_le_of_sorted_bounded :
    ∀ (l : List Nat) (a b : Nat), List.Pairwise (fun x y : Nat => x < y) l →
      (∀ x ∈ l, a ≤ x ∧ x < b) → l.length ≤ b - a := by
  intro l
  induction l with
  | nil =>
    intro a b _ _
    simp
  | cons x xs ih =>
    intro a b hp hb
    have hx := hb x (List.mem_cons_self _ _)
    have hp2 := List.pairwise_cons.1 hp
    have hxs : ∀ y ∈ xs, x + 1 ≤ y ∧ y < b := fun y hy =>
      ⟨hp2.1 y hy, (hb y (List.mem_cons_of_mem _ hy)).2⟩
    have hlen := ih (x + 1) b hp2.2 hxs
    rw [List.length_cons]
    omega

theorem sorted_bounded_full :
    ∀ (len : Nat) (l : List Nat) (lo : Nat),
      List.Pairwise (fun x y : Nat => x < y) l →
      (∀ x ∈ l, lo ≤ x ∧ x < lo + len) → l.length = len →
      l = List.range' lo len := by
  intro len
  induction len with
  | zero =>
    intro l lo _ _ hl
    rw [List.length_eq_zero] at hl
    rw [hl]
    rfl
  | succ len ih =>
    intro l lo hp hb hl
    cases l with
    | nil => simp at hl
    | cons x xs =>
      have hp2 := List.pairwise_cons.1 hp
      have hx : x = lo := by
        by_contra hne
        have h1 := hb x (List.mem_cons_self _ _)
        have hall : ∀ y ∈ x :: xs, lo + 1 ≤ y ∧ y < lo + (len + 1) := by
          intro y hy
          rcases List.mem_cons.1 hy with h | h
          · subst h
            exact ⟨by omega, h1.2⟩
          · have hgt := hp2.1 y h
            exact ⟨by omega, (hb y (List.mem_cons_of_mem _ h)).2⟩
        have hle := length_le_of_sorted_bounded (x :: xs) (lo + 1)
          (lo + (len + 1)) hp hall
        rw [hl] at hle
        omega
      subst hx
      have hxs : ∀ y ∈ xs, x + 1 ≤ y ∧ y < (x + 1) + len := by
        intro y hy
        have := (hb y (List.mem_cons_of_mem _ hy)).2
        exact ⟨hp2.1 y hy, by omega⟩
      have hlen : xs.length = len := by
        rw [List.length_cons] at hl
        omega
      rw [ih xs (x + 1) hp2.2 hxs hlen, List.range'_succ]

theorem keys_eq_range (input : ScheduleInput) (a : AssignMap)
    (hs : KeysSorted a)
    (hr : ∀ p ∈ a, 1 ≤ p.1 ∧ p.1 ≤ daysInMonth input.year input.month)
    (hl : a.length = daysInMonth input.year input.month) :
    assignsEachDayOnce input a := by
  unfold assignsEachDayOnce
  apply sorted_bounded_full
  · rw [List.pairwise_map]
    exact hs
  · intro x hx
    rw [List.mem_map] at hx
    obtain ⟨p, hp, he⟩ := hx
    have := hr p hp
    omega
  · rw [List.length_map]
    exact hl

/-! ## Lemmas: facts about every successful solver run -/

theorem solveWithCaps_ok (input : ScheduleInput) (caps targets : Nat → Int)
    (wanted : Nat → List Nat) (stream : Nat → Frac) (strict : Bool) (rc : Nat)
    (a : AssignMap) (rc2 : Nat) (hwf : wfInput input)
    (hcaps : ∀ id, 0 ≤ caps id)
    (h : solveWithCaps input caps targets wanted stream strict rc =
      (SolveRes.ok a, rc2)) :
    KeysSorted a ∧ a.length = daysInMonth input.year input.month ∧
    (∀ p ∈ a, 1 ≤ p.1 ∧ p.1 ≤ daysInMonth input.year input.month) ∧
    (∀ p ∈ a, BindOK input p.1 p.2) ∧ noConsecutive a ∧
    (∀ id, (blocksOf input a id).length ≤ 2) ∧
    (∀ id, (countVal a id : Int) ≤ caps id) := by
  unfold solveWithCaps at h
  simp only [] at h
  split at h
  · injection h with h1 h2
    exact SolveRes.noConfusion h1
  · split at h
    · rename_i hcond
      injection h with h1 h2
      injection h1 with h3
      have hspec := (backtrack_spec
        { input := input, caps := caps, targets := targets, wanted := wanted
          strictTargets := strict } hwf stream (solveFuel input caps)
        (createInitialState input.doctors) rc
        (Inv_initial input caps hcaps)).1 hcond
      obtain ⟨hInv, hfull⟩ := hspec
      obtain ⟨hsort, hrange, hbinds, hadj, hc, hb, ht, hle2⟩ := hInv.toInvB
      rw [← h3]
      refine ⟨hsort, hfull, hrange, hbinds, hadj, hle2, ?_⟩
      intro id
      rw [← hc id]
      exact hInv.counts_le id
    · injection h with h1 h2
      exact SolveRes.noConfusion h1

/-! ## Lemmas: the draft proposal builder -/

theorem aset_append_of_lt (d v : Nat) :
    ∀ (m : AssignMap), (∀ p ∈ m, p.1 < d) → aset d v m = m ++ [(d, v)] := by
  intro m
  induction m with
  | nil =>
    intro _
    rfl
  | cons p ps ih =>
    intro h
    have hp := h p (List.mem_cons_self _ _)
    rw [aset_cons, if_neg (by omega), if_neg (by omega),
      ih fun q hq => h q (List.mem_cons_of_mem _ hq)]
    rfl

theorem draftToAssignMap_append (l1 l2 : List (Nat × Option Nat)) :
    draftToAssignMap (l1 ++ l2) = draftToAssignMap l1 ++ draftToAssignMap l2 := by
  unfold draftToAssignMap
  rw [List.filterMap_append]

theorem draftToAssignMap_keys :
    ∀ (l : List (Nat × Option Nat)), (∀ p ∈ l, ¬ p.2 = none) →
      (draftToAssignMap l).map Prod.fst = l.map Prod.fst := by
  intro l
  induction l with
  | nil =>
    intro _
    rfl
  | cons p ps ih =>
    intro h
    obtain ⟨d, ov⟩ := p
    cases ov with
    | none => exact absurd rfl (h (d, none) (List.mem_cons_self _ _))
    | some v =>
      show ((d, v) :: draftToAssignMap ps).map Prod.fst = d :: ps.map Prod.fst
      rw [List.map_cons, ih fun q hq => h q (List.mem_cons_of_mem _ hq)]

theorem range'_one_concat (n : Nat) :
    List.range' 1 (n + 1) = List.range' 1 n ++ [n + 1] := by
  have h : ∀ (m s : Nat), List.range' s (m + 1) = List.range' s m ++ [s + m] := by
    intro m
    induction m with
    | zero =>
      intro s
      simp [List.range']
    | succ m ih =>
      intro s
      rw [List.range'_succ, ih (s + 1), List.range'_succ]
      simp [List.cons_append]
      omega
  rw [h n 1]
  simp [Nat.add_comm]

theorem aget_none_of_keys_le (m : AssignMap) (n : Nat)
    (hle : ∀ p ∈ m, p.1 ≤ n) : aget m (n + 1) = none := by
  cases hg : aget m (n + 1) with
  | none => rfl
  | some v =>
    have := hle (n + 1, v) (mem_of_aget _ _ _ hg)
    omega

theorem draftDay_step (ctx : SolveCtx) (stream : Nat → Frac)
    (hwf : wfInput ctx.input) (n : Nat) (hn : n + 1 ≤ ctx.days)
    (d : DraftState) (rc : Nat)
    (hInv : InvB ctx.input d.state)
    (hkeys : d.assignments.map Prod.fst = List.range' 1 n)
    (hcorr : d.state.assignments = draftToAssignMap d.assignments)
    (hle : ∀ p ∈ d.state.assignments, p.1 ≤ n) :
    InvB ctx.input (draftDay ctx stream d (n + 1) rc).1.state ∧
    ((draftDay ctx stream d (n + 1) rc).1.assignments.map Prod.fst =
      List.range' 1 (n + 1)) ∧
    ((draftDay ctx stream d (n + 1) rc).1.state.assignments =
      draftToAssignMap (draftDay ctx stream d (n + 1) rc).1.assignments) ∧
    (∀ p ∈ (draftDay ctx stream d (n + 1) rc).1.state.assignments,
      p.1 ≤ n + 1) := by
  have hget : aget d.state.assignments (n + 1) = none :=
    aget_none_of_keys_le _ _ hle
  have hdays : n + 1 ≤ daysInMonth ctx.input.year ctx.input.month := hn
  have happly : ∀ (doc : Doctor), doc ∈ ctx.input.doctors →
      (∀ L, ctx.input.locks (n + 1) = some L → doc.id = L) →
      ¬ preferenceAt ctx.input doc.id (n + 1) = 1 →
      ((n + 1 : Nat) = 1 → ¬ hasCrossMonthRestBlock doc.id ctx.input.prevLastDoctorId = true) →
      (isLeadershipDoctor doc = true →
        isWeekendServiceDay ctx.input.year ctx.input.month ((n + 1 : Nat) : Int) = false) →
      (isCertifiedDoctor doc = false →
        isTuesdayOrThursday ctx.input.year ctx.input.month ((n + 1 : Nat) : Int) = false) →
      ¬ aget d.state.assignments (n + 1 - 1) = some doc.id →
      ¬ aget d.state.assignments (n + 1 + 1) = some doc.id →
      (∀ k, weekendBlockKey ctx.input.year ctx.input.month ((n + 1 : Nat) : Int) = some k →
        d.state.weekendBlocksByDoctor doc.id k = 0 →
        d.state.weekendBlockTotals doc.id < 2) →
      InvB ctx.input (applyAssignment d.state ctx.input.year ctx.input.month
        (n + 1) doc.id) ∧
      (applyAssignment d.state ctx.input.year ctx.input.month (n + 1)
        doc.id).assignments =
        draftToAssignMap (d.assignments ++ [(n + 1, some doc.id)]) ∧
      (∀ p ∈ (applyAssignment d.state ctx.input.year ctx.input.month (n + 1)
        doc.id).assignments, p.1 ≤ n + 1) := by
    intro doc hdoc hlock hpref hcross hlead hcert hprev hnext hblock
    refine ⟨InvB_apply ctx.input d.state (n + 1) doc hwf hdoc hInv (by omega)
      hdays hget hlock hpref hcross hlead hcert hprev hnext hblock, ?_, ?_⟩
    · rw [apply_assignments, aset_append_of_lt _ _ _ (fun p hp => by
        have := hle p hp
        omega), hcorr, draftToAssignMap_append]
      rfl
    · intro p hp
      rw [apply_assignments] at hp
      rcases mem_aset _ _ _ _ hp with h2 | h2
      · rw [h2]
      · have := hle p h2
        omega
  have hkeys2 : ∀ (ov : Option Nat),
      (d.assignments ++ [(n + 1, ov)]).map Prod.fst = List.range' 1 (n + 1) := by
    intro ov
    rw [List.map_append, hkeys, range'_one_concat]
    rfl
  rw [draftDay]
  simp only []
  split
  · rename_i hlen
    cases hdisc : sortCmp (fun a b => a.order - b.order)
      (ctx.input.doctors.filter fun doc =>
        isBaseHardAllowedForDiscussion ctx.input (n + 1) doc d.state) with
    | nil =>
      simp only [List.map_nil]
      refine ⟨hInv, ?_, ?_, ?_⟩
      · exact hkeys2 none
      · rw [draftToAssignMap_append, hcorr]
        have hz : draftToAssignMap [(n + 1, (none : Option Nat))] = [] := rfl
        rw [hz, List.append_nil]
      · intro p hp
        have := hle p hp
        omega
    | cons doc rest =>
      simp only [List.map_cons]
      have hdocmem : doc ∈ ctx.input.doctors.filter fun doc =>
          isBaseHardAllowedForDiscussion ctx.input (n + 1) doc d.state :=
        (sortCmp_perm _ _).mem_iff.1
          (by rw [hdisc]; exact List.mem_cons_self _ _)
      have hdoc : doc ∈ ctx.input.doctors := (List.mem_filter.1 hdocmem).1
      have hbase : isBaseHardAllowedForDiscussion ctx.input (n + 1) doc
          d.state = true := by
        have := (List.mem_filter.1 hdocmem).2
        simpa using this
      obtain ⟨hlock, htail⟩ := isBaseHardAllowed_parts _ _ _ _ hbase
      obtain ⟨hpref, hcross, hlead, hcert, hprev, hnext, hblock⟩ :=
        isBaseTail_parts _ _ _ _ htail
      obtain ⟨g1, g2, g3⟩ := happly doc hdoc hlock hpref hcross hlead hcert
        hprev hnext hblock
      exact ⟨g1, hkeys2 (some doc.id), g2, g3⟩
  · rename_i hlen
    cases hsorted : (sortRng (draftCmpRng ctx.input ctx.targets stream (n + 1)
        d.state) (ctx.input.doctors.filter fun doc =>
          isHardAllowed ctx (n + 1) doc d.state) rc).1 with
    | nil =>
      have := sortRng_length (draftCmpRng ctx.input ctx.targets stream (n + 1)
        d.state) (ctx.input.doctors.filter fun doc =>
          isHardAllowed ctx (n + 1) doc d.state) rc
      rw [hsorted] at this
      exact absurd this.symm hlen
    | cons chosen rest =>
      simp only []
      have hmem : chosen ∈ ctx.input.doctors.filter fun doc =>
          isHardAllowed ctx (n + 1) doc d.state :=
        sortRng_mem _ _ _ _ (by rw [hsorted]; exact List.mem_cons_self _ _)
      have hdoc : chosen ∈ ctx.input.doctors := (List.mem_filter.1 hmem).1
      have hha : isHardAllowed ctx (n + 1) chosen d.state = true := by
        have := (List.mem_filter.1 hmem).2
        simpa using this
      obtain ⟨hlock, htail⟩ := isHardAllowed_parts _ _ _ _ hha
      obtain ⟨hpref, hcross, hlead, hcert, hcap, hprev, hnext, hblock⟩ :=
        isHardAllowedTail_parts _ _ _ _ htail
      obtain ⟨g1, g2, g3⟩ := happly chosen hdoc hlock hpref hcross hlead hcert
        hprev hnext hblock
      exact ⟨g1, hkeys2 (some chosen.id), g2, g3⟩

theorem draftLoop_spec (ctx : SolveCtx) (stream : Nat → Frac) (rc0 : Nat)
    (hwf : wfInput ctx.input) :
    ∀ n, n ≤ ctx.days →
      InvB ctx.input
        (draftLoop ctx stream n (draftInit ctx.input.doctors, rc0)).1.state ∧
      ((draftLoop ctx stream n
        (draftInit ctx.input.doctors, rc0)).1.assignments.map Prod.fst =
          List.range' 1 n) ∧
      ((draftLoop ctx stream n (draftInit ctx.input.doctors, rc0)).1.state.assignments =
        draftToAssignMap (draftLoop ctx stream n
          (draftInit ctx.input.doctors, rc0)).1.assignments) ∧
      (∀ p ∈ (draftLoop ctx stream n
        (draftInit ctx.input.doctors, rc0)).1.state.assignments, p.1 ≤ n) := by
  intro n
  induction n with
  | zero =>
    intro _
    refine ⟨(Inv_initial ctx.input (fun _ => 0) fun _ => Int.le_refl 0).toInvB,
      rfl, rfl, ?_⟩
    intro p hp
    exact absurd hp (List.not_mem_nil p)
  | succ n ih =>
    intro hn
    obtain ⟨ihInv, ihkeys, ihcorr, ihle⟩ := ih (by omega)
    rw [draftLoop]
    exact draftDay_step ctx stream hwf n hn _ _ ihInv ihkeys ihcorr ihle

/-! ## Claim C8: the soft score formula -/

/-- C8: the soft score equals the claimed flat sum — −250 for want, +50 for
avoid, +12·|next running count − target|, +18 before an ambulance day —
except for the neighbor term, which the code adds per side: day−2 and day+2
each contribute +10, so both neighbors firing give +20 where the claim's
single disjunction-gated term gives +10. -/
theorem C8_score_formula (day : Nat) (doctor : Doctor) (s : SolveState)
    (input : ScheduleInput) (targets : Nat → Int) :
    scoreCandidate day doctor s input targets =
      specScoreAmended day doctor s input targets := by
  simp only [scoreCandidate, specScoreAmended]
  split_ifs <;> omega

/-- C8: counterexample to the claim's single +10 neighbor term: a worker
serving both day 1 and day 5, scored for day 3, gets +20 from the two
neighbor checks (code score 32) while the claim's formula gives 22. -/
theorem C8_counterexample :
    ¬ scoreCandidate 3 (mkRegular 8 1 "A") stateBothNeighbors inputNoSeed
        (fun _ => 2) =
      specScoreClaim 3 (mkRegular 8 1 "A") stateBothNeighbors inputNoSeed
        (fun _ => 2) := by
  decide

/-! ## Claim C2: determinism -/

/-- C2: determinism holds for seeded requests: with a (nonempty) seed the
rng stream is derived from the seed alone, so the result is a pure function
of the request and the external `Math.random` entropy is irrelevant.  (For
unseeded requests the claim fails; see the counterexample.) -/
theorem C2_seeded_deterministic (input : ScheduleInput) (ext1 ext2 : Nat → Frac)
    (h : seedMissing input = false) :
    generateSchedule input ext1 = generateSchedule input ext2 := by
  unfold generateSchedule
  have he : effStream input ext1 = effStream input ext2 := by
    unfold effStream
    cases hs : input.seed with
    | none =>
      exfalso
      unfold seedMissing at h
      rw [hs] at h
      exact Bool.noConfusion h
    | some s =>
      have hne : ¬ s = "" := by
        intro hh
        unfold seedMissing at h
        rw [hs, hh] at h
        simp at h
      show (if s = "" then ext1 else seededStream s) =
        if s = "" then ext2 else seededStream s
      rw [if_neg hne, if_neg hne]
  rw [he]

/-- C2: witness: a seeded request gives the same result under two different
external entropy streams. -/
theorem C2_seeded_deterministic_witness :
    seedMissing inputSeeded = false ∧
      generateSchedule inputSeeded extZero = generateSchedule inputSeeded extHalf :=
  ⟨by decide, C2_seeded_deterministic inputSeeded extZero extHalf (by decide)⟩

set_option maxRecDepth 100000 in
/-- C2: counterexample to unseeded determinism: the identical request
without a seed yields different results under two external `Math.random`
entropy streams, so the unseeded run is not a function of the request
alone. -/
theorem C2_counterexample :
    ¬ generateSchedule inputNoSeed extZero = generateSchedule inputNoSeed extHalf := by
  decide

/-! ## Claim C5: the strict sum pre-check and the relaxed fallback -/

/-- C5: on a request whose sanitized targets do not sum to the number of
days in the month, the strict pass fails in place — no search, no rng draw,
the counter returned unchanged with the sum-of-targets reason — and,
provided the lock validator reports no issues (a gate the claim omits: see
the counterexample), the orchestrator continues exactly as the relaxed
pipeline on the same stream. -/
theorem C5_sum_mismatch_relaxed (input : ScheduleInput) (stream : Nat → Frac)
    (rc : Nat)
    (hsum : ¬ (input.doctors.map fun d => sanitizeTargets input d.id).sum =
      ((daysInMonth input.year input.month : Nat) : Int))
    (hlocks : validateLocks input (initialCaps input) (sanitizeTargets input)
      (computeWantedDoctorsByDay input) = []) :
    solveWithCaps input (initialCaps input) (sanitizeTargets input)
      (computeWantedDoctorsByDay input) stream true rc =
        (SolveRes.err msgTargetSum, rc) ∧
    generateScheduleCore input stream =
      generateScheduleFromRelaxedCore input stream := by
  have h1 : ∀ rc', solveWithCaps input (initialCaps input) (sanitizeTargets input)
      (computeWantedDoctorsByDay input) stream true rc' =
        (SolveRes.err msgTargetSum, rc') := by
    intro rc'
    simp only [solveWithCaps]
    rw [if_pos ⟨trivial, hsum⟩]
  refine ⟨h1 rc, ?_⟩
  simp only [generateScheduleCore, generateScheduleFromRelaxedCore]
  rw [if_neg (fun hc => hc hlocks), h1 0]

/-- C5: witness: the two-doctor request's targets sum to 0 ≠ 28, its lock
validator is clean, the strict pass fails in place with the sum reason and
the orchestrator equals the relaxed pipeline. -/
theorem C5_sum_mismatch_relaxed_witness :
    (¬ (inputNoSeed.doctors.map fun d => sanitizeTargets inputNoSeed d.id).sum =
      ((daysInMonth inputNoSeed.year inputNoSeed.month : Nat) : Int)) ∧
    validateLocks inputNoSeed (initialCaps inputNoSeed)
      (sanitizeTargets inputNoSeed) (computeWantedDoctorsByDay inputNoSeed) = [] ∧
    (solveWithCaps inputNoSeed (initialCaps inputNoSeed)
      (sanitizeTargets inputNoSeed) (computeWantedDoctorsByDay inputNoSeed)
      extZero true 0 = (SolveRes.err msgTargetSum, 0) ∧
     generateScheduleCore inputNoSeed extZero =
       generateScheduleFromRelaxedCore inputNoSeed extZero) :=
  ⟨by decide, by decide,
    C5_sum_mismatch_relaxed inputNoSeed extZero 0 (by decide) (by decide)⟩

set_option maxRecDepth 100000 in
/-- C5: counterexample to the unconditional claim: this request's targets
sum to 0 ≠ 28, yet the orchestrator aborts on a lock-validation issue and
never attempts the relaxed pass — its result differs from the relaxed
pipeline's. -/
theorem C5_counterexample :
    (¬ (inputLockCannot.doctors.map fun d =>
        sanitizeTargets inputLockCannot d.id).sum =
      ((daysInMonth inputLockCannot.year inputLockCannot.month : Nat) : Int)) ∧
    ¬ generateScheduleCore inputLockCannot extZero =
        generateScheduleFromRelaxedCore inputLockCannot extZero := by
  constructor
  · decide
  · decide

/-! ## Claim C6: lock-validation failures abort the run -/

/-- A day locked to a worker whose preference there is cannot contributes
the cannot-conflict message to that day's issue list, whatever the running
lock counts. -/
theorem lockDay_cannot_mem (input : ScheduleInput) (targets : Nat → Int)
    (wanted : Nat → List Nat) (cb : Nat → Int) (day L : Nat) (doctor : Doctor)
    (hlock : lockedDoctor input day = some L)
    (hfind : input.doctors.find? (fun d => d.id = L) = some doctor)
    (hpref : preferenceAt input L day = 1) :
    msgCannotConflict day doctor.name ∈
      (validateLockDay input targets wanted cb day).1 := by
  simp only [validateLockDay, hlock, hfind]
  rw [if_pos hpref]
  exact List.mem_append_left _ (List.mem_append_left _ (List.mem_append_left _
    (List.mem_append_left _ (List.mem_append_right _
      (List.mem_singleton.2 rfl)))))

/-- An issue contributed by a locked day (1-based, within the walked
range) is in the walk's accumulated issue list. -/
theorem walk_mem_of_day (input : ScheduleInput) (targets : Nat → Int)
    (wanted : Nat → List Nat) (msg : String) (day : Nat)
    (hmsg : ∀ cb, msg ∈ (validateLockDay input targets wanted cb day).1) :
    ∀ n, 1 ≤ day → day ≤ n →
      msg ∈ (validateLocksWalk input targets wanted n).1 := by
  intro n
  induction n with
  | zero =>
    intro h1 h2
    omega
  | succ n ih =>
    intro h1 h2
    unfold validateLocksWalk
    rcases Nat.lt_or_ge day (n + 1) with hlt | hge
    · exact List.mem_append.2 (Or.inl (ih h1 (by omega)))
    · have hd : day = n + 1 := by omega
      subst hd
      exact List.mem_append.2 (Or.inr (hmsg _))

/-- C6: a request on which the lock validator accumulates at least one
issue fails immediately: the result is the failure carrying exactly the
accumulated issue list, with no stats, no relaxation record and no draft
(neither solver pass nor the proposal builder contributes anything); in
particular, locking a worker on a day where that worker's preference is
cannot yields such an immediate failure whose list contains the message
naming that day and worker. -/
theorem C6_validator_abort (input : ScheduleInput) (stream : Nat → Frac) :
    (¬ validateLocks input (initialCaps input) (sanitizeTargets input)
        (computeWantedDoctorsByDay input) = [] →
      generateScheduleCore input stream =
        ScheduleResult.failure (validateLocks input (initialCaps input)
          (sanitizeTargets input) (computeWantedDoctorsByDay input)) [] none) ∧
    (∀ day L doctor, lockedDoctor input day = some L →
      input.doctors.find? (fun d => d.id = L) = some doctor →
      preferenceAt input L day = 1 → 1 ≤ day →
      day ≤ daysInMonth input.year input.month →
      msgCannotConflict day doctor.name ∈ validateLocks input (initialCaps input)
        (sanitizeTargets input) (computeWantedDoctorsByDay input) ∧
      generateScheduleCore input stream =
        ScheduleResult.failure (validateLocks input (initialCaps input)
          (sanitizeTargets input) (computeWantedDoctorsByDay input)) [] none) := by
  have habort : ¬ validateLocks input (initialCaps input) (sanitizeTargets input)
      (computeWantedDoctorsByDay input) = [] →
      generateScheduleCore input stream =
        ScheduleResult.failure (validateLocks input (initialCaps input)
          (sanitizeTargets input) (computeWantedDoctorsByDay input)) [] none := by
    intro h
    simp only [generateScheduleCore]
    rw [if_pos h]
  refine ⟨habort, ?_⟩
  intro day L doctor hlock hfind hpref h1 h2
  have hmem : msgCannotConflict day doctor.name ∈ validateLocks input
      (initialCaps input) (sanitizeTargets input)
      (computeWantedDoctorsByDay input) := by
    unfold validateLocks
    refine List.mem_append.2 (Or.inl ?_)
    exact walk_mem_of_day input (sanitizeTargets input)
      (computeWantedDoctorsByDay input) (msgCannotConflict day doctor.name) day
      (fun cb => lockDay_cannot_mem input (sanitizeTargets input)
        (computeWantedDoctorsByDay input) cb day L doctor hlock hfind hpref)
      (daysInMonth input.year input.month) h1 h2
  exact ⟨hmem, habort (List.ne_nil_of_mem hmem)⟩

/-- C6: witness: the request locking worker 8 on day 1 against a cannot
preference aborts with the cannot-conflict message for day 1 in its issue
list. -/
theorem C6_validator_abort_witness :
    msgCannotConflict 1 "A" ∈ validateLocks inputLockCannot
      (initialCaps inputLockCannot) (sanitizeTargets inputLockCannot)
      (computeWantedDoctorsByDay inputLockCannot) ∧
    generateScheduleCore inputLockCannot extZero =
      ScheduleResult.failure (validateLocks inputLockCannot
        (initialCaps inputLockCannot) (sanitizeTargets inputLockCannot)
        (computeWantedDoctorsByDay inputLockCannot)) [] none :=
  (C6_validator_abort inputLockCannot extZero).2 1 8 (mkRegular 8 1 "A")
    (by decide) (by decide) (by decide) (by decide) (by decide)

/-! ## Claims C1 and C3: properties of every success result -/

theorem buildByDoctor_nonneg (f : Doctor → Int) (hf : ∀ d, 0 ≤ f d) :
    ∀ (l : List Doctor) (m : Nat → Int), (∀ i, 0 ≤ m i) →
      ∀ i, 0 ≤ (l.foldl (fun m d => fun i => if i = d.id then f d else m i) m) i := by
  intro l
  induction l with
  | nil =>
    intro m hm i
    exact hm i
  | cons d ds ih =>
    intro m hm i
    refine ih _ ?_ i
    intro j
    show 0 ≤ if j = d.id then f d else m j
    by_cases hj : j = d.id
    · rw [if_pos hj]
      exact hf d
    · rw [if_neg hj]
      exact hm j

/-- Caps are never negative: 1 for lead-primary, 2 for lead-deputy, a
clamped `max 0` otherwise, and 0 for unknown ids. -/
theorem initialCaps_nonneg (input : ScheduleInput) (id : Nat) :
    0 ≤ initialCaps input id := by
  unfold initialCaps buildByDoctor
  refine buildByDoctor_nonneg _ ?_ input.doctors (fun _ => 0) (fun _ => le_refl 0) id
  intro d
  cases d.role with
  | primar => exact Int.le.intro 1 rfl
  | zastupce => exact Int.le.intro 2 rfl
  | regular => exact le_max_left 0 _

/-- Distinct ids identify doctors. -/
theorem doctor_eq_of_id (input : ScheduleInput) (hwf : wfInput input)
    (d1 d2 : Doctor) (h1 : d1 ∈ input.doctors) (h2 : d2 ∈ input.doctors)
    (hid : d1.id = d2.id) : d1 = d2 :=
  List.inj_on_of_nodup_map hwf.1 h1 h2 hid

/-- Every success result of the orchestrator — strict pass, relaxed pass or
the all-days-filled draft — is a sorted full-month map whose bindings all
satisfy the hard per-binding facts, with no consecutive repeat and at most
2 distinct weekend blocks per worker. -/
theorem genCore_success_props (input : ScheduleInput) (stream : Nat → Frac)
    (hwf : wfInput input)
    (hok : resultOk (generateScheduleCore input stream) = true) :
    KeysSorted (resultAssignments (generateScheduleCore input stream)) ∧
    (resultAssignments (generateScheduleCore input stream)).length =
      daysInMonth input.year input.month ∧
    (∀ p ∈ resultAssignments (generateScheduleCore input stream),
      1 ≤ p.1 ∧ p.1 ≤ daysInMonth input.year input.month) ∧
    (∀ p ∈ resultAssignments (generateScheduleCore input stream),
      BindOK input p.1 p.2) ∧
    noConsecutive (resultAssignments (generateScheduleCore input stream)) ∧
    (∀ id, (blocksOf input
      (resultAssignments (generateScheduleCore input stream)) id).length ≤ 2) := by
  revert hok
  simp only [generateScheduleCore]
  by_cases hv : validateLocks input (initialCaps input) (sanitizeTargets input)
      (computeWantedDoctorsByDay input) = []
  · rw [if_neg (fun hc => hc hv)]
    cases hstrict : solveWithCaps input (initialCaps input) (sanitizeTargets input)
        (computeWantedDoctorsByDay input) stream true 0 with
    | mk r1 rc1 =>
      cases r1 with
      | ok a =>
        intro _
        simp only [resultOk, resultAssignments]
        obtain ⟨hs, hl, hr, hb, hadj, hle2, _⟩ := solveWithCaps_ok input
          (initialCaps input) (sanitizeTargets input)
          (computeWantedDoctorsByDay input) stream true 0 a rc1 hwf
          (fun i => initialCaps_nonneg input i) hstrict
        exact ⟨hs, hl, hr, hb, hadj, hle2⟩
      | err r1e =>
        simp only []
        cases hrel : solveWithCaps input (initialCaps input) (sanitizeTargets input)
            (computeWantedDoctorsByDay input) stream false rc1 with
        | mk r2 rc2 =>
          cases r2 with
          | ok a =>
            intro _
            simp only [resultOk, resultAssignments]
            obtain ⟨hs, hl, hr, hb, hadj, hle2, _⟩ := solveWithCaps_ok input
              (initialCaps input) (sanitizeTargets input)
              (computeWantedDoctorsByDay input) stream false rc1 a rc2 hwf
              (fun i => initialCaps_nonneg input i) hrel
            exact ⟨hs, hl, hr, hb, hadj, hle2⟩
          | err r2e =>
            simp only []
            intro hok
            split at hok
            · rename_i hall
              have hbd : (buildDraftProposal input (initialCaps input)
                  (sanitizeTargets input) (computeWantedDoctorsByDay input)
                  stream rc2).1.assignments =
                (draftLoop
                  { input := input, caps := initialCaps input
                    targets := sanitizeTargets input
                    wanted := computeWantedDoctorsByDay input
                    strictTargets := false } stream
                  (daysInMonth input.year input.month)
                  (draftInit input.doctors, rc2)).1.assignments := rfl
              obtain ⟨hInv, hkeys, hcorr, _⟩ := draftLoop_spec
                { input := input, caps := initialCaps input
                  targets := sanitizeTargets input
                  wanted := computeWantedDoctorsByDay input
                  strictTargets := false } stream rc2 hwf
                (daysInMonth input.year input.month) (le_refl _)
              rw [hbd] at hall ⊢
              rw [if_pos hall]
              simp only [resultAssignments]
              have hnone : ∀ p ∈ (draftLoop
                  { input := input, caps := initialCaps input
                    targets := sanitizeTargets input
                    wanted := computeWantedDoctorsByDay input
                    strictTargets := false } stream
                  (daysInMonth input.year input.month)
                  (draftInit input.doctors, rc2)).1.assignments,
                  ¬ p.2 = none := by
                intro p hp
                exact of_decide_eq_true (List.all_eq_true.1 hall p hp)
              have hkm := draftToAssignMap_keys _ hnone
              obtain ⟨hs, hrange, hbinds, hadj, _, _, _, hle2⟩ := hInv
              rw [hcorr] at hs hrange hbinds hadj hle2
              refine ⟨hs, ?_, hrange, hbinds, hadj, hle2⟩
              have h1 : ((draftToAssignMap ((draftLoop
                  { input := input, caps := initialCaps input
                    targets := sanitizeTargets input
                    wanted := computeWantedDoctorsByDay input
                    strictTargets := false } stream
                  (daysInMonth input.year input.month)
                  (draftInit input.doctors, rc2)).1.assignments)).map
                    Prod.fst).length =
                  (List.range' 1 (daysInMonth input.year input.month)).length := by
                rw [hkm, hkeys]
              rw [List.length_map, List.length_range'] at h1
              exact h1
            · simp only [resultOk] at hok
              exact absurd hok (by simp)
  · rw [if_pos hv]
    intro hok
    simp only [resultOk] at hok
    exact absurd hok (by simp)

/-- C1: every success result of the orchestrator assigns each day 1..N of
the month exactly once, on all three success paths including the
draft-prefill success; the per-worker cap bound holds for every successful
solver pass (strict or relaxed) — but not on the draft-prefill path, where
the claim fails (see the counterexample). -/
theorem C1_success_coverage (input : ScheduleInput) (stream : Nat → Frac)
    (hwf : wfInput input) :
    (resultOk (generateScheduleCore input stream) = true →
      assignsEachDayOnce input
        (resultAssignments (generateScheduleCore input stream))) ∧
    (∀ targets wanted strict rc a rc2,
      solveWithCaps input (initialCaps input) targets wanted stream strict rc =
        (SolveRes.ok a, rc2) → respectsCaps input a) := by
  constructor
  · intro hok
    obtain ⟨hs, hl, hr, _, _, _⟩ := genCore_success_props input stream hwf hok
    exact keys_eq_range input _ hs hr hl
  · intro targets wanted strict rc a rc2 h
    obtain ⟨_, _, _, _, _, _, hcap⟩ := solveWithCaps_ok input (initialCaps input)
      targets wanted stream strict rc a rc2 hwf
      (fun i => initialCaps_nonneg input i) h
    intro doc _
    exact hcap doc.id

/-- C1: witness: the fully-locked request succeeds and its success
assignment covers each of the 28 days exactly once. -/
theorem C1_success_coverage_witness :
    wfInput inputLocked ∧
    assignsEachDayOnce inputLocked
      (resultAssignments (generateScheduleCore inputLocked extZero)) :=
  ⟨by unfold wfInput; decide,
    (C1_success_coverage inputLocked extZero (by unfold wfInput; decide)).1
      (by decide)⟩

set_option maxRecDepth 100000 in
/-- C1: counterexample to the cap bound on the draft-prefill success path:
with every cap 0 both solver passes fail, the discussion-safe prefill fills
all 28 days, the result is reported as success, and worker 21 holds 10
shifts against a cap of 0. -/
theorem C1_counterexample :
    resultOk (generateScheduleCore inputZeroCaps extZero) = true ∧
    ¬ respectsCaps inputZeroCaps
        (resultAssignments (generateScheduleCore inputZeroCaps extZero)) := by
  constructor
  · decide
  · intro h
    exact absurd (h (mkRegular 21 1 "C") (by decide)) (by decide)

/-- C3: every success result obeys the hard rules: no worker serves two
consecutive days, lead-primary/lead-deputy workers never serve a
Friday/Saturday/Sunday service day, non-certified workers never serve
Tuesday or Thursday, the previous-month boundary worker never serves day 1,
and no worker touches more than 2 distinct weekend blocks. -/
theorem C3_success_hard_rules (input : ScheduleInput) (stream : Nat → Frac)
    (hwf : wfInput input)
    (hok : resultOk (generateScheduleCore input stream) = true) :
    noConsecutive (resultAssignments (generateScheduleCore input stream)) ∧
    leadershipOffWeekends input
      (resultAssignments (generateScheduleCore input stream)) ∧
    certifiedTueThu input (resultAssignments (generateScheduleCore input stream)) ∧
    boundaryRest input (resultAssignments (generateScheduleCore input stream)) ∧
    blocksAtMost2 input (resultAssignments (generateScheduleCore input stream)) := by
  obtain ⟨hs, hl, hr, hb, hadj, hle2⟩ := genCore_success_props input stream hwf hok
  refine ⟨hadj, ?_, ?_, ?_, hle2⟩
  · intro doc hdoc hlead d hget
    obtain ⟨doc2, hdoc2, hid, _, _, _, hleadW, _⟩ :=
      hb (d, doc.id) (mem_of_aget _ _ _ hget)
    rw [doctor_eq_of_id input hwf doc2 doc hdoc2 hdoc hid] at hleadW
    exact hleadW hlead
  · intro doc hdoc hcert d hget
    obtain ⟨doc2, hdoc2, hid, _, _, _, _, hcertW⟩ :=
      hb (d, doc.id) (mem_of_aget _ _ _ hget)
    rw [doctor_eq_of_id input hwf doc2 doc hdoc2 hdoc hid] at hcertW
    exact hcertW hcert
  · intro v hget
    obtain ⟨doc2, hdoc2, hid, _, _, hcross, _, _⟩ :=
      hb (1, v) (mem_of_aget _ _ _ hget)
    have h2 := hcross rfl
    simp only [hasCrossMonthRestBlock, decide_eq_true_eq] at h2
    exact h2

/-- C3: witness: the fully-locked request's success result obeys all five
hard rules. -/
theorem C3_success_hard_rules_witness :
    noConsecutive (resultAssignments (generateScheduleCore inputLocked extZero)) ∧
    leadershipOffWeekends inputLocked
      (resultAssignments (generateScheduleCore inputLocked extZero)) ∧
    certifiedTueThu inputLocked
      (resultAssignments (generateScheduleCore inputLocked extZero)) ∧
    boundaryRest inputLocked
      (resultAssignments (generateScheduleCore inputLocked extZero)) ∧
    blocksAtMost2 inputLocked
      (resultAssignments (generateScheduleCore inputLocked extZero)) :=
  C3_success_hard_rules inputLocked extZero (by unfold wfInput; decide) (by decide)

/-! ## Claim C7: the forced want worker -/

/-- `find?` returns the first satisfying element: the list splits at the
result, with every earlier element failing the test. -/
theorem find?_first (p : α → Bool) :
    ∀ (l : List α) (a : α), l.find? p = some a →
      ∃ l1 l2, l = l1 ++ a :: l2 ∧ p a = true ∧ ∀ x ∈ l1, p x = false := by
  intro l
  induction l with
  | nil =>
    intro a h
    exact absurd h (by simp)
  | cons x xs ih =>
    intro a h
    by_cases hp : p x = true
    · rw [List.find?_cons_of_pos _ hp] at h
      injection h with h
      subst h
      refine ⟨[], xs, rfl, hp, ?_⟩
      intro y hy
      cases hy
    · have hfalse : p x = false := by
        cases hpx : p x
        · rfl
        · exact absurd hpx hp
      rw [List.find?_cons_of_neg _ hp] at h
      obtain ⟨l1, l2, he, hpa, hall⟩ := ih a h
      refine ⟨x :: l1, l2, by rw [he]; rfl, hpa, ?_⟩
      intro y hy
      rcases List.mem_cons.1 hy with h1 | h1
      · rw [h1]
        exact hfalse
      · exact hall y h1

/-- Inserting into an order-sorted doctor list keeps it order-sorted. -/
theorem insertCmp_sorted_order (x : Doctor) :
    ∀ (l : List Doctor),
      List.Pairwise (fun a b : Doctor => a.order ≤ b.order) l →
      List.Pairwise (fun a b : Doctor => a.order ≤ b.order)
        (insertCmp (fun a b => a.order - b.order) x l) := by
  intro l
  induction l with
  | nil =>
    intro _
    exact List.pairwise_singleton _ _
  | cons y ys ih =>
    intro hp
    obtain ⟨hy, hys⟩ := List.pairwise_cons.1 hp
    rw [insertCmp]
    by_cases hc : x.order - y.order ≤ 0
    · rw [if_pos hc]
      refine List.pairwise_cons.2 ⟨?_, hp⟩
      intro b hb
      rcases List.mem_cons.1 hb with h1 | h1
      · rw [h1]
        omega
      · have := hy b h1
        omega
    · rw [if_neg hc]
      refine List.pairwise_cons.2 ⟨?_, ih hys⟩
      intro b hb
      have hmem := (insertCmp_perm (fun a b : Doctor => a.order - b.order) x
        ys).mem_iff.1 hb
      rcases List.mem_cons.1 hmem with h1 | h1
      · rw [h1]
        omega
      · exact hy b h1

/-- The rank sort produces an order-sorted doctor list. -/
theorem sortCmp_sorted_order :
    ∀ (l : List Doctor),
      List.Pairwise (fun a b : Doctor => a.order ≤ b.order)
        (sortCmp (fun a b => a.order - b.order) l) := by
  intro l
  induction l with
  | nil => exact List.Pairwise.nil
  | cons x xs ih =>
    rw [sortCmp]
    exact insertCmp_sorted_order x _ ih

/-- C7: the forced want worker for a day is the first entry of the day's
want list — the want-preference workers sorted ascending by rank — whose
running count is strictly below target, and is none exactly when no entry
qualifies; when a forced want worker exists, the hard predicate rejects
every other worker for that day. -/
theorem C7_forced_want_first (input : ScheduleInput) (counts targets : Nat → Int)
    (day : Nat) :
    (∀ id, forcedWantDoctorForDay day (computeWantedDoctorsByDay input) counts
        targets = some id →
      ∃ l1 l2, computeWantedDoctorsByDay input day = l1 ++ id :: l2 ∧
        counts id < targets id ∧ ∀ j ∈ l1, ¬ counts j < targets j) ∧
    (forcedWantDoctorForDay day (computeWantedDoctorsByDay input) counts
        targets = none ↔
      ∀ id ∈ computeWantedDoctorsByDay input day, ¬ counts id < targets id) ∧
    List.Pairwise (fun a b : Doctor => a.order ≤ b.order)
      (sortCmp (fun a b => a.order - b.order)
        (input.doctors.filter fun d => preferenceAt input d.id day = 3)) ∧
    (∀ (ctx : SolveCtx) (s : SolveState) (d : Nat) (doctor : Doctor) (fid : Nat),
      forcedWantDoctorForDay d ctx.wanted s.counts ctx.targets = some fid →
      ¬ doctor.id = fid → isHardAllowed ctx d doctor s = false) := by
  refine ⟨?_, ?_, sortCmp_sorted_order _, ?_⟩
  · intro id h
    rw [forcedWantDoctorForDay] at h
    obtain ⟨l1, l2, he, hpa, hall⟩ := find?_first _ _ _ h
    refine ⟨l1, l2, he, of_decide_eq_true hpa, ?_⟩
    intro j hj
    exact of_decide_eq_false (hall j hj)
  · rw [forcedWantDoctorForDay, List.find?_eq_none]
    constructor
    · intro h id hid
      simpa using h id hid
    · intro h id hid
      simpa using h id hid
  · intro ctx s d doctor fid hf hne
    unfold isHardAllowed
    rw [hf]
    exact if_pos (fun he => hne he.symm)

/-- C7: witness: over `inputWant` with every target 1, both wanters of
day 5 are below target, the forced want worker is the first-ranked wanter
(id 8), and the other wanter (id 11) is not hard-eligible for day 5. -/
theorem C7_forced_want_first_witness :
    forcedWantDoctorForDay 5 ctxWant.wanted
        (createInitialState inputWant.doctors).counts ctxWant.targets = some 8 ∧
    isHardAllowed ctxWant 5 (mkRegular 11 2 "B")
      (createInitialState inputWant.doctors) = false :=
  ⟨by decide,
    (C7_forced_want_first inputWant (createInitialState inputWant.doctors).counts
        ctxWant.targets 5).2.2.2 ctxWant (createInitialState inputWant.doctors) 5
      (mkRegular 11 2 "B") 8 (by decide) (by decide)⟩

/-! ## Claim C4: fully-locked, validator-clean requests -/

theorem aget_append (m1 m2 : AssignMap) (d : Nat) :
    aget (m1 ++ m2) d =
      match aget m1 d with
      | some v => some v
      | none => aget m2 d := by
  induction m1 with
  | nil => rfl
  | cons p ps ih =>
    rw [List.cons_append, aget, aget]
    by_cases hp : p.1 = d
    · rw [if_pos hp, if_pos hp]
    · rw [if_neg hp, if_neg hp]
      exact ih

theorem lockListUpTo_keys_le (input : ScheduleInput) :
    ∀ n, ∀ p ∈ lockListUpTo input n, 1 ≤ p.1 ∧ p.1 ≤ n := by
  intro n
  induction n with
  | zero =>
    intro p hp
    cases hp
  | succ n ih =>
    intro p hp
    rw [lockListUpTo] at hp
    cases hL : input.locks (n + 1) with
    | some L =>
      rw [hL] at hp
      rcases List.mem_append.1 hp with h | h
      · have := ih p h
        omega
      · rcases List.mem_singleton.1 h with h2
        rw [h2]
        omega
    | none =>
      rw [hL] at hp
      have := ih p hp
      omega

theorem lockListUpTo_sorted (input : ScheduleInput) :
    ∀ n, KeysSorted (lockListUpTo input n) := by
  intro n
  induction n with
  | zero => exact List.Pairwise.nil
  | succ n ih =>
    rw [lockListUpTo]
    cases hL : input.locks (n + 1) with
    | some L =>
      refine List.pairwise_append.2 ⟨ih, List.pairwise_singleton _ _, ?_⟩
      intro p hp q hq
      rw [List.mem_singleton.1 hq]
      have := lockListUpTo_keys_le input n p hp
      show p.1 < n + 1
      omega
    | none => exact ih

theorem aget_lockListUpTo (input : ScheduleInput) :
    ∀ n d, aget (lockListUpTo input n) d =
      if 1 ≤ d ∧ d ≤ n then input.locks d else none := by
  intro n
  induction n with
  | zero =>
    intro d
    rw [if_neg (by omega)]
    rfl
  | succ n ih =>
    intro d
    rw [lockListUpTo]
    cases hL : input.locks (n + 1) with
    | some L =>
      rw [aget_append, ih d]
      by_cases h1 : 1 ≤ d ∧ d ≤ n
      · rw [if_pos h1]
        cases hd : input.locks d with
        | some v =>
          rw [if_pos (by omega)]
        | none =>
          rw [if_pos (by omega)]
          show aget [(n + 1, L)] d = none
          rw [aget_cons,
            if_neg (show ¬ (n + 1, L).1 = d by show ¬ n + 1 = d; omega)]
          rfl
      · rw [if_neg h1]
        by_cases h2 : d = n + 1
        · show aget [(n + 1, L)] d =
            if 1 ≤ d ∧ d ≤ n + 1 then input.locks d else none
          rw [aget_cons,
            if_pos (show (n + 1, L).1 = d by show n + 1 = d; omega),
            if_pos (by omega), h2, hL]
        · show aget [(n + 1, L)] d =
            if 1 ≤ d ∧ d ≤ n + 1 then input.locks d else none
          rw [aget_cons,
            if_neg (show ¬ (n + 1, L).1 = d by show ¬ n + 1 = d; omega),
            if_neg (by omega)]
          rfl
    | none =>
      rw [ih d]
      by_cases h1 : 1 ≤ d ∧ d ≤ n
      · rw [if_pos h1, if_pos (by omega)]
      · rw [if_neg h1]
        by_cases h2 : d = n + 1
        · rw [if_pos (by omega), h2, hL]
        · rw [if_neg (by omega)]

theorem lockCountUpTo_succ (input : ScheduleInput) (id n : Nat) :
    lockCountUpTo input id (n + 1) =
      lockCountUpTo input id n +
        (if lockedDoctor input (n + 1) = some id then 1 else 0) := by
  rw [lockCountUpTo, lockCountUpTo, List.range_succ, List.filter_append,
    List.length_append]
  congr 1
  by_cases h : lockedDoctor input (n + 1) = some id
  · rw [if_pos h]
    simp [List.filter_cons, h]
  · rw [if_neg h]
    simp [List.filter_cons, h]

theorem lockCountUpTo_mono (input : ScheduleInput) (id : Nat) :
    ∀ a b, a ≤ b → lockCountUpTo input id a ≤ lockCountUpTo input id b := by
  intro a b hab
  induction b with
  | zero =>
    have : a = 0 := by omega
    rw [this]
  | succ b ih =>
    by_cases h : a = b + 1
    · rw [h]
    · have h2 := ih (by omega)
      rw [lockCountUpTo_succ]
      omega

theorem countVal_append (m1 m2 : AssignMap) (id : Nat) :
    countVal (m1 ++ m2) id = countVal m1 id + countVal m2 id := by
  rw [countVal, countVal, countVal, List.filter_append, List.length_append]

theorem countVal_lockListUpTo (input : ScheduleInput) (id : Nat) :
    ∀ n, countVal (lockListUpTo input n) id = lockCountUpTo input id n := by
  intro n
  induction n with
  | zero => rfl
  | succ n ih =>
    rw [lockListUpTo, lockCountUpTo_succ]
    cases hL : input.locks (n + 1) with
    | some L =>
      rw [countVal_append, ih]
      congr 1
      by_cases h : L = id
      · rw [if_pos (by rw [lockedDoctor, hL, h])]
        simp [countVal, List.filter_cons, h]
      · rw [if_neg (by rw [lockedDoctor, hL]; exact fun hc => h (Option.some.inj hc))]
        simp [countVal, List.filter_cons, h]
    | none =>
      rw [ih, if_neg (by rw [lockedDoctor, hL]; exact fun hc => Option.noConfusion hc)]
      omega

theorem aget_of_mem_sorted (m : AssignMap) (p : Nat × Nat) (hs : KeysSorted m)
    (hp : p ∈ m) : aget m p.1 = some p.2 := by
  induction m with
  | nil => cases hp
  | cons q qs ih =>
    obtain ⟨hq, hqs⟩ := List.pairwise_cons.1 hs
    rcases List.mem_cons.1 hp with h | h
    · rw [h, aget_cons, if_pos rfl]
    · have hne : ¬ q.1 = p.1 := by
        have := hq p h
        omega
      rw [aget_cons, if_neg hne]
      exact ih hqs h

/-- Every weekend block touched by the locked prefix is among the locked
weekend blocks of the whole walked range. -/
theorem blocksOf_lockListUpTo_subset (input : ScheduleInput) (id : Nat)
    (n m : Nat) (hnm : n ≤ m) :
    ∀ x ∈ blocksOf input (lockListUpTo input n) id,
      x ∈ lockedBlocksUpTo input id m := by
  intro x hx
  rw [blocksOf, List.mem_dedup, List.mem_filterMap] at hx
  obtain ⟨p, hp, hpk⟩ := hx
  rw [List.mem_filter] at hp
  have hrange := lockListUpTo_keys_le input n p hp.1
  have hval : p.2 = id := by simpa using hp.2
  have hlockp : input.locks p.1 = some p.2 := by
    have := aget_lockListUpTo input n p.1
    rw [if_pos hrange] at this
    rw [← this]
    exact aget_of_mem_sorted _ p (lockListUpTo_sorted input n) hp.1
  rw [lockedBlocksUpTo, List.mem_dedup, List.mem_filterMap]
  refine ⟨p.1 - 1, ?_, ?_⟩
  · rw [List.mem_filter]
    constructor
    · rw [List.mem_range]
      omega
    · have he : p.1 - 1 + 1 = p.1 := by omega
      rw [he, lockedDoctor, hlockp, hval]
      simp
  · have he : p.1 - 1 + 1 = p.1 := by omega
    rw [he]
    exact hpk

/-- The weekend block of a locked day lies among the locked weekend blocks
of the walked range. -/
theorem mem_lockedBlocksUpTo (input : ScheduleInput) (id day m : Nat)
    (h1 : 1 ≤ day) (h2 : day ≤ m)
    (hlock : input.locks day = some id) (k : BlockKey)
    (hk : weekendBlockKey input.year input.month (day : Int) = some k) :
    k ∈ lockedBlocksUpTo input id m := by
  rw [lockedBlocksUpTo, List.mem_dedup, List.mem_filterMap]
  refine ⟨day - 1, ?_, ?_⟩
  · rw [List.mem_filter]
    constructor
    · rw [List.mem_range]
      omega
    · have he : day - 1 + 1 = day := by omega
      rw [he, lockedDoctor, hlock]
      simp
  · have he : day - 1 + 1 = day := by omega
    rw [he]
    exact hk

/-- A clean walk up to `n` means every earlier step was clean, at that
step's running counts. -/
theorem walk_clean_step (input : ScheduleInput) (targets : Nat → Int)
    (wanted : Nat → List Nat) :
    ∀ n, (validateLocksWalk input targets wanted n).1 = [] →
      ∀ d, d < n →
        (validateLockDay input targets wanted
          (validateLocksWalk input targets wanted d).2 (d + 1)).1 = [] := by
  intro n
  induction n with
  | zero =>
    intro _ d hd
    omega
  | succ n ih =>
    intro h d hd
    simp only [validateLocksWalk] at h
    obtain ⟨h1, h2⟩ := List.append_eq_nil.1 h
    by_cases hdn : d < n
    · exact ih h1 d hdn
    · have he : d = n := by omega
      rw [he]
      exact h2

/-- A clean walk's running counts are the running lock counts. -/
theorem walk_counts (input : ScheduleInput) (targets : Nat → Int)
    (wanted : Nat → List Nat) :
    ∀ n, (validateLocksWalk input targets wanted n).1 = [] →
      ∀ i, (validateLocksWalk input targets wanted n).2 i =
        (lockCountUpTo input i n : Int) := by
  intro n
  induction n with
  | zero =>
    intro _ i
    rfl
  | succ n ih =>
    intro h i
    simp only [validateLocksWalk] at h ⊢
    obtain ⟨h1, h2⟩ := List.append_eq_nil.1 h
    have hc := ih h1
    rw [lockCountUpTo_succ]
    cases hL : input.locks (n + 1) with
    | none =>
      have hstep : (validateLockDay input targets wanted
          (validateLocksWalk input targets wanted n).2 (n + 1)).2 =
          (validateLocksWalk input targets wanted n).2 := by
        simp only [validateLockDay, lockedDoctor, hL]
      rw [hstep, hc i,
        if_neg (by rw [lockedDoctor, hL]; exact fun hcon => Option.noConfusion hcon)]
      omega
    | some L =>
      cases hf : input.doctors.find? (fun dd => dd.id = L) with
      | none =>
        exfalso
        have hmiss : (validateLockDay input targets wanted
            (validateLocksWalk input targets wanted n).2 (n + 1)).1 =
            [msgLockMissing (n + 1)] := by
          simp only [validateLockDay, lockedDoctor, hL, hf]
        rw [hmiss] at h2
        exact List.cons_ne_nil _ _ h2
      | some doctor =>
        have hstep : (validateLockDay input targets wanted
            (validateLocksWalk input targets wanted n).2 (n + 1)).2 =
            fun j => if j = L then
                (validateLocksWalk input targets wanted n).2 L + 1
              else (validateLocksWalk input targets wanted n).2 j := by
          simp only [validateLockDay, lockedDoctor, hL, hf]
        rw [hstep]
        simp only []
        by_cases hi : i = L
        · subst hi
          rw [if_pos rfl, hc i, if_pos (by rw [lockedDoctor, hL])]
          push_cast
          omega
        · rw [if_neg hi, hc i,
            if_neg (by
              rw [lockedDoctor, hL]
              exact fun hcon => hi (Option.some.inj hcon).symm)]
          omega

/-- A clean locked day's worker exists in the roster. -/
theorem lockDay_clean_find (input : ScheduleInput) (targets : Nat → Int)
    (wanted : Nat → List Nat) (cb : Nat → Int) (day L : Nat)
    (hlock : input.locks day = some L)
    (hclean : (validateLockDay input targets wanted cb day).1 = []) :
    ∃ doctor, input.doctors.find? (fun d => d.id = L) = some doctor := by
  cases hf : input.doctors.find? (fun d => d.id = L) with
  | some doctor => exact ⟨doctor, rfl⟩
  | none =>
    exfalso
    have hmiss : (validateLockDay input targets wanted cb day).1 =
        [msgLockMissing day] := by
      simp only [validateLockDay, lockedDoctor, hlock, hf]
    rw [hmiss] at hclean
    exact List.cons_ne_nil _ _ hclean

/-- What a clean locked day's checks guarantee. -/
theorem lockDay_clean_facts (input : ScheduleInput) (targets : Nat → Int)
    (wanted : Nat → List Nat) (cb : Nat → Int) (day L : Nat) (doctor : Doctor)
    (hlock : input.locks day = some L)
    (hfind : input.doctors.find? (fun d => d.id = L) = some doctor)
    (hclean : (validateLockDay input targets wanted cb day).1 = []) :
    (∀ fid, forcedWantDoctorForDay day wanted cb targets = some fid → fid = L) ∧
    ¬ preferenceAt input L day = 1 ∧
    ¬ (isLeadershipDoctor doctor = true ∧
      isWeekendServiceDay input.year input.month (day : Int) = true) ∧
    ¬ (isTuesdayOrThursday input.year input.month (day : Int) = true ∧
      ¬ isCertifiedDoctor doctor = true) ∧
    ¬ (day = 1 ∧ hasCrossMonthRestBlock L input.prevLastDoctorId = true) ∧
    ¬ (day > 1 ∧ input.locks (day - 1) = some L) := by
  simp only [validateLockDay, lockedDoctor, hlock, hfind] at hclean
  obtain ⟨h15, h6⟩ := List.append_eq_nil.1 hclean
  obtain ⟨h14, h5⟩ := List.append_eq_nil.1 h15
  obtain ⟨h13, h4⟩ := List.append_eq_nil.1 h14
  obtain ⟨h12, h3⟩ := List.append_eq_nil.1 h13
  obtain ⟨h1, h2⟩ := List.append_eq_nil.1 h12
  refine ⟨?_, ?_, ?_, ?_, ?_, ?_⟩
  · intro fid hf
    by_contra hne
    rw [hf] at h1
    simp only [] at h1
    rw [if_pos hne] at h1
    exact List.cons_ne_nil _ _ h1
  · intro hp
    rw [if_pos hp] at h2
    exact List.cons_ne_nil _ _ h2
  · intro hc
    rw [if_pos hc] at h3
    exact List.cons_ne_nil _ _ h3
  · intro hc
    rw [if_pos hc] at h4
    exact List.cons_ne_nil _ _ h4
  · intro hc
    rw [if_pos hc] at h5
    exact List.cons_ne_nil _ _ h5
  · intro hc
    rw [if_pos hc] at h6
    exact List.cons_ne_nil _ _ h6

/-- What a clean validator run guarantees: a clean day walk and, per
doctor, lock count within cap and at most 2 locked weekend blocks. -/
theorem validateLocks_clean (input : ScheduleInput) (caps targets : Nat → Int)
    (wanted : Nat → List Nat)
    (h : validateLocks input caps targets wanted = []) :
    (validateLocksWalk input targets wanted
      (daysInMonth input.year input.month)).1 = [] ∧
    ∀ doctor ∈ input.doctors,
      (lockCountUpTo input doctor.id (daysInMonth input.year input.month) : Int) ≤
        caps doctor.id ∧
      (lockedBlocksUpTo input doctor.id
        (daysInMonth input.year input.month)).length ≤ 2 := by
  simp only [validateLocks] at h
  obtain ⟨h1, h2⟩ := List.append_eq_nil.1 h
  refine ⟨h1, ?_⟩
  intro doctor hdoc
  have h3 := List.flatMap_eq_nil_iff.1 h2 doctor hdoc
  obtain ⟨h4, h5⟩ := List.append_eq_nil.1 h3
  constructor
  · by_contra hcap
    rw [if_pos (lt_of_not_le hcap)] at h4
    exact List.cons_ne_nil _ _ h4
  · by_contra hblk
    rw [if_pos (Nat.lt_of_not_le hblk)] at h5
    exact List.cons_ne_nil _ _ h5

/-- Introduction form of the tail checks of the hard predicate. -/
theorem isHardAllowedTail_intro (ctx : SolveCtx) (day : Nat) (doc : Doctor)
    (s : SolveState)
    (h1 : ¬ preferenceAt ctx.input doc.id day = 1)
    (h2 : ¬ (day = 1 ∧
      hasCrossMonthRestBlock doc.id ctx.input.prevLastDoctorId = true))
    (h3 : ¬ (isLeadershipDoctor doc = true ∧
      isWeekendServiceDay ctx.input.year ctx.input.month (day : Int) = true))
    (h4 : ¬ (isTuesdayOrThursday ctx.input.year ctx.input.month (day : Int) = true ∧
      ¬ isCertifiedDoctor doc = true))
    (h5 : ¬ s.counts doc.id + 1 > ctx.caps doc.id)
    (h6 : ¬ (ctx.strictTargets = true ∧ s.counts doc.id + 1 > ctx.targets doc.id))
    (h7 : ¬ aget s.assignments (day - 1) = some doc.id)
    (h8 : ¬ aget s.assignments (day + 1) = some doc.id)
    (h9 : ∀ k, weekendBlockKey ctx.input.year ctx.input.month (day : Int) = some k →
      ¬ (¬ s.weekendBlocksByDoctor doc.id k > 0 ∧
        s.weekendBlockTotals doc.id ≥ 2)) :
    isHardAllowed.isHardAllowedTail ctx day doc s = true := by
  unfold isHardAllowed.isHardAllowedTail
  simp only []
  rw [if_neg h1, if_neg h2, if_neg h3, if_neg h4, if_neg h5, if_neg h6,
    if_neg h7, if_neg h8]
  cases hk : weekendBlockKey ctx.input.year ctx.input.month (day : Int) with
  | none => rfl
  | some k =>
    show (if ¬ s.weekendBlocksByDoctor doc.id k > 0 ∧
        s.weekendBlockTotals doc.id ≥ 2 then false else true) = true
    rw [if_neg (h9 k hk)]

/-- Introduction form of the hard predicate. -/
theorem isHardAllowed_intro (ctx : SolveCtx) (day : Nat) (doc : Doctor)
    (s : SolveState)
    (h0 : ∀ fid, forcedWantDoctorForDay day ctx.wanted s.counts ctx.targets =
      some fid → fid = doc.id)
    (hL : ∀ L, lockedDoctor ctx.input day = some L → L = doc.id)
    (htail : isHardAllowed.isHardAllowedTail ctx day doc s = true) :
    isHardAllowed ctx day doc s = true := by
  have hrest : isHardAllowed.isHardAllowedRest ctx day doc s = true := by
    unfold isHardAllowed.isHardAllowedRest
    simp only []
    cases hl : lockedDoctor ctx.input day with
    | none => exact htail
    | some L2 =>
      show (if ¬ L2 = doc.id then false
        else isHardAllowed.isHardAllowedTail ctx day doc s) = true
      rw [if_neg (fun hc => hc (hL L2 hl))]
      exact htail
  unfold isHardAllowed
  cases hf : forcedWantDoctorForDay day ctx.wanted s.counts ctx.targets with
  | none => exact hrest
  | some fid =>
    show (if ¬ fid = doc.id then false
      else isHardAllowed.isHardAllowedRest ctx day doc s) = true
    rw [if_neg (fun hc => hc (h0 fid hf))]
    exact hrest

/-- The forced want worker only depends on the counts pointwise. -/
theorem forcedWant_congr (day : Nat) (wanted : Nat → List Nat)
    (c1 c2 : Nat → Int) (targets : Nat → Int) (h : ∀ i, c1 i = c2 i) :
    forcedWantDoctorForDay day wanted c1 targets =
      forcedWantDoctorForDay day wanted c2 targets := by
  rw [forcedWantDoctorForDay, forcedWantDoctorForDay]
  congr 1
  funext id
  rw [h id]

/-- A clean walk stays clean on every prefix. -/
theorem walk_clean_prefix (input : ScheduleInput) (targets : Nat → Int)
    (wanted : Nat → List Nat) :
    ∀ m, (validateLocksWalk input targets wanted m).1 = [] →
      ∀ n, n ≤ m → (validateLocksWalk input targets wanted n).1 = [] := by
  intro m
  induction m with
  | zero =>
    intro h n hn
    have he : n = 0 := by omega
    rw [he]
    exact h
  | succ m ih =>
    intro h n hn
    by_cases he : n = m + 1
    · rw [he]
      exact h
    · have h1 : (validateLocksWalk input targets wanted m).1 = [] := by
        have h2 := h
        simp only [validateLocksWalk] at h2
        exact (List.append_eq_nil.1 h2).1
      exact ih h1 n (by omega)

/-- Casting the fully-locked prefix draft record back to an assignment map
gives the locked prefix. -/
theorem draftToAssignMap_map_locks (input : ScheduleInput) :
    ∀ n, draftToAssignMap ((List.range' 1 n).map fun d => (d, input.locks d)) =
      lockListUpTo input n := by
  intro n
  induction n with
  | zero => rfl
  | succ n ih =>
    rw [range'_one_concat, List.map_append, draftToAssignMap_append, ih,
      lockListUpTo]
    have hone : draftToAssignMap (List.map (fun d => (d, input.locks d)) [n + 1]) =
        draftToAssignMap [(n + 1, input.locks (n + 1))] := rfl
    rw [hone]
    cases hL : input.locks (n + 1) with
    | some L => rfl
    | none => exact List.append_nil _

/-- Sorted maps with the same lookups are equal. -/
theorem aget_ext : ∀ (m1 m2 : AssignMap), KeysSorted m1 → KeysSorted m2 →
    (∀ d, aget m1 d = aget m2 d) → m1 = m2 := by
  intro m1
  induction m1 with
  | nil =>
    intro m2 _ _ h
    cases m2 with
    | nil => rfl
    | cons q qs =>
      have h2 := h q.1
      rw [aget_cons, if_pos rfl] at h2
      exact Option.noConfusion h2
  | cons p ps ih =>
    intro m2 hs1 hs2 h
    obtain ⟨hp1, hps⟩ := List.pairwise_cons.1 hs1
    cases m2 with
    | nil =>
      have h2 := h p.1
      rw [aget_cons, if_pos rfl] at h2
      exact Option.noConfusion h2
    | cons q qs =>
      obtain ⟨hq1, hqs⟩ := List.pairwise_cons.1 hs2
      have hkey : p.1 = q.1 := by
        by_contra hne
        rcases Nat.lt_or_ge p.1 q.1 with hlt | hge
        · have h2 := h p.1
          rw [aget_cons, if_pos rfl] at h2
          rw [aget_cons, if_neg (by omega)] at h2
          have hnone : aget qs p.1 = none :=
            aget_eq_none_of_not_mem_keys _ _ (by
              intro hmem
              rw [List.mem_map] at hmem
              obtain ⟨r, hr, hre⟩ := hmem
              have := hq1 r hr
              omega)
          rw [hnone] at h2
          exact Option.noConfusion h2
        · have hlt2 : q.1 < p.1 := by omega
          have h2 := h q.1
          have hnone : aget ps q.1 = none :=
            aget_eq_none_of_not_mem_keys _ _ (by
              intro hmem
              rw [List.mem_map] at hmem
              obtain ⟨r, hr, hre⟩ := hmem
              have := hp1 r hr
              omega)
          rw [aget_cons, if_neg (by omega), hnone] at h2
          rw [aget_cons, if_pos rfl] at h2
          exact Option.noConfusion h2
      have hval : p.2 = q.2 := by
        have h2 := h p.1
        rw [aget_cons, if_pos rfl] at h2
        rw [aget_cons, if_pos hkey.symm] at h2
        exact Option.some.inj h2
      have htail : ∀ d, aget ps d = aget qs d := by
        intro d
        by_cases hdp : d = p.1
        · rw [hdp]
          rw [aget_eq_none_of_not_mem_keys _ _ (by
              intro hmem
              rw [List.mem_map] at hmem
              obtain ⟨r, hr, hre⟩ := hmem
              have := hp1 r hr
              omega),
            aget_eq_none_of_not_mem_keys _ _ (by
              intro hmem
              rw [List.mem_map] at hmem
              obtain ⟨r, hr, hre⟩ := hmem
              have := hq1 r hr
              omega)]
        · have h2 := h d
          rw [aget_cons, if_neg (fun hc => hdp hc.symm)] at h2
          rw [aget_cons, if_neg (fun hc => hdp (hc.symm.trans hkey.symm))] at h2
          exact h2
      rw [ih qs hps hqs htail, Prod.ext hkey hval]

/-- Over a fully-locked, validator-clean request the proposal builder's
forward pass assigns every day its locked worker. -/
theorem draftLoop_locked (ctx : SolveCtx) (stream : Nat → Frac) (rc0 : Nat)
    (hwf : wfInput ctx.input)
    (hstrict : ctx.strictTargets = false)
    (hfull : ∀ d, d ≤ daysInMonth ctx.input.year ctx.input.month → 1 ≤ d →
      ¬ ctx.input.locks d = none)
    (hclean : validateLocks ctx.input ctx.caps ctx.targets ctx.wanted = []) :
    ∀ n, n ≤ daysInMonth ctx.input.year ctx.input.month →
      (draftLoop ctx stream n (draftInit ctx.input.doctors, rc0)).1.assignments =
        (List.range' 1 n).map fun d => (d, ctx.input.locks d) := by
  obtain ⟨hwalk, hperdoc⟩ := validateLocks_clean ctx.input ctx.caps ctx.targets
    ctx.wanted hclean
  intro n
  induction n with
  | zero =>
    intro _
    rfl
  | succ n ih =>
    intro hn
    have hprev := ih (by omega)
    obtain ⟨hInv, hkeys, hcorr, hle⟩ := draftLoop_spec ctx stream rc0 hwf n
      (show n ≤ daysInMonth ctx.input.year ctx.input.month by omega)
    have hstA : (draftLoop ctx stream n
        (draftInit ctx.input.doctors, rc0)).1.state.assignments =
        lockListUpTo ctx.input n := by
      rw [hcorr, hprev, draftToAssignMap_map_locks]
    cases hfl : ctx.input.locks (n + 1) with
    | none => exact absurd hfl (hfull (n + 1) (by omega) (by omega))
    | some L =>
      have hstep := walk_clean_step ctx.input ctx.targets ctx.wanted
        (daysInMonth ctx.input.year ctx.input.month) hwalk n (by omega)
      obtain ⟨doctor, hfind⟩ := lockDay_clean_find ctx.input ctx.targets
        ctx.wanted _ (n + 1) L hfl hstep
      have hfacts := lockDay_clean_facts ctx.input ctx.targets ctx.wanted _
        (n + 1) L doctor hfl hfind hstep
      have hdocid : doctor.id = L := by
        have := List.find?_some hfind
        simpa using this
      have hdocmem : doctor ∈ ctx.input.doctors := List.mem_of_find?_eq_some hfind
      have hwalkn : (validateLocksWalk ctx.input ctx.targets ctx.wanted n).1 = [] :=
        walk_clean_prefix ctx.input ctx.targets ctx.wanted
          (daysInMonth ctx.input.year ctx.input.month) hwalk n (by omega)
      have hcounts : ∀ i, (draftLoop ctx stream n
          (draftInit ctx.input.doctors, rc0)).1.state.counts i =
          (lockCountUpTo ctx.input i n : Int) := by
        intro i
        rw [hInv.counts_eq i, hstA, countVal_lockListUpTo]
      have hcountsW : ∀ i, (draftLoop ctx stream n
          (draftInit ctx.input.doctors, rc0)).1.state.counts i =
          (validateLocksWalk ctx.input ctx.targets ctx.wanted n).2 i := by
        intro i
        rw [hcounts i, walk_counts ctx.input ctx.targets ctx.wanted n hwalkn i]
      have hHA : isHardAllowed ctx (n + 1) doctor
          (draftLoop ctx stream n (draftInit ctx.input.doctors, rc0)).1.state =
          true := by
        refine isHardAllowed_intro ctx (n + 1) doctor _ ?_ ?_
          (isHardAllowedTail_intro ctx (n + 1) doctor _ ?_ ?_ ?_ ?_ ?_ ?_ ?_ ?_ ?_)
        · intro fid hf
          rw [forcedWant_congr _ _ _ _ _ hcountsW] at hf
          exact (hfacts.1 fid hf).trans hdocid.symm
        · intro L2 hL2
          rw [lockedDoctor, hfl] at hL2
          exact (Option.some.inj hL2).symm.trans hdocid.symm
        · rw [hdocid]
          exact hfacts.2.1
        · rw [hdocid]
          exact hfacts.2.2.2.2.1
        · exact hfacts.2.2.1
        · exact hfacts.2.2.2.1
        · intro hcap
          have hc1 := hcounts doctor.id
          have hc2 := (hperdoc doctor hdocmem).1
          have hc3 : lockCountUpTo ctx.input doctor.id (n + 1) =
              lockCountUpTo ctx.input doctor.id n + 1 := by
            rw [lockCountUpTo_succ,
              if_pos (show lockedDoctor ctx.input (n + 1) = some doctor.id by
                rw [lockedDoctor, hfl, hdocid])]
          have hc4 := lockCountUpTo_mono ctx.input doctor.id (n + 1)
            (daysInMonth ctx.input.year ctx.input.month) hn
          rw [hc1] at hcap
          omega
        · intro hc
          rw [hstrict] at hc
          exact Bool.noConfusion hc.1
        · intro hprevday
          rw [hstA, aget_lockListUpTo] at hprevday
          by_cases hn0 : 1 ≤ n
          · rw [if_pos (show 1 ≤ n + 1 - 1 ∧ n + 1 - 1 ≤ n by omega)] at hprevday
            rw [hdocid] at hprevday
            exact hfacts.2.2.2.2.2 ⟨by omega, hprevday⟩
          · rw [if_neg (by omega)] at hprevday
            exact Option.noConfusion hprevday
        · intro hnextday
          rw [hstA, aget_lockListUpTo, if_neg (by omega)] at hnextday
          exact Option.noConfusion hnextday
        · intro k hk hcon
          obtain ⟨hz, hge⟩ := hcon
          rw [hInv.blocks_eq, hstA] at hz
          rw [hInv.totals_eq, hstA] at hge
          have hcount0 : blockCountOf ctx.input (lockListUpTo ctx.input n)
              doctor.id k = 0 := by omega
          have hnotmem : ¬ k ∈ blocksOf ctx.input (lockListUpTo ctx.input n)
              doctor.id := by
            intro hmem
            exact (mem_blocksOf_iff ctx.input _ doctor.id k).1 hmem hcount0
          have hsub : (k :: blocksOf ctx.input (lockListUpTo ctx.input n)
              doctor.id) ⊆ lockedBlocksUpTo ctx.input doctor.id
                (daysInMonth ctx.input.year ctx.input.month) := by
            intro x hx
            rcases List.mem_cons.1 hx with h1 | h1
            · rw [h1]
              exact mem_lockedBlocksUpTo ctx.input doctor.id (n + 1) _
                (by omega) hn
                (show ctx.input.locks (n + 1) = some doctor.id by
                  rw [hfl, hdocid]) k hk
            · exact blocksOf_lockListUpTo_subset ctx.input doctor.id n _
                (by omega) x h1
          have hnodup : (k :: blocksOf ctx.input (lockListUpTo ctx.input n)
              doctor.id).Nodup :=
            List.nodup_cons.2 ⟨hnotmem, nodup_blocksOf _ _ _⟩
          have hlen := List.Subperm.length_le (List.subperm_of_subset hnodup hsub)
          have h2 := (hperdoc doctor hdocmem).2
          rw [List.length_cons] at hlen
          omega
      have hmemf : doctor ∈ ctx.input.doctors.filter fun doc =>
          isHardAllowed ctx (n + 1) doc (draftLoop ctx stream n
            (draftInit ctx.input.doctors, rc0)).1.state := by
        rw [List.mem_filter]
        exact ⟨hdocmem, by simpa using hHA⟩
      have hlen0 : ¬ (ctx.input.doctors.filter fun doc =>
          isHardAllowed ctx (n + 1) doc (draftLoop ctx stream n
            (draftInit ctx.input.doctors, rc0)).1.state).length = 0 := by
        intro hz
        rw [List.length_eq_zero] at hz
        rw [hz] at hmemf
        exact absurd hmemf (List.not_mem_nil _)
      rw [draftLoop]
      rw [draftDay]
      simp only []
      rw [if_neg hlen0]
      cases hsorted : (sortRng (draftCmpRng ctx.input ctx.targets stream (n + 1)
          (draftLoop ctx stream n (draftInit ctx.input.doctors, rc0)).1.state)
          (ctx.input.doctors.filter fun doc => isHardAllowed ctx (n + 1) doc
            (draftLoop ctx stream n (draftInit ctx.input.doctors, rc0)).1.state)
          (draftLoop ctx stream n (draftInit ctx.input.doctors, rc0)).2).1 with
      | nil =>
        have hsl := sortRng_length (draftCmpRng ctx.input ctx.targets stream
          (n + 1) (draftLoop ctx stream n
            (draftInit ctx.input.doctors, rc0)).1.state)
          (ctx.input.doctors.filter fun doc => isHardAllowed ctx (n + 1) doc
            (draftLoop ctx stream n (draftInit ctx.input.doctors, rc0)).1.state)
          (draftLoop ctx stream n (draftInit ctx.input.doctors, rc0)).2
        rw [hsorted] at hsl
        exact absurd hsl.symm hlen0
      | cons chosen rest =>
        simp only []
        have hmem : chosen ∈ ctx.input.doctors.filter fun doc =>
            isHardAllowed ctx (n + 1) doc (draftLoop ctx stream n
              (draftInit ctx.input.doctors, rc0)).1.state :=
          sortRng_mem _ _ _ _ (by rw [hsorted]; exact List.mem_cons_self _ _)
        have hha2 : isHardAllowed ctx (n + 1) chosen (draftLoop ctx stream n
            (draftInit ctx.input.doctors, rc0)).1.state = true := by
          have := (List.mem_filter.1 hmem).2
          simpa using this
        obtain ⟨hlockc, _⟩ := isHardAllowed_parts _ _ _ _ hha2
        have hcid : chosen.id = L := hlockc L hfl
        rw [hprev, range'_one_concat, List.map_append]
        congr 1
        show [(n + 1, some chosen.id)] =
          [(n + 1, ctx.input.locks (n + 1))]
        rw [hfl, hcid]

/-- C4: a request in which every day of the month is locked and the lock
validator reports no issues produces a success whose assignment map is
exactly the lock map (the locked prefix over days 1..N): whichever pipeline
stage succeeds, each binding must honor its lock and every day is covered,
and stages cannot all fail because the proposal builder assigns each day
its locked worker. -/
theorem C4_fully_locked (input : ScheduleInput) (stream : Nat → Frac)
    (hwf : wfInput input)
    (hfull : ∀ d, d ≤ daysInMonth input.year input.month → 1 ≤ d →
      ¬ input.locks d = none)
    (hclean : validateLocks input (initialCaps input) (sanitizeTargets input)
      (computeWantedDoctorsByDay input) = []) :
    resultOk (generateScheduleCore input stream) = true ∧
    resultAssignments (generateScheduleCore input stream) =
      lockListUpTo input (daysInMonth input.year input.month) := by
  have hok : resultOk (generateScheduleCore input stream) = true := by
    simp only [generateScheduleCore]
    rw [if_neg (fun hc => hc hclean)]
    cases hstrict : solveWithCaps input (initialCaps input) (sanitizeTargets input)
        (computeWantedDoctorsByDay input) stream true 0 with
    | mk r1 rc1 =>
      cases r1 with
      | ok a => rfl
      | err e1 =>
        simp only []
        cases hrel : solveWithCaps input (initialCaps input)
            (sanitizeTargets input) (computeWantedDoctorsByDay input) stream
            false rc1 with
        | mk r2 rc2 =>
          cases r2 with
          | ok a => rfl
          | err e2 =>
            simp only []
            have hdl := draftLoop_locked
              { input := input, caps := initialCaps input
                targets := sanitizeTargets input
                wanted := computeWantedDoctorsByDay input
                strictTargets := false } stream rc2 hwf rfl hfull hclean
              (daysInMonth input.year input.month) (le_refl _)
            have hall : ((buildDraftProposal input (initialCaps input)
                (sanitizeTargets input) (computeWantedDoctorsByDay input)
                stream rc2).1.assignments.all fun p => ¬ p.2 = none) = true := by
              have hbd : (buildDraftProposal input (initialCaps input)
                  (sanitizeTargets input) (computeWantedDoctorsByDay input)
                  stream rc2).1.assignments =
                (draftLoop
                  { input := input, caps := initialCaps input
                    targets := sanitizeTargets input
                    wanted := computeWantedDoctorsByDay input
                    strictTargets := false } stream
                  (daysInMonth input.year input.month)
                  (draftInit input.doctors, rc2)).1.assignments := rfl
              rw [hbd, hdl, List.all_eq_true]
              intro p hp
              rw [List.mem_map] at hp
              obtain ⟨d, hd, he⟩ := hp
              rw [← he]
              have hdr := List.mem_range'_1.1 hd
              cases hld : input.locks d with
              | none =>
                exact absurd hld (hfull d (by omega) (by omega))
              | some v => simp [hld]
            rw [if_pos hall]
            rfl
  refine ⟨hok, ?_⟩
  obtain ⟨hs, hl, hr, hb, _, _⟩ := genCore_success_props input stream hwf hok
  have hkeys := keys_eq_range input _ hs hr hl
  refine aget_ext _ _ hs (lockListUpTo_sorted input _) ?_
  intro d
  rw [aget_lockListUpTo]
  by_cases hd : 1 ≤ d ∧ d ≤ daysInMonth input.year input.month
  · rw [if_pos hd]
    have hdm : d ∈ (resultAssignments (generateScheduleCore input stream)).map
        Prod.fst := by
      rw [hkeys, List.mem_range'_1]
      omega
    rw [List.mem_map] at hdm
    obtain ⟨p, hp, hpd⟩ := hdm
    have hag : aget (resultAssignments (generateScheduleCore input stream)) d =
        some p.2 := by
      rw [← hpd]
      exact aget_of_mem_sorted _ p hs hp
    rw [hag]
    obtain ⟨doc2, _, hid, hlockOK, _, _, _, _⟩ := hb p hp
    cases hld : input.locks d with
    | none => exact absurd hld (hfull d (by omega) (by omega))
    | some Ld =>
      have hv := hlockOK Ld (by rw [hpd]; exact hld)
      rw [hv]
  · rw [if_neg hd]
    refine aget_eq_none_of_not_mem_keys _ _ ?_
    rw [hkeys]
    intro hmem
    rw [List.mem_range'_1] at hmem
    omega

/-- C4: witness: the fully-locked February 2027 request succeeds and
returns exactly its lock map. -/
theorem C4_fully_locked_witness :
    wfInput inputLocked ∧
    validateLocks inputLocked (initialCaps inputLocked)
      (sanitizeTargets inputLocked) (computeWantedDoctorsByDay inputLocked) = [] ∧
    (resultOk (generateScheduleCore inputLocked extZero) = true ∧
     resultAssignments (generateScheduleCore inputLocked extZero) =
       lockListUpTo inputLocked
         (daysInMonth inputLocked.year inputLocked.month)) :=
  ⟨by unfold wfInput; decide, by decide,
    C4_fully_locked inputLocked extZero (by unfold wfInput; decide) (by decide)
      (by decide)⟩

end Kalendar
